import Mathlib

/-!
Verification development for the RollingStatistics library
(`rolling_statistics.hpp`, namespace RS).

The C++ engines operate on IEEE doubles whose only relevant non-numeric
value here is NaN.  We model a double as either the NaN sentinel or an
exact rational number; double arithmetic on non-NaN operands is modelled
by exact rational arithmetic, and every operation involving NaN yields
NaN (as IEEE arithmetic does).  `std::vector`s indexed by a moment index
are modelled as functions from the index, `std::queue`s / `std::deque`s
as Lean lists with the front of the container at the head of the list.
The `pow(x, 1.5)` / `sqrt(x)` calls of the skewness and z-score engines
have no exact rational counterpart; the statistics that divide by them
take an arbitrary function modelling `sqrt` as a parameter (no verified
claim depends on its values).
-/

namespace RS

/-- A double: the NaN sentinel or a finite value, modelled as an exact
rational. -/
inductive Val : Type where
  | nan : Val
  | num : ℚ → Val
deriving DecidableEq

namespace Val

/-- Model of `std::isnan`. -/
def isnan : Val → Bool
  | .nan => true
  | .num _ => false

/-- The rational payload of a non-NaN value (junk 0 on NaN; only ever
read on non-NaN values). -/
def toQ : Val → ℚ
  | .nan => 0
  | .num q => q

/-- Double multiplication: NaN propagates, otherwise exact. -/
def mul : Val → Val → Val
  | .num a, .num b => .num (a * b)
  | _, _ => .nan

end Val

/-- `EPSILON = 1.0e-16` from the source, as an exact rational. -/
def EPSILON : ℚ := 1 / 10 ^ 16

/-- The `compute()` dispatcher of the base class `RollingStatistics`:
returns NaN when `num_vals_notnan == 0 || (!skip_nan && num_vals_nan > 0)`,
otherwise the result of the (virtual) `compute_aux`. -/
def computeWith (skip_nan : Bool) (num_vals_nan num_vals_notnan : ℕ)
    (aux : Val) : Val :=
  if num_vals_notnan = 0 ∨ (skip_nan = false ∧ 0 < num_vals_nan) then .nan
  else aux

/-! ### The moment-statistics family (`RollingMomentStatistics`) -/

/-- State of `RollingMomentStatistics<D>`: the running power sums, one
FIFO queue of pushed values per maintained moment, the two validity
counters, and the construction-time parameters. -/
structure MomentState : Type where
  skip_nan : Bool
  num_moments : ℕ
  unnormalized_moments : ℕ → ℚ
  vecs_in_window : ℕ → List Val
  num_vals_nan : ℕ
  num_vals_notnan : ℕ

namespace MomentState

/-- `size()` of the base class: `num_vals_nan + num_vals_notnan`. -/
def size (s : MomentState) : ℕ := s.num_vals_nan + s.num_vals_notnan

/-- `clear()`: reset the sums, the queues and the counters, keeping the
construction-time parameters. -/
def clear (s : MomentState) : MomentState :=
  { s with
    unnormalized_moments := fun _ => 0
    vecs_in_window := fun _ => []
    num_vals_nan := 0
    num_vals_notnan := 0 }

/-- The freshly constructed engine (the constructor stores the
parameters and calls `clear()`). -/
def init (skip_nan_ : Bool) (num_moments_ : ℕ) : MomentState :=
  MomentState.clear
    { skip_nan := skip_nan_
      num_moments := num_moments_
      unnormalized_moments := fun _ => 0
      vecs_in_window := fun _ => []
      num_vals_nan := 0
      num_vals_notnan := 0 }

/-- `push_aux(val, index)`: enqueue `val` on queue `index`; if it is not
NaN add it into moment `index`, counting validity only at index 0. -/
def push_aux (s : MomentState) (val : Val) (index : ℕ) : MomentState :=
  let s1 := { s with
    vecs_in_window :=
      Function.update s.vecs_in_window index (s.vecs_in_window index ++ [val]) }
  if val.isnan then
    { s1 with
      num_vals_nan := if index = 0 then s1.num_vals_nan + 1 else s1.num_vals_nan }
  else
    { s1 with
      unnormalized_moments :=
        Function.update s1.unnormalized_moments index
          (s1.unnormalized_moments index + val.toQ)
      num_vals_notnan :=
        if index = 0 then s1.num_vals_notnan + 1 else s1.num_vals_notnan }

/-- `pop_aux(index)`: undo the contribution of the front of queue
`index` and dequeue it.  The source asserts the queue is non-empty;
states violating that are unreachable under the pop discipline of the
verified claims, and the model leaves the state unchanged there. -/
def pop_aux (s : MomentState) (index : ℕ) : MomentState :=
  match s.vecs_in_window index with
  | [] => s
  | val :: rest =>
    let s1 :=
      if val.isnan then
        { s with
          num_vals_nan := if index = 0 then s.num_vals_nan - 1 else s.num_vals_nan }
      else
        { s with
          unnormalized_moments :=
            Function.update s.unnormalized_moments index
              (s.unnormalized_moments index - val.toQ)
          num_vals_notnan :=
            if index = 0 then s.num_vals_notnan - 1 else s.num_vals_notnan }
    { s1 with vecs_in_window := Function.update s1.vecs_in_window index rest }

/-- The default `pop()` of `RollingMomentStatistics`: `pop_aux` on every
moment index in order. -/
def pop (s : MomentState) : MomentState :=
  (List.range s.num_moments).foldl pop_aux s

/-- `compute()` of the base class, specialised to the moment family:
the validity gate followed by the engine's `compute_aux`. -/
def compute (s : MomentState) (aux : MomentState → Val) : Val :=
  computeWith s.skip_nan s.num_vals_nan s.num_vals_notnan (aux s)

end MomentState

namespace RollingMean

/-- `RollingMean` construction: one moment. -/
def init (skip_nan_ : Bool) : MomentState := MomentState.init skip_nan_ 1

/-- `RollingMean::push`. -/
def push (s : MomentState) (val : Val) : MomentState := s.push_aux val 0

/-- `RollingMean::compute_aux`: `Σx / n` with `n = num_vals_notnan`. -/
def compute_aux (s : MomentState) : Val :=
  let n : ℚ := s.num_vals_notnan
  .num (s.unnormalized_moments 0 / n)

/-- `RollingMean` `compute()`. -/
def compute (s : MomentState) : Val := s.compute compute_aux

end RollingMean

namespace RollingVariance

/-- `RollingVariance` construction: two moments. -/
def init (skip_nan_ : Bool) : MomentState := MomentState.init skip_nan_ 2

/-- `RollingVariance::push`. -/
def push (s : MomentState) (val : Val) : MomentState :=
  (s.push_aux val 0).push_aux (val.mul val) 1

/-- `RollingVariance::compute_aux`: `Σx²/n − mean²`. -/
def compute_aux (s : MomentState) : Val :=
  let n : ℚ := s.num_vals_notnan
  let x_mean : ℚ := s.unnormalized_moments 0 / n
  .num (s.unnormalized_moments 1 / n - x_mean * x_mean)

/-- `RollingVariance` `compute()`. -/
def compute (s : MomentState) : Val := s.compute compute_aux

end RollingVariance

namespace RollingSkewness

/-- `RollingSkewness` construction: three moments. -/
def init (skip_nan_ : Bool) : MomentState := MomentState.init skip_nan_ 3

/-- `RollingSkewness::push`. -/
def push (s : MomentState) (val : Val) : MomentState :=
  ((s.push_aux val 0).push_aux (val.mul val) 1).push_aux ((val.mul val).mul val) 2

/-- `RollingSkewness::compute_aux`: NaN when the window variance is below
`EPSILON`, otherwise the third central moment over `variance^1.5`.
`pow(x_var, 1.5)` is modelled as `x_var * sqrtQ x_var` for an arbitrary
function `sqrtQ` standing for the floating-point square root. -/
def compute_aux (sqrtQ : ℚ → ℚ) (s : MomentState) : Val :=
  let n : ℚ := s.num_vals_notnan
  let x_mean : ℚ := s.unnormalized_moments 0 / n
  let x_var : ℚ := s.unnormalized_moments 1 / n - x_mean * x_mean
  if x_var < EPSILON then .nan
  else
    .num ((s.unnormalized_moments 2 / n - 3 * (s.unnormalized_moments 1) / n * x_mean
      + 2 * x_mean * x_mean * x_mean) / (x_var * sqrtQ x_var))

/-- `RollingSkewness` `compute()`. -/
def compute (sqrtQ : ℚ → ℚ) (s : MomentState) : Val := s.compute (compute_aux sqrtQ)

end RollingSkewness

namespace RollingZScore

/-- `RollingZScore` construction: three accumulators
(`Σx`, current value, `Σx²`). -/
def init (skip_nan_ : Bool) : MomentState := MomentState.init skip_nan_ 3

/-- `RollingZScore::push`: normal push into `Σx`, a width-1 rolling
refresh of accumulator 1, and a normal push of the square into
accumulator 2. -/
def push (s : MomentState) (val : Val) : MomentState :=
  let s1 := s.push_aux val 0
  let s2 := if 1 ≤ (s1.vecs_in_window 1).length then s1.pop_aux 1 else s1
  let s3 := s2.push_aux val 1
  s3.push_aux (val.mul val) 2

/-- `RollingZScore::pop`: drains only accumulators 0 and 2. -/
def pop (s : MomentState) : MomentState := (s.pop_aux 0).pop_aux 2

/-- `RollingZScore::compute_aux`: `(x − mean)/sqrt(var)`, NaN when the
variance is below `EPSILON`; `sqrt` is modelled by an arbitrary
function `sqrtQ`. -/
def compute_aux (sqrtQ : ℚ → ℚ) (s : MomentState) : Val :=
  let n : ℚ := s.num_vals_notnan
  let x : ℚ := s.unnormalized_moments 1
  let x_mean : ℚ := s.unnormalized_moments 0 / n
  let x_var : ℚ := s.unnormalized_moments 2 / n - x_mean * x_mean
  if x_var < EPSILON then .nan
  else .num ((x - x_mean) / sqrtQ x_var)

/-- `RollingZScore` `compute()`. -/
def compute (sqrtQ : ℚ → ℚ) (s : MomentState) : Val := s.compute (compute_aux sqrtQ)

end RollingZScore

/-! ### The monotonic-extremum family (`RollingMax`, `RollingMin`) -/

/-- Model of the `while (!dq.empty() && pred(dq.back())) dq.pop_back();`
loop on a deque: drop from the back while the predicate holds. -/
def popBackWhile (p : ℚ → Bool) (l : List ℚ) : List ℚ :=
  (l.reverse.dropWhile p).reverse

/-- State of `RollingMax<D>`: the FIFO of raw window values, the
monotonic candidate deque (only non-NaN values ever enter it), and the
counters. -/
structure MaxState : Type where
  skip_nan : Bool
  vals_in_window : List Val
  maximums : List ℚ
  num_vals_nan : ℕ
  num_vals_notnan : ℕ

namespace MaxState

/-- `size()` of the base class. -/
def size (s : MaxState) : ℕ := s.num_vals_nan + s.num_vals_notnan

/-- `RollingMax::clear` (also the constructor body). -/
def clear (s : MaxState) : MaxState :=
  { s with
    vals_in_window := []
    maximums := []
    num_vals_nan := 0
    num_vals_notnan := 0 }

/-- Freshly constructed `RollingMax`. -/
def init (skip_nan_ : Bool) : MaxState :=
  MaxState.clear
    { skip_nan := skip_nan_
      vals_in_window := []
      maximums := []
      num_vals_nan := 0
      num_vals_notnan := 0 }

/-- `RollingMax::push`. -/
def push (s : MaxState) (val : Val) : MaxState :=
  let s1 := { s with vals_in_window := s.vals_in_window ++ [val] }
  match val with
  | .nan => { s1 with num_vals_nan := s1.num_vals_nan + 1 }
  | .num q =>
    { s1 with
      maximums := popBackWhile (fun b => decide (b < q)) s1.maximums ++ [q]
      num_vals_notnan := s1.num_vals_notnan + 1 }

/-- `RollingMax::pop`.  `front()` asserts a non-empty window; the model
leaves the state unchanged there (unreachable under the pop
discipline).  `maximums.front()` on an empty deque is likewise
unreachable for well-formed states. -/
def pop (s : MaxState) : MaxState :=
  match s.vals_in_window with
  | [] => s
  | val :: rest =>
    let s1 := { s with vals_in_window := rest }
    match val with
    | .nan => { s1 with num_vals_nan := s1.num_vals_nan - 1 }
    | .num q =>
      { s1 with
        maximums :=
          match s1.maximums with
          | [] => []
          | m :: ms => if q = m then ms else m :: ms
        num_vals_notnan := s1.num_vals_notnan - 1 }

/-- `RollingMax::compute_aux`: `maximums.front()` (the deque is
non-empty whenever the validity gate passes). -/
def compute_aux (s : MaxState) : Val := .num (s.maximums.headD 0)

/-- `RollingMax` `compute()`. -/
def compute (s : MaxState) : Val :=
  computeWith s.skip_nan s.num_vals_nan s.num_vals_notnan (compute_aux s)

end MaxState

/-- State of `RollingMin<D>` (mirror image of `RollingMax`). -/
structure MinState : Type where
  skip_nan : Bool
  vals_in_window : List Val
  minimums : List ℚ
  num_vals_nan : ℕ
  num_vals_notnan : ℕ

namespace MinState

/-- `size()` of the base class. -/
def size (s : MinState) : ℕ := s.num_vals_nan + s.num_vals_notnan

/-- `RollingMin::clear`. -/
def clear (s : MinState) : MinState :=
  { s with
    vals_in_window := []
    minimums := []
    num_vals_nan := 0
    num_vals_notnan := 0 }

/-- Freshly constructed `RollingMin`. -/
def init (skip_nan_ : Bool) : MinState :=
  MinState.clear
    { skip_nan := skip_nan_
      vals_in_window := []
      minimums := []
      num_vals_nan := 0
      num_vals_notnan := 0 }

/-- `RollingMin::push`. -/
def push (s : MinState) (val : Val) : MinState :=
  let s1 := { s with vals_in_window := s.vals_in_window ++ [val] }
  match val with
  | .nan => { s1 with num_vals_nan := s1.num_vals_nan + 1 }
  | .num q =>
    { s1 with
      minimums := popBackWhile (fun b => decide (q < b)) s1.minimums ++ [q]
      num_vals_notnan := s1.num_vals_notnan + 1 }

/-- `RollingMin::pop`. -/
def pop (s : MinState) : MinState :=
  match s.vals_in_window with
  | [] => s
  | val :: rest =>
    let s1 := { s with vals_in_window := rest }
    match val with
    | .nan => { s1 with num_vals_nan := s1.num_vals_nan - 1 }
    | .num q =>
      { s1 with
        minimums :=
          match s1.minimums with
          | [] => []
          | m :: ms => if q = m then ms else m :: ms
        num_vals_notnan := s1.num_vals_notnan - 1 }

/-- `RollingMin::compute_aux`: `minimums.front()`. -/
def compute_aux (s : MinState) : Val := .num (s.minimums.headD 0)

/-- `RollingMin` `compute()`. -/
def compute (s : MinState) : Val :=
  computeWith s.skip_nan s.num_vals_nan s.num_vals_notnan (compute_aux s)

end MinState

/-! ### The order-statistics family (`RollingRank`, `RollingOrderStatistics`)

The `__gnu_pbds` order-statistics tree with comparator `std::less_equal`
behaves as a multiset of the inserted values; we model its contents as a
list kept sorted by `≤`.  `insert` is ordered insertion,
`erase(upper_bound(val))` removes one stored instance equal to `val`
(the source's own comment: with `less_equal`, `erase(val)` must be
written this way), and `find_by_order(r)` is the element at sorted
position `r`. -/

/-- The C++ `static_cast<size_t>` applied to a non-negative double:
truncation toward zero, i.e. the floor.  (Casting a negative double to
`size_t` is undefined behaviour in the source; the claims about the
quantile engine assume a non-negative `order`.) -/
def castSizeT (q : ℚ) : ℕ := ⌊q⌋.toNat

/-- State of `RollingRank<D>`. -/
structure RankState : Type where
  skip_nan : Bool
  normalize : Bool
  vals_in_window : List Val
  ost : List ℚ
  num_vals_nan : ℕ
  num_vals_notnan : ℕ

namespace RankState

/-- `size()` of the base class. -/
def size (s : RankState) : ℕ := s.num_vals_nan + s.num_vals_notnan

/-- `RollingRank::clear`. -/
def clear (s : RankState) : RankState :=
  { s with
    vals_in_window := []
    ost := []
    num_vals_nan := 0
    num_vals_notnan := 0 }

/-- Freshly constructed `RollingRank`. -/
def init (skip_nan_ normalize_ : Bool) : RankState :=
  RankState.clear
    { skip_nan := skip_nan_
      normalize := normalize_
      vals_in_window := []
      ost := []
      num_vals_nan := 0
      num_vals_notnan := 0 }

/-- `RollingRank::push`. -/
def push (s : RankState) (val : Val) : RankState :=
  let s1 := { s with vals_in_window := s.vals_in_window ++ [val] }
  match val with
  | .nan => { s1 with num_vals_nan := s1.num_vals_nan + 1 }
  | .num q =>
    { s1 with
      ost := s1.ost.orderedInsert (· ≤ ·) q
      num_vals_notnan := s1.num_vals_notnan + 1 }

/-- `RollingRank::pop`. -/
def pop (s : RankState) : RankState :=
  match s.vals_in_window with
  | [] => s
  | val :: rest =>
    let s1 := { s with vals_in_window := rest }
    match val with
    | .nan => { s1 with num_vals_nan := s1.num_vals_nan - 1 }
    | .num q =>
      { s1 with
        ost := s1.ost.erase q
        num_vals_notnan := s1.num_vals_notnan - 1 }

end RankState

/-- State of `RollingOrderStatistics<D>` (quantile). -/
structure OrderStatState : Type where
  skip_nan : Bool
  normalize : Bool
  order : ℚ
  vals_in_window : List Val
  ost : List ℚ
  num_vals_nan : ℕ
  num_vals_notnan : ℕ

namespace OrderStatState

/-- `size()` of the base class. -/
def size (s : OrderStatState) : ℕ := s.num_vals_nan + s.num_vals_notnan

/-- `RollingOrderStatistics::clear`. -/
def clear (s : OrderStatState) : OrderStatState :=
  { s with
    vals_in_window := []
    ost := []
    num_vals_nan := 0
    num_vals_notnan := 0 }

/-- Freshly constructed `RollingOrderStatistics`. -/
def init (order_ : ℚ) (skip_nan_ normalize_ : Bool) : OrderStatState :=
  OrderStatState.clear
    { skip_nan := skip_nan_
      normalize := normalize_
      order := order_
      vals_in_window := []
      ost := []
      num_vals_nan := 0
      num_vals_notnan := 0 }

/-- `RollingOrderStatistics::push`. -/
def push (s : OrderStatState) (val : Val) : OrderStatState :=
  let s1 := { s with vals_in_window := s.vals_in_window ++ [val] }
  match val with
  | .nan => { s1 with num_vals_nan := s1.num_vals_nan + 1 }
  | .num q =>
    { s1 with
      ost := s1.ost.orderedInsert (· ≤ ·) q
      num_vals_notnan := s1.num_vals_notnan + 1 }

/-- `RollingOrderStatistics::pop`. -/
def pop (s : OrderStatState) : OrderStatState :=
  match s.vals_in_window with
  | [] => s
  | val :: rest =>
    let s1 := { s with vals_in_window := rest }
    match val with
    | .nan => { s1 with num_vals_nan := s1.num_vals_nan - 1 }
    | .num q =>
      { s1 with
        ost := s1.ost.erase q
        num_vals_notnan := s1.num_vals_notnan - 1 }

/-- `RollingOrderStatistics::compute_aux`:
`real_order = min(notnan − 1, size_t(normalize ? order * notnan : order))`,
then the element of the tree at sorted position `real_order`.
(The validity gate guarantees `notnan ≥ 1`, so the `size_t` subtraction
`notnan − 1` does not wrap and the position is in range.) -/
def compute_aux (s : OrderStatState) : Val :=
  let real_order : ℕ :=
    min (s.num_vals_notnan - 1)
      (castSizeT (if s.normalize then s.order * s.num_vals_notnan else s.order))
  .num (s.ost.getD real_order 0)

/-- `RollingOrderStatistics` `compute()`. -/
def compute (s : OrderStatState) : Val :=
  computeWith s.skip_nan s.num_vals_nan s.num_vals_notnan (compute_aux s)

end OrderStatState

/-! ### Operation sequences

The claims quantify over sequences of `clear` / `push` / `pop` calls in
which pops never outnumber pushes since the last clear.  `netCount`
computes the number of pushes minus pops since the last clear and
returns `none` exactly when some pop hits an empty window. -/

/-- One public mutating operation of an engine. -/
inductive Op : Type where
  | push : Val → Op
  | pop : Op
  | clear : Op
deriving DecidableEq

/-- Net-size bookkeeping for a single operation; `none` marks a pop on
an empty window (a precondition violation in the source). -/
def countStep : Option ℕ → Op → Option ℕ
  | none, _ => none
  | some k, .push _ => some (k + 1)
  | some 0, .pop => none
  | some (k + 1), .pop => some k
  | some _, .clear => some 0

/-- Number of pushes minus pops since the last clear, `none` when some
pop exceeded the pushes. -/
def netCount (ops : List Op) : Option ℕ := ops.foldl countStep (some 0)

/-- Run an engine with step function `step` from state `init` over an
operation sequence. -/
def runOps {σ : Type} (step : σ → Op → σ) (init : σ) (ops : List Op) : σ :=
  ops.foldl step init

/-- Step function of the `RollingMean` engine. -/
def RollingMean.step (s : MomentState) : Op → MomentState
  | .push v => RollingMean.push s v
  | .pop => s.pop
  | .clear => s.clear

/-- Step function of the `RollingVariance` engine. -/
def RollingVariance.step (s : MomentState) : Op → MomentState
  | .push v => RollingVariance.push s v
  | .pop => s.pop
  | .clear => s.clear

/-- Step function of the `RollingSkewness` engine. -/
def RollingSkewness.step (s : MomentState) : Op → MomentState
  | .push v => RollingSkewness.push s v
  | .pop => s.pop
  | .clear => s.clear

/-- Step function of the `RollingZScore` engine (overridden `pop`). -/
def RollingZScore.step (s : MomentState) : Op → MomentState
  | .push v => RollingZScore.push s v
  | .pop => RollingZScore.pop s
  | .clear => s.clear

/-- Step function of the `RollingMax` engine. -/
def MaxState.step (s : MaxState) : Op → MaxState
  | .push v => s.push v
  | .pop => s.pop
  | .clear => s.clear

/-- Step function of the `RollingMin` engine. -/
def MinState.step (s : MinState) : Op → MinState
  | .push v => s.push v
  | .pop => s.pop
  | .clear => s.clear

/-- Step function of the `RollingRank` engine. -/
def RankState.step (s : RankState) : Op → RankState
  | .push v => s.push v
  | .pop => s.pop
  | .clear => s.clear

/-- Step function of the `RollingOrderStatistics` engine. -/
def OrderStatState.step (s : OrderStatState) : Op → OrderStatState
  | .push v => s.push v
  | .pop => s.pop
  | .clear => s.clear

/-! ### Window bookkeeping helpers (specification side) -/

/-- Number of NaN entries of a window. -/
def countNanL (l : List Val) : ℕ := (l.filter (fun v => v.isnan)).length

/-- Number of non-NaN entries of a window. -/
def countValidL (l : List Val) : ℕ := (l.filter (fun v => !v.isnan)).length

/-- The non-NaN entries of a window, as rationals, in window order. -/
def validQs (l : List Val) : List ℚ :=
  ((l.filter (fun v => !v.isnan)).map Val.toQ)

/-- Sum of the non-NaN entries of a window. -/
def sumValidL (l : List Val) : ℚ := (validQs l).sum

/-- Core invariant of every moment engine: the validity counters count
the NaN and non-NaN entries of queue 0, and every power sum is the sum
of the non-NaN entries of its own queue. -/
def MomentState.Core (s : MomentState) : Prop :=
  s.num_vals_nan = countNanL (s.vecs_in_window 0) ∧
  s.num_vals_notnan = countValidL (s.vecs_in_window 0) ∧
  ∀ j, s.unnormalized_moments j = sumValidL (s.vecs_in_window j)

/-- Per-engine reachability invariant: the core counter/sum invariant
plus the engine's fixed number of moments. -/
def MomentState.CoreK (k : ℕ) (s : MomentState) : Prop := Core s ∧ s.num_moments = k

/-- A push increments exactly one of the two validity counters by one
(the primed arguments are the counters after the operation). -/
def IncOne (a b a' b' : ℕ) : Prop := (a' = a + 1 ∧ b' = b) ∨ (a' = a ∧ b' = b + 1)

/-- A pop decrements exactly one of the two (positive) validity
counters by one. -/
def DecOne (a b a' b' : ℕ) : Prop :=
  (0 < a ∧ a' = a - 1 ∧ b' = b) ∨ (0 < b ∧ a' = a ∧ b' = b - 1)

/-- Counter invariant of `RollingMax`: the counters count the window. -/
def MaxState.WInv (s : MaxState) : Prop :=
  s.num_vals_nan = countNanL s.vals_in_window ∧
  s.num_vals_notnan = countValidL s.vals_in_window

/-- Counter invariant of `RollingMin`. -/
def MinState.WInv (s : MinState) : Prop :=
  s.num_vals_nan = countNanL s.vals_in_window ∧
  s.num_vals_notnan = countValidL s.vals_in_window

/-- Counter invariant of `RollingRank`. -/
def RankState.WInv (s : RankState) : Prop :=
  s.num_vals_nan = countNanL s.vals_in_window ∧
  s.num_vals_notnan = countValidL s.vals_in_window

/-- Counter invariant of `RollingOrderStatistics`. -/
def OrderStatState.WInv (s : OrderStatState) : Prop :=
  s.num_vals_nan = countNanL s.vals_in_window ∧
  s.num_vals_notnan = countValidL s.vals_in_window

/-- `RollingMean` engine state after an operation sequence. -/
def meanRun (skip : Bool) (ops : List Op) : MomentState :=
  runOps RollingMean.step (RollingMean.init skip) ops

/-- `RollingVariance` engine state after an operation sequence. -/
def varRun (skip : Bool) (ops : List Op) : MomentState :=
  runOps RollingVariance.step (RollingVariance.init skip) ops

/-- `RollingSkewness` engine state after an operation sequence. -/
def skewRun (skip : Bool) (ops : List Op) : MomentState :=
  runOps RollingSkewness.step (RollingSkewness.init skip) ops

/-- `RollingZScore` engine state after an operation sequence. -/
def zscoreRun (skip : Bool) (ops : List Op) : MomentState :=
  runOps RollingZScore.step (RollingZScore.init skip) ops

/-- `RollingMax` engine state after an operation sequence. -/
def maxRun (skip : Bool) (ops : List Op) : MaxState :=
  runOps MaxState.step (MaxState.init skip) ops

/-- `RollingMin` engine state after an operation sequence. -/
def minRun (skip : Bool) (ops : List Op) : MinState :=
  runOps MinState.step (MinState.init skip) ops

/-- `RollingRank` engine state after an operation sequence. -/
def rankRun (skip normalize : Bool) (ops : List Op) : RankState :=
  runOps RankState.step (RankState.init skip normalize) ops

/-- `RollingOrderStatistics` engine state after an operation sequence. -/
def orderRun (order : ℚ) (skip normalize : Bool) (ops : List Op) : OrderStatState :=
  runOps OrderStatState.step (OrderStatState.init order skip normalize) ops

/-- Batch mean from the spec: the sum of the non-NaN window values
divided by their count, the NaN sentinel when there are none.
(Spec-side definition for the refinement claim C1.) -/
def specBatchMean (w : List Val) : Val :=
  if countValidL w = 0 then .nan
  else .num (sumValidL w / (countValidL w : ℚ))

/-- Contribution of a window entry to a power sum: zero for NaN. -/
def contribVal (v : Val) : ℚ := if v.isnan then 0 else v.toQ

/-- Alignment invariant of an engine with `k` moments: each of its `k`
queues has the window size as its length. -/
def MomentState.AlignedK (k : ℕ) (s : MomentState) : Prop :=
  ∀ j, j < k → (s.vecs_in_window j).length = s.size

/-- The z-score alignment invariant: queues 0 and 2 track the window,
queue 1 is the width-1 current-value slot. -/
def MomentState.ZAligned (s : MomentState) : Prop :=
  (s.vecs_in_window 0).length = s.size ∧
  (s.vecs_in_window 2).length = s.size ∧
  (s.vecs_in_window 1).length ≤ 1

/-- The subsequence of entries that are `≥` every later entry: the
specification of the `maximums` deque contents. -/
def suffMax : List ℚ → List ℚ
  | [] => []
  | x :: xs => if ∀ y ∈ xs, y ≤ x then x :: suffMax xs else suffMax xs

/-- The subsequence of entries that are `≤` every later entry: the
specification of the `minimums` deque contents. -/
def suffMin : List ℚ → List ℚ
  | [] => []
  | x :: xs => if ∀ y ∈ xs, x ≤ y then x :: suffMin xs else suffMin xs

/-- The literal maximum of a window (0 as junk on the empty window). -/
def listMaxQ : List ℚ → ℚ
  | [] => 0
  | x :: xs => xs.foldl max x

/-- The literal minimum of a window. -/
def listMinQ : List ℚ → ℚ
  | [] => 0
  | x :: xs => xs.foldl min x

/-- Full invariant of `RollingMax`: the candidate deque is the
suffix-maxima sequence of the non-NaN window values, and the counters
count the window. -/
def MaxState.DInv (s : MaxState) : Prop :=
  s.maximums = suffMax (validQs s.vals_in_window) ∧ MaxState.WInv s

/-- Full invariant of `RollingMin`. -/
def MinState.DInv (s : MinState) : Prop :=
  s.minimums = suffMin (validQs s.vals_in_window) ∧ MinState.WInv s

/-- Full invariant of `RollingOrderStatistics`: the tree contents are a
sorted permutation of the non-NaN window values, and the counters count
the window. -/
def OrderStatState.OInv (s : OrderStatState) : Prop :=
  s.ost.Sorted (· ≤ ·) ∧ s.ost.Perm (validQs s.vals_in_window) ∧
  OrderStatState.WInv s

/-- The virtual engine interface used by `roll_ndarray`. -/
structure EngineModel (σ : Type) : Type where
  clear : σ → σ
  push : σ → Val → σ
  pop : σ → σ
  size_notnan : σ → ℕ
  compute : σ → Val

/-- The reference engine: its state is the literal window; `F` is the
engine's `compute` as a function of the window contents. -/
def refEngine (F : List Val → Val) : EngineModel (List Val) :=
  { clear := fun _ => []
    push := fun w v => w ++ [v]
    pop := fun w => w.tail
    size_notnan := fun w => countValidL w
    compute := F }

/-- The stride-initialisation loop of `roll_ndarray`: `stride = 1`, then
for `i = 0..ndim-1`: if `i > 0` multiply by `shape[ndim - i]`, append;
finally the list is reversed (row-major strides). -/
def stridesLoopGo (shape : List ℕ) (ndim i stride : ℕ) (acc : List ℕ) : List ℕ :=
  if i < ndim then
    stridesLoopGo shape ndim (i + 1)
      (if 0 < i then stride * shape.getD (ndim - i) 0 else stride)
      (acc ++ [if 0 < i then stride * shape.getD (ndim - i) 0 else stride])
  else acc
termination_by ndim - i

/-- The default (row-major) strides computed by `roll_ndarray` when the
caller passes none. -/
def cStrides (shape : List ℕ) : List ℕ :=
  (stridesLoopGo shape shape.length 0 1 []).reverse

/-- `scalar_index = Σ_i indices[i] * strides[i]`. -/
def scalarIndexOf (ndim : ℕ) (indices : ℕ → ℕ) (strides : List ℕ) : ℕ :=
  ((List.range ndim).map (fun i => indices i * strides.getD i 0)).sum

/-- The inner loop of `roll_ndarray` along the target axis: starting at
axis position `iAx` with `remaining` positions left and flat position
`si`: push the current element, pop once the axis index reaches the
window length, overwrite the element with `compute()` when at least
`min_periods` valid values are present (the NaN sentinel otherwise),
and advance by the axis stride. -/
def rollAxisLoop {σ : Type} (E : EngineModel σ) (window min_periods strideAx : ℕ) :
    ℕ → ℕ → ℕ → σ → (ℕ → Val) → σ × (ℕ → Val)
  | _, 0, _, s, arr => (s, arr)
  | iAx, r + 1, si, s, arr =>
    rollAxisLoop E window min_periods strideAx (iAx + 1) r (si + strideAx)
      (if window ≤ iAx then E.pop (E.push s (arr si)) else E.push s (arr si))
      (Function.update arr si
        (if min_periods ≤ E.size_notnan
            (if window ≤ iAx then E.pop (E.push s (arr si)) else E.push s (arr si))
          then E.compute
            (if window ≤ iAx then E.pop (E.push s (arr si)) else E.push s (arr si))
          else .nan))

/-- The cascade of the odometer (the inner `while` of lines 135–141):
zero the digit at `current_axis` while it is saturated, stepping to the
next axis and skipping the target axis.  The source's loop condition
reads `indices[current_axis]` and `shape[current_axis]`; once
`current_axis` reaches `ndim` those reads are past the end of the
vectors and the loop exits on the resulting unequal comparison, which
the `ca < ndim` guard models. -/
def cascade (shape : List ℕ) (axis ndim : ℕ) (indices : ℕ → ℕ) (ca : ℕ) :
    (ℕ → ℕ) × ℕ :=
  if h : ca < ndim ∧ indices ca = shape.getD ca 0 - 1 then
    cascade shape axis ndim (Function.update indices ca 0)
      (if ca + 1 = axis then ca + 2 else ca + 1)
  else (indices, ca)
termination_by ndim + 2 - ca
decreasing_by
  split <;> omega

/-- One odometer advance (lines 134–151): increment the lowest
non-target digit, cascading saturated digits; `none` when the
traversal is complete. -/
def advanceIdx (shape : List ℕ) (axis ndim start : ℕ) (indices : ℕ → ℕ) :
    Option (ℕ → ℕ) :=
  if indices start = shape.getD start 0 - 1 then
    if (cascade shape axis ndim indices start).2 < ndim then
      some (Function.update (cascade shape axis ndim indices start).1
        (cascade shape axis ndim indices start).2
        ((cascade shape axis ndim indices start).1
          (cascade shape axis ndim indices start).2 + 1))
    else none
  else some (Function.update indices start (indices start + 1))

/-- The outer lane loop of `roll_ndarray`: clear the engine, compute the
lane's base scalar index (with the axis digit zeroed), check it is in
bounds, roll the lane, restore the axis digit to its last value
(`assert(indices[axis] > 0)` requires a positive axis extent), and
advance the odometer.  The fuel counts remaining outer iterations; the
caller passes more than the number of lanes, so exhaustion (modelled as
an error) is unreachable. -/
def rollOuter {σ : Type} (E : EngineModel σ) (shape strides : List ℕ)
    (axis window min_periods ndim start size_arr : ℕ) :
    ℕ → (ℕ → ℕ) → σ → (ℕ → Val) → Except (ℕ → Val) (ℕ → Val)
  | 0, _, _, arr => .error arr
  | fuel + 1, indices, s, arr =>
    if scalarIndexOf ndim (Function.update indices axis 0) strides < size_arr then
      if 0 < shape.getD axis 0 then
        match advanceIdx shape axis ndim start
            (Function.update (Function.update indices axis 0) axis
              (shape.getD axis 0 - 1)) with
        | some indices3 =>
          rollOuter E shape strides axis window min_periods ndim start size_arr
            fuel indices3
            (rollAxisLoop E window min_periods (strides.getD axis 0) 0
              (shape.getD axis 0)
              (scalarIndexOf ndim (Function.update indices axis 0) strides)
              (E.clear s) arr).1
            (rollAxisLoop E window min_periods (strides.getD axis 0) 0
              (shape.getD axis 0)
              (scalarIndexOf ndim (Function.update indices axis 0) strides)
              (E.clear s) arr).2
        | none =>
          .ok (rollAxisLoop E window min_periods (strides.getD axis 0) 0
            (shape.getD axis 0)
            (scalarIndexOf ndim (Function.update indices axis 0) strides)
            (E.clear s) arr).2
      else .error (rollAxisLoop E window min_periods (strides.getD axis 0) 0
        (shape.getD axis 0)
        (scalarIndexOf ndim (Function.update indices axis 0) strides)
        (E.clear s) arr).2
    else .error arr

/-- `roll_ndarray`: the preconditions (`ndim > 0`, stride rank matches)
checked before any write, the array size and default strides, and the
outer loop from the zero multi-index with the source's starting
`current_axis`. -/
def roll_ndarray {σ : Type} (E : EngineModel σ) (s : σ) (arr : ℕ → Val)
    (shape : List ℕ) (axis window min_periods : ℕ) (strides : List ℕ) :
    Except (ℕ → Val) (ℕ → Val) :=
  let ndim := shape.length
  if 0 < ndim then
    if strides = [] ∨ strides.length = ndim then
      let size_arr := shape.foldl (· * ·) 1
      let strides2 := if strides = [] then cStrides shape else strides
      let start := if ndim = 1 then 0 else if axis = 0 then 1 else 0
      rollOuter E shape strides2 axis window min_periods ndim start size_arr
        (size_arr + 1) (fun _ => 0) s arr
    else .error arr
  else .error arr

/-- Row-major (big-endian) mixed-radix value of a multi-index. -/
def mrVal : List ℕ → (ℕ → ℕ) → ℕ
  | [], _ => 0
  | _ :: es, g => g 0 * es.prod + mrVal es (fun i => g (i + 1))

/-- The trailing window of width `W` ending at axis position `i` of a lane. -/
def laneWin (lane : ℕ → Val) (W i : ℕ) : List Val :=
  ((List.range (i + 1)).map lane).drop (i + 1 - W)

/-- The value `roll_ndarray` should leave at axis position `i` of a lane:
the engine's compute over the trailing window when it holds at least `M`
valid values, the NaN sentinel otherwise. -/
def laneOut (F : List Val → Val) (lane : ℕ → Val) (W M i : ℕ) : Val :=
  if M ≤ countValidL (laneWin lane W i) then F (laneWin lane W i) else .nan

/-- Little-endian mixed-radix value of the digits at the positions in
`ps` (the odometer's traversal order over the non-target axes). -/
def leVal (exts : ℕ → ℕ) : List ℕ → (ℕ → ℕ) → ℕ
  | [], _ => 0
  | p :: ps, g => g p + exts p * leVal exts ps g

/-- The ascending list of axes visited by the odometer starting at
`ca`, skipping the target axis exactly as the source's
`++current_axis; if (current_axis == axis) ++current_axis;` does. -/
def naChainL (axis ndim : ℕ) (ca : ℕ) : List ℕ :=
  if ca < ndim then
    ca :: naChainL axis ndim (if ca + 1 = axis then ca + 2 else ca + 1)
  else []
termination_by ndim - ca
decreasing_by
  split <;> omega

/-- Zero the digits at the positions in `ps` (the saturated prefix the
cascade resets). -/
def updZero : List ℕ → (ℕ → ℕ) → (ℕ → ℕ)
  | [], g => g
  | p :: ps, g => updZero ps (Function.update g p 0)

/-- The source's initial `current_axis`. -/
def startOf (shape : List ℕ) (axis : ℕ) : ℕ :=
  if shape.length = 1 then 0 else if axis = 0 then 1 else 0

/-- The non-target axes in odometer order (empty for rank one, where the
target axis doubles as the only digit and the traversal has one lane). -/
def naLOf (shape : List ℕ) (axis : ℕ) : List ℕ :=
  if 1 < shape.length then
    naChainL axis shape.length (if axis = 0 then 1 else 0)
  else []

/-- A state with one valid value and all accumulators zero (variance 0),
used to witness C8. -/
def constVarState : MomentState :=
  { skip_nan := true
    num_moments := 3
    unnormalized_moments := fun _ => 0
    vecs_in_window := fun _ => [.num 0]
    num_vals_nan := 0
    num_vals_notnan := 1 }

theorem countNanL_nil : countNanL [] = 0 := rfl

theorem countValidL_nil : countValidL [] = 0 := rfl

theorem sumValidL_nil : sumValidL [] = 0 := rfl

theorem countNanL_append (l₁ l₂ : List Val) :
    countNanL (l₁ ++ l₂) = countNanL l₁ + countNanL l₂ := by
  simp [countNanL]

theorem countValidL_append (l₁ l₂ : List Val) :
    countValidL (l₁ ++ l₂) = countValidL l₁ + countValidL l₂ := by
  simp [countValidL]

theorem sumValidL_append (l₁ l₂ : List Val) :
    sumValidL (l₁ ++ l₂) = sumValidL l₁ + sumValidL l₂ := by
  simp [sumValidL, validQs]

theorem countNanL_cons (v : Val) (l : List Val) :
    countNanL (v :: l) = (if v.isnan then 1 else 0) + countNanL l := by
  cases v <;> simp [countNanL, Val.isnan, List.filter] <;> omega

theorem countValidL_cons (v : Val) (l : List Val) :
    countValidL (v :: l) = (if v.isnan then 0 else 1) + countValidL l := by
  cases v <;> simp [countValidL, Val.isnan, List.filter] <;> omega

theorem sumValidL_cons (v : Val) (l : List Val) :
    sumValidL (v :: l) = (if v.isnan then 0 else v.toQ) + sumValidL l := by
  cases v <;> simp [sumValidL, validQs, Val.isnan, List.filter]

theorem length_eq_counts (l : List Val) :
    l.length = countNanL l + countValidL l := by
  induction l with
  | nil => rfl
  | cons v l ih =>
    rw [List.length_cons, countNanL_cons, countValidL_cons, ih]
    cases v <;> simp [Val.isnan] <;> omega

/-! ### Effect lemmas for the moment family primitives -/

namespace MomentState

theorem push_aux_skip (s : MomentState) (v : Val) (i : ℕ) :
    (s.push_aux v i).skip_nan = s.skip_nan := by
  cases v <;> simp [push_aux, Val.isnan]

theorem push_aux_num_moments (s : MomentState) (v : Val) (i : ℕ) :
    (s.push_aux v i).num_moments = s.num_moments := by
  cases v <;> simp [push_aux, Val.isnan]

theorem push_aux_vecs (s : MomentState) (v : Val) (i : ℕ) :
    (s.push_aux v i).vecs_in_window =
      Function.update s.vecs_in_window i (s.vecs_in_window i ++ [v]) := by
  cases v <;> simp [push_aux, Val.isnan]

theorem push_aux_nan_count (s : MomentState) (v : Val) (i : ℕ) :
    (s.push_aux v i).num_vals_nan =
      if v.isnan ∧ i = 0 then s.num_vals_nan + 1 else s.num_vals_nan := by
  cases v <;> simp [push_aux, Val.isnan]

theorem push_aux_notnan_count (s : MomentState) (v : Val) (i : ℕ) :
    (s.push_aux v i).num_vals_notnan =
      if ¬v.isnan ∧ i = 0 then s.num_vals_notnan + 1 else s.num_vals_notnan := by
  cases v <;> simp [push_aux, Val.isnan]

theorem push_aux_moments (s : MomentState) (v : Val) (i : ℕ) :
    (s.push_aux v i).unnormalized_moments =
      if v.isnan then s.unnormalized_moments
      else Function.update s.unnormalized_moments i
        (s.unnormalized_moments i + v.toQ) := by
  cases v <;> simp [push_aux, Val.isnan]

theorem pop_aux_empty (s : MomentState) (i : ℕ) (h : s.vecs_in_window i = []) :
    s.pop_aux i = s := by
  simp [pop_aux, h]

theorem pop_aux_cons_nan (s : MomentState) (i : ℕ) (rest : List Val)
    (h : s.vecs_in_window i = .nan :: rest) :
    s.pop_aux i =
      { s with
        num_vals_nan := if i = 0 then s.num_vals_nan - 1 else s.num_vals_nan
        vecs_in_window := Function.update s.vecs_in_window i rest } := by
  simp [pop_aux, h, Val.isnan]

theorem pop_aux_cons_num (s : MomentState) (i : ℕ) (q : ℚ) (rest : List Val)
    (h : s.vecs_in_window i = .num q :: rest) :
    s.pop_aux i =
      { s with
        unnormalized_moments :=
          Function.update s.unnormalized_moments i (s.unnormalized_moments i - q)
        num_vals_notnan := if i = 0 then s.num_vals_notnan - 1 else s.num_vals_notnan
        vecs_in_window := Function.update s.vecs_in_window i rest } := by
  simp [pop_aux, h, Val.isnan, Val.toQ]

theorem Core.init (skip : Bool) (k : ℕ) : Core (MomentState.init skip k) := by
  refine ⟨rfl, rfl, fun j => rfl⟩

theorem Core.clear (s : MomentState) : Core s.clear := by
  refine ⟨rfl, rfl, fun j => rfl⟩

theorem Core.push_aux {s : MomentState} (h : Core s) (v : Val) (i : ℕ) :
    Core (s.push_aux v i) := by
  obtain ⟨h1, h2, h3⟩ := h
  refine ⟨?_, ?_, ?_⟩
  · rw [push_aux_nan_count, push_aux_vecs]
    by_cases hi : i = 0
    · subst hi
      rw [Function.update_same, countNanL_append]
      cases v <;> simp [Val.isnan, countNanL, h1]
    · rw [Function.update_noteq (by omega)]
      cases v <;> simp [Val.isnan, hi, h1]
  · rw [push_aux_notnan_count, push_aux_vecs]
    by_cases hi : i = 0
    · subst hi
      rw [Function.update_same, countValidL_append]
      cases v <;> simp [Val.isnan, countValidL, h2]
    · rw [Function.update_noteq (by omega)]
      cases v <;> simp [Val.isnan, hi, h2]
  · intro j
    rw [push_aux_moments, push_aux_vecs]
    by_cases hj : j = i
    · subst hj
      rw [Function.update_same]
      cases v <;>
        simp [Val.isnan, sumValidL_append, sumValidL, validQs, Val.toQ, h3 j]
    · rw [Function.update_noteq (by omega)]
      cases v <;> simp [Val.isnan, Function.update_noteq (by omega : j ≠ i), h3 j]

theorem Core.pop_aux {s : MomentState} (h : Core s) (i : ℕ) :
    Core (s.pop_aux i) := by
  obtain ⟨h1, h2, h3⟩ := h
  match hw : s.vecs_in_window i with
  | [] => rw [pop_aux_empty s i hw]; exact ⟨h1, h2, h3⟩
  | .nan :: rest =>
    rw [pop_aux_cons_nan s i rest hw]
    refine ⟨?_, ?_, ?_⟩
    · by_cases hi : i = 0
      · subst hi
        simp only [Function.update_same, if_pos rfl]
        rw [h1, hw, countNanL_cons]
        simp [Val.isnan]
      · simp only [Function.update_noteq (by omega : (0:ℕ) ≠ i), if_neg hi]
        exact h1
    · by_cases hi : i = 0
      · subst hi
        simp only [Function.update_same]
        rw [h2, hw, countValidL_cons]
        simp [Val.isnan]
      · simp only [Function.update_noteq (by omega : (0:ℕ) ≠ i)]
        exact h2
    · intro j
      by_cases hj : j = i
      · subst hj
        simp only [Function.update_same]
        rw [h3 j, hw, sumValidL_cons]
        simp [Val.isnan]
      · simp only [Function.update_noteq (by omega : j ≠ i)]
        exact h3 j
  | .num q :: rest =>
    rw [pop_aux_cons_num s i q rest hw]
    refine ⟨?_, ?_, ?_⟩
    · by_cases hi : i = 0
      · subst hi
        simp only [Function.update_same]
        rw [h1, hw, countNanL_cons]
        simp [Val.isnan]
      · simp only [Function.update_noteq (by omega : (0:ℕ) ≠ i)]
        exact h1
    · by_cases hi : i = 0
      · subst hi
        simp only [Function.update_same, if_pos rfl]
        rw [h2, hw, countValidL_cons]
        simp [Val.isnan]
      · simp only [Function.update_noteq (by omega : (0:ℕ) ≠ i), if_neg hi]
        exact h2
    · intro j
      by_cases hj : j = i
      · subst hj
        simp only [Function.update_same]
        rw [h3 j, hw, sumValidL_cons]
        simp [Val.isnan, Val.toQ]
      · simp only [Function.update_noteq (by omega : j ≠ i)]
        exact h3 j

end MomentState

/-! ### Size-effect lemmas for the moment family -/

namespace MomentState

theorem size_push_aux_zero (s : MomentState) (v : Val) :
    (s.push_aux v 0).size = s.size + 1 := by
  rw [size, size, push_aux_nan_count, push_aux_notnan_count]
  cases v <;> simp [Val.isnan] <;> omega

theorem size_push_aux_ne (s : MomentState) (v : Val) (i : ℕ) (hi : i ≠ 0) :
    (s.push_aux v i).size = s.size := by
  rw [size, size, push_aux_nan_count, push_aux_notnan_count]
  simp [hi]

theorem pop_aux_num_moments (s : MomentState) (i : ℕ) :
    (s.pop_aux i).num_moments = s.num_moments := by
  match hw : s.vecs_in_window i with
  | [] => rw [pop_aux_empty s i hw]
  | .nan :: rest => rw [pop_aux_cons_nan s i rest hw]
  | .num q :: rest => rw [pop_aux_cons_num s i q rest hw]

theorem pop_aux_skip (s : MomentState) (i : ℕ) :
    (s.pop_aux i).skip_nan = s.skip_nan := by
  match hw : s.vecs_in_window i with
  | [] => rw [pop_aux_empty s i hw]
  | .nan :: rest => rw [pop_aux_cons_nan s i rest hw]
  | .num q :: rest => rw [pop_aux_cons_num s i q rest hw]

theorem size_pop_aux_ne (s : MomentState) (i : ℕ) (hi : i ≠ 0) :
    (s.pop_aux i).size = s.size := by
  match hw : s.vecs_in_window i with
  | [] => rw [pop_aux_empty s i hw]
  | .nan :: rest => rw [pop_aux_cons_nan s i rest hw]; simp [size, hi]
  | .num q :: rest => rw [pop_aux_cons_num s i q rest hw]; simp [size, hi]

theorem size_pop_aux_zero {s : MomentState}
    (h1 : s.num_vals_nan = countNanL (s.vecs_in_window 0))
    (h2 : s.num_vals_notnan = countValidL (s.vecs_in_window 0))
    (hpos : 0 < s.size) :
    (s.pop_aux 0).size = s.size - 1 := by
  match hw : s.vecs_in_window 0 with
  | [] =>
    exfalso
    rw [size, h1, h2, hw] at hpos
    simp [countNanL, countValidL] at hpos
  | .nan :: rest =>
    rw [pop_aux_cons_nan s 0 rest hw]
    have : 0 < s.num_vals_nan := by
      rw [h1, hw, countNanL_cons]; simp [Val.isnan]
    simp [size]
    omega
  | .num q :: rest =>
    rw [pop_aux_cons_num s 0 q rest hw]
    have : 0 < s.num_vals_notnan := by
      rw [h2, hw, countValidL_cons]; simp [Val.isnan]
    simp [size]
    omega

end MomentState

/-! ### Counter invariants for the non-moment engines -/

/-! ### Net-count induction principle shared by all engines -/

theorem foldl_countStep_none (ops : List Op) : ops.foldl countStep none = none := by
  induction ops with
  | nil => rfl
  | cons op rest ih => simpa [countStep] using ih

/-- Running any engine over an operation sequence whose pops never
outnumber its pushes: an invariant preserved by push/pop/clear holds at
the end, and the tracked size equals the net count. -/
theorem runOps_netCount {σ : Type} (step : σ → Op → σ) (sz : σ → ℕ) (I : σ → Prop)
    (hpush : ∀ s v, I s → I (step s (.push v)) ∧ sz (step s (.push v)) = sz s + 1)
    (hpop : ∀ s, I s → 0 < sz s → I (step s .pop) ∧ sz (step s .pop) = sz s - 1)
    (hclear : ∀ s, I s → I (step s .clear) ∧ sz (step s .clear) = 0) :
    ∀ (ops : List Op) (s : σ) (n : ℕ), I s →
      ops.foldl countStep (some (sz s)) = some n →
      I (ops.foldl step s) ∧ sz (ops.foldl step s) = n := by
  intro ops
  induction ops with
  | nil => intro s n hI h; exact ⟨hI, by simpa using h⟩
  | cons op rest ih =>
    intro s n hI h
    cases op with
    | push v =>
      obtain ⟨hI', hsz⟩ := hpush s v hI
      refine ih (step s (.push v)) n hI' ?_
      rw [hsz]
      simpa [countStep] using h
    | pop =>
      rcases Nat.eq_zero_or_pos (sz s) with h0 | hpos
      · rw [List.foldl_cons, h0] at h
        simp [countStep] at h
        rw [foldl_countStep_none] at h
        exact absurd h (by simp)
      · obtain ⟨hI', hsz⟩ := hpop s hI hpos
        refine ih (step s .pop) n hI' ?_
        rw [hsz]
        rw [List.foldl_cons] at h
        obtain ⟨k, hk⟩ := Nat.exists_eq_add_of_lt hpos
        rw [hk] at h ⊢
        simpa [countStep, Nat.add_sub_cancel] using h
    | clear =>
      obtain ⟨hI', hsz⟩ := hclear s hI
      refine ih (step s .clear) n hI' ?_
      rw [hsz]
      simpa [countStep] using h

/-! ### Engine runs over operation sequences -/

/-! ### Counter-effect lemmas shared by the moment engines -/

namespace MomentState

theorem counters_push_aux_ne (s : MomentState) (v : Val) (i : ℕ) (hi : i ≠ 0) :
    (s.push_aux v i).num_vals_nan = s.num_vals_nan ∧
    (s.push_aux v i).num_vals_notnan = s.num_vals_notnan := by
  rw [push_aux_nan_count, push_aux_notnan_count]
  simp [hi]

theorem counters_pop_aux_ne (s : MomentState) (i : ℕ) (hi : i ≠ 0) :
    (s.pop_aux i).num_vals_nan = s.num_vals_nan ∧
    (s.pop_aux i).num_vals_notnan = s.num_vals_notnan := by
  match hw : s.vecs_in_window i with
  | [] => rw [pop_aux_empty s i hw]; exact ⟨rfl, rfl⟩
  | .nan :: rest => rw [pop_aux_cons_nan s i rest hw]; simp [hi]
  | .num q :: rest => rw [pop_aux_cons_num s i q rest hw]; simp [hi]

theorem IncOne_push_aux0 (s : MomentState) (v : Val) :
    IncOne s.num_vals_nan s.num_vals_notnan
      (s.push_aux v 0).num_vals_nan (s.push_aux v 0).num_vals_notnan := by
  rw [push_aux_nan_count, push_aux_notnan_count]
  cases v
  · exact Or.inl ⟨by simp [Val.isnan], by simp [Val.isnan]⟩
  · exact Or.inr ⟨by simp [Val.isnan], by simp [Val.isnan]⟩

theorem DecOne_pop_aux0 {s : MomentState}
    (h1 : s.num_vals_nan = countNanL (s.vecs_in_window 0))
    (h2 : s.num_vals_notnan = countValidL (s.vecs_in_window 0))
    (hpos : 0 < s.size) :
    DecOne s.num_vals_nan s.num_vals_notnan
      (s.pop_aux 0).num_vals_nan (s.pop_aux 0).num_vals_notnan := by
  match hw : s.vecs_in_window 0 with
  | [] =>
    exfalso
    rw [size, h1, h2, hw] at hpos
    simp [countNanL, countValidL] at hpos
  | .nan :: rest =>
    rw [pop_aux_cons_nan s 0 rest hw]
    refine Or.inl ⟨?_, by simp, by simp⟩
    rw [h1, hw, countNanL_cons]
    simp [Val.isnan]
  | .num q :: rest =>
    rw [pop_aux_cons_num s 0 q rest hw]
    refine Or.inr ⟨?_, by simp, by simp⟩
    rw [h2, hw, countValidL_cons]
    simp [Val.isnan]

end MomentState

/-! ### Per-engine invariant runs (moment family) -/

theorem meanRun_inv (skip : Bool) (ops : List Op) (n : ℕ)
    (h : netCount ops = some n) :
    MomentState.CoreK 1 (meanRun skip ops) ∧ (meanRun skip ops).size = n := by
  refine runOps_netCount RollingMean.step MomentState.size (MomentState.CoreK 1)
    ?_ ?_ ?_ ops (RollingMean.init skip) n ⟨⟨rfl, rfl, fun j => rfl⟩, rfl⟩ h
  · rintro s v ⟨hc, hk⟩
    refine ⟨⟨hc.push_aux v 0, ?_⟩, ?_⟩
    · show (s.push_aux v 0).num_moments = 1
      rw [MomentState.push_aux_num_moments]; exact hk
    · exact MomentState.size_push_aux_zero s v
  · rintro s ⟨hc, hk⟩ hpos
    have hp : RollingMean.step s .pop = s.pop_aux 0 := by
      show s.pop = s.pop_aux 0
      rw [MomentState.pop, hk]
      rfl
    rw [hp]
    refine ⟨⟨hc.pop_aux 0, ?_⟩, ?_⟩
    · rw [MomentState.pop_aux_num_moments]; exact hk
    · exact MomentState.size_pop_aux_zero hc.1 hc.2.1 hpos
  · rintro s ⟨hc, hk⟩
    exact ⟨⟨⟨rfl, rfl, fun j => rfl⟩, hk⟩, rfl⟩

theorem varRun_inv (skip : Bool) (ops : List Op) (n : ℕ)
    (h : netCount ops = some n) :
    MomentState.CoreK 2 (varRun skip ops) ∧ (varRun skip ops).size = n := by
  refine runOps_netCount RollingVariance.step MomentState.size (MomentState.CoreK 2)
    ?_ ?_ ?_ ops (RollingVariance.init skip) n ⟨⟨rfl, rfl, fun j => rfl⟩, rfl⟩ h
  · rintro s v ⟨hc, hk⟩
    refine ⟨⟨(hc.push_aux v 0).push_aux (v.mul v) 1, ?_⟩, ?_⟩
    · show ((s.push_aux v 0).push_aux (v.mul v) 1).num_moments = 2
      rw [MomentState.push_aux_num_moments, MomentState.push_aux_num_moments]
      exact hk
    · show ((s.push_aux v 0).push_aux (v.mul v) 1).size = s.size + 1
      rw [MomentState.size_push_aux_ne _ _ 1 one_ne_zero,
        MomentState.size_push_aux_zero]
  · rintro s ⟨hc, hk⟩ hpos
    have hp : RollingVariance.step s .pop = (s.pop_aux 0).pop_aux 1 := by
      show s.pop = (s.pop_aux 0).pop_aux 1
      rw [MomentState.pop, hk]
      rfl
    rw [hp]
    refine ⟨⟨(hc.pop_aux 0).pop_aux 1, ?_⟩, ?_⟩
    · rw [MomentState.pop_aux_num_moments, MomentState.pop_aux_num_moments]
      exact hk
    · rw [MomentState.size_pop_aux_ne _ 1 one_ne_zero]
      exact MomentState.size_pop_aux_zero hc.1 hc.2.1 hpos
  · rintro s ⟨hc, hk⟩
    exact ⟨⟨⟨rfl, rfl, fun j => rfl⟩, hk⟩, rfl⟩

theorem skewRun_inv (skip : Bool) (ops : List Op) (n : ℕ)
    (h : netCount ops = some n) :
    MomentState.CoreK 3 (skewRun skip ops) ∧ (skewRun skip ops).size = n := by
  refine runOps_netCount RollingSkewness.step MomentState.size (MomentState.CoreK 3)
    ?_ ?_ ?_ ops (RollingSkewness.init skip) n ⟨⟨rfl, rfl, fun j => rfl⟩, rfl⟩ h
  · rintro s v ⟨hc, hk⟩
    refine ⟨⟨((hc.push_aux v 0).push_aux (v.mul v) 1).push_aux ((v.mul v).mul v) 2, ?_⟩, ?_⟩
    · show (((s.push_aux v 0).push_aux (v.mul v) 1).push_aux ((v.mul v).mul v) 2).num_moments = 3
      rw [MomentState.push_aux_num_moments, MomentState.push_aux_num_moments,
        MomentState.push_aux_num_moments]
      exact hk
    · show (((s.push_aux v 0).push_aux (v.mul v) 1).push_aux ((v.mul v).mul v) 2).size = s.size + 1
      rw [MomentState.size_push_aux_ne _ _ 2 two_ne_zero,
        MomentState.size_push_aux_ne _ _ 1 one_ne_zero,
        MomentState.size_push_aux_zero]
  · rintro s ⟨hc, hk⟩ hpos
    have hp : RollingSkewness.step s .pop = ((s.pop_aux 0).pop_aux 1).pop_aux 2 := by
      show s.pop = ((s.pop_aux 0).pop_aux 1).pop_aux 2
      rw [MomentState.pop, hk]
      rfl
    rw [hp]
    refine ⟨⟨((hc.pop_aux 0).pop_aux 1).pop_aux 2, ?_⟩, ?_⟩
    · rw [MomentState.pop_aux_num_moments, MomentState.pop_aux_num_moments,
        MomentState.pop_aux_num_moments]
      exact hk
    · rw [MomentState.size_pop_aux_ne _ 2 two_ne_zero,
        MomentState.size_pop_aux_ne _ 1 one_ne_zero]
      exact MomentState.size_pop_aux_zero hc.1 hc.2.1 hpos
  · rintro s ⟨hc, hk⟩
    exact ⟨⟨⟨rfl, rfl, fun j => rfl⟩, hk⟩, rfl⟩

/-- Unfolding of `RollingZScore.push` by cases on the width-1 refresh. -/
theorem RollingZScore.push_eq (s : MomentState) (v : Val) :
    RollingZScore.push s v =
      if 1 ≤ ((s.push_aux v 0).vecs_in_window 1).length then
        ((((s.push_aux v 0).pop_aux 1).push_aux v 1).push_aux (v.mul v) 2)
      else (((s.push_aux v 0).push_aux v 1).push_aux (v.mul v) 2) := by
  rw [RollingZScore.push]
  split <;> rfl

theorem zscoreRun_inv (skip : Bool) (ops : List Op) (n : ℕ)
    (h : netCount ops = some n) :
    MomentState.CoreK 3 (zscoreRun skip ops) ∧ (zscoreRun skip ops).size = n := by
  refine runOps_netCount RollingZScore.step MomentState.size (MomentState.CoreK 3)
    ?_ ?_ ?_ ops (RollingZScore.init skip) n ⟨⟨rfl, rfl, fun j => rfl⟩, rfl⟩ h
  · rintro s v ⟨hc, hk⟩
    have he : RollingZScore.step s (.push v) = RollingZScore.push s v := rfl
    rw [he, RollingZScore.push_eq]
    split
    · refine ⟨⟨(((hc.push_aux v 0).pop_aux 1).push_aux v 1).push_aux (v.mul v) 2, ?_⟩, ?_⟩
      · rw [MomentState.push_aux_num_moments, MomentState.push_aux_num_moments,
          MomentState.pop_aux_num_moments, MomentState.push_aux_num_moments]
        exact hk
      · rw [MomentState.size_push_aux_ne _ _ 2 two_ne_zero,
          MomentState.size_push_aux_ne _ _ 1 one_ne_zero,
          MomentState.size_pop_aux_ne _ 1 one_ne_zero,
          MomentState.size_push_aux_zero]
    · refine ⟨⟨((hc.push_aux v 0).push_aux v 1).push_aux (v.mul v) 2, ?_⟩, ?_⟩
      · rw [MomentState.push_aux_num_moments, MomentState.push_aux_num_moments,
          MomentState.push_aux_num_moments]
        exact hk
      · rw [MomentState.size_push_aux_ne _ _ 2 two_ne_zero,
          MomentState.size_push_aux_ne _ _ 1 one_ne_zero,
          MomentState.size_push_aux_zero]
  · rintro s ⟨hc, hk⟩ hpos
    have hp : RollingZScore.step s .pop = (s.pop_aux 0).pop_aux 2 := rfl
    rw [hp]
    refine ⟨⟨(hc.pop_aux 0).pop_aux 2, ?_⟩, ?_⟩
    · rw [MomentState.pop_aux_num_moments, MomentState.pop_aux_num_moments]
      exact hk
    · rw [MomentState.size_pop_aux_ne _ 2 two_ne_zero]
      exact MomentState.size_pop_aux_zero hc.1 hc.2.1 hpos
  · rintro s ⟨hc, hk⟩
    exact ⟨⟨⟨rfl, rfl, fun j => rfl⟩, hk⟩, rfl⟩

/-! ### Per-engine invariant runs (window engines) -/

theorem maxRun_inv (skip : Bool) (ops : List Op) (n : ℕ)
    (h : netCount ops = some n) :
    MaxState.WInv (maxRun skip ops) ∧ (maxRun skip ops).size = n := by
  refine runOps_netCount MaxState.step MaxState.size MaxState.WInv
    ?_ ?_ ?_ ops (MaxState.init skip) n ⟨rfl, rfl⟩ h
  · rintro s v ⟨h1, h2⟩
    cases v <;>
      refine ⟨⟨?_, ?_⟩, ?_⟩ <;>
        simp [MaxState.step, MaxState.push, MaxState.size, MaxState.WInv,
          countNanL_append, countValidL_append, countNanL_cons, countValidL_cons,
          countNanL_nil, countValidL_nil, Val.isnan, h1, h2] <;> omega
  · rintro s ⟨h1, h2⟩ hpos
    match hw : s.vals_in_window with
    | [] =>
      exfalso
      rw [MaxState.size, h1, h2, hw] at hpos
      simp [countNanL, countValidL] at hpos
    | v :: rest =>
      cases v <;>
        refine ⟨⟨?_, ?_⟩, ?_⟩ <;>
          simp [MaxState.step, MaxState.pop, MaxState.size, hw,
            countNanL_cons, countValidL_cons, Val.isnan, h1, h2] <;>
          omega
  · rintro s ⟨h1, h2⟩
    exact ⟨⟨rfl, rfl⟩, rfl⟩

theorem minRun_inv (skip : Bool) (ops : List Op) (n : ℕ)
    (h : netCount ops = some n) :
    MinState.WInv (minRun skip ops) ∧ (minRun skip ops).size = n := by
  refine runOps_netCount MinState.step MinState.size MinState.WInv
    ?_ ?_ ?_ ops (MinState.init skip) n ⟨rfl, rfl⟩ h
  · rintro s v ⟨h1, h2⟩
    cases v <;>
      refine ⟨⟨?_, ?_⟩, ?_⟩ <;>
        simp [MinState.step, MinState.push, MinState.size, MinState.WInv,
          countNanL_append, countValidL_append, countNanL_cons, countValidL_cons,
          countNanL_nil, countValidL_nil, Val.isnan, h1, h2] <;> omega
  · rintro s ⟨h1, h2⟩ hpos
    match hw : s.vals_in_window with
    | [] =>
      exfalso
      rw [MinState.size, h1, h2, hw] at hpos
      simp [countNanL, countValidL] at hpos
    | v :: rest =>
      cases v <;>
        refine ⟨⟨?_, ?_⟩, ?_⟩ <;>
          simp [MinState.step, MinState.pop, MinState.size, hw,
            countNanL_cons, countValidL_cons, Val.isnan, h1, h2] <;>
          omega
  · rintro s ⟨h1, h2⟩
    exact ⟨⟨rfl, rfl⟩, rfl⟩

theorem rankRun_inv (skip normalize : Bool) (ops : List Op) (n : ℕ)
    (h : netCount ops = some n) :
    RankState.WInv (rankRun skip normalize ops) ∧ (rankRun skip normalize ops).size = n := by
  refine runOps_netCount RankState.step RankState.size RankState.WInv
    ?_ ?_ ?_ ops (RankState.init skip normalize) n ⟨rfl, rfl⟩ h
  · rintro s v ⟨h1, h2⟩
    cases v <;>
      refine ⟨⟨?_, ?_⟩, ?_⟩ <;>
        simp [RankState.step, RankState.push, RankState.size, RankState.WInv,
          countNanL_append, countValidL_append, countNanL_cons, countValidL_cons,
          countNanL_nil, countValidL_nil, Val.isnan, h1, h2] <;> omega
  · rintro s ⟨h1, h2⟩ hpos
    match hw : s.vals_in_window with
    | [] =>
      exfalso
      rw [RankState.size, h1, h2, hw] at hpos
      simp [countNanL, countValidL] at hpos
    | v :: rest =>
      cases v <;>
        refine ⟨⟨?_, ?_⟩, ?_⟩ <;>
          simp [RankState.step, RankState.pop, RankState.size, hw,
            countNanL_cons, countValidL_cons, Val.isnan, h1, h2] <;>
          omega
  · rintro s ⟨h1, h2⟩
    exact ⟨⟨rfl, rfl⟩, rfl⟩

theorem orderRun_inv (order : ℚ) (skip normalize : Bool) (ops : List Op) (n : ℕ)
    (h : netCount ops = some n) :
    OrderStatState.WInv (orderRun order skip normalize ops) ∧ (orderRun order skip normalize ops).size = n := by
  refine runOps_netCount OrderStatState.step OrderStatState.size OrderStatState.WInv
    ?_ ?_ ?_ ops (OrderStatState.init order skip normalize) n ⟨rfl, rfl⟩ h
  · rintro s v ⟨h1, h2⟩
    cases v <;>
      refine ⟨⟨?_, ?_⟩, ?_⟩ <;>
        simp [OrderStatState.step, OrderStatState.push, OrderStatState.size, OrderStatState.WInv,
          countNanL_append, countValidL_append, countNanL_cons, countValidL_cons,
          countNanL_nil, countValidL_nil, Val.isnan, h1, h2] <;> omega
  · rintro s ⟨h1, h2⟩ hpos
    match hw : s.vals_in_window with
    | [] =>
      exfalso
      rw [OrderStatState.size, h1, h2, hw] at hpos
      simp [countNanL, countValidL] at hpos
    | v :: rest =>
      cases v <;>
        refine ⟨⟨?_, ?_⟩, ?_⟩ <;>
          simp [OrderStatState.step, OrderStatState.pop, OrderStatState.size, hw,
            countNanL_cons, countValidL_cons, Val.isnan, h1, h2] <;>
          omega
  · rintro s ⟨h1, h2⟩
    exact ⟨⟨rfl, rfl⟩, rfl⟩

/-! ### Exactly-one-counter effect of each engine push and pop -/

theorem mean_IncOne_push (s : MomentState) (v : Val) :
    IncOne s.num_vals_nan s.num_vals_notnan
      (RollingMean.step s (.push v)).num_vals_nan
      (RollingMean.step s (.push v)).num_vals_notnan :=
  MomentState.IncOne_push_aux0 s v

theorem mean_DecOne_pop {s : MomentState}
    (hck : MomentState.CoreK 1 s) (hpos : 0 < s.size) :
    DecOne s.num_vals_nan s.num_vals_notnan
      (RollingMean.step s .pop).num_vals_nan
      (RollingMean.step s .pop).num_vals_notnan := by
  have hp : RollingMean.step s .pop = s.pop_aux 0 := by
    show s.pop = s.pop_aux 0
    rw [MomentState.pop, hck.2]
    rfl
  rw [hp]
  exact MomentState.DecOne_pop_aux0 hck.1.1 hck.1.2.1 hpos

theorem var_IncOne_push (s : MomentState) (v : Val) :
    IncOne s.num_vals_nan s.num_vals_notnan
      (RollingVariance.step s (.push v)).num_vals_nan
      (RollingVariance.step s (.push v)).num_vals_notnan := by
  have h := MomentState.counters_push_aux_ne (s.push_aux v 0) (v.mul v) 1 one_ne_zero
  show IncOne s.num_vals_nan s.num_vals_notnan
    ((s.push_aux v 0).push_aux (v.mul v) 1).num_vals_nan
    ((s.push_aux v 0).push_aux (v.mul v) 1).num_vals_notnan
  rw [h.1, h.2]
  exact MomentState.IncOne_push_aux0 s v

theorem var_DecOne_pop {s : MomentState}
    (hck : MomentState.CoreK 2 s) (hpos : 0 < s.size) :
    DecOne s.num_vals_nan s.num_vals_notnan
      (RollingVariance.step s .pop).num_vals_nan
      (RollingVariance.step s .pop).num_vals_notnan := by
  have hp : RollingVariance.step s .pop = (s.pop_aux 0).pop_aux 1 := by
    show s.pop = (s.pop_aux 0).pop_aux 1
    rw [MomentState.pop, hck.2]
    rfl
  have h := MomentState.counters_pop_aux_ne (s.pop_aux 0) 1 one_ne_zero
  rw [hp, h.1, h.2]
  exact MomentState.DecOne_pop_aux0 hck.1.1 hck.1.2.1 hpos

theorem skew_IncOne_push (s : MomentState) (v : Val) :
    IncOne s.num_vals_nan s.num_vals_notnan
      (RollingSkewness.step s (.push v)).num_vals_nan
      (RollingSkewness.step s (.push v)).num_vals_notnan := by
  have h2 := MomentState.counters_push_aux_ne
    ((s.push_aux v 0).push_aux (v.mul v) 1) ((v.mul v).mul v) 2 two_ne_zero
  have h1 := MomentState.counters_push_aux_ne (s.push_aux v 0) (v.mul v) 1 one_ne_zero
  show IncOne s.num_vals_nan s.num_vals_notnan
    (((s.push_aux v 0).push_aux (v.mul v) 1).push_aux ((v.mul v).mul v) 2).num_vals_nan
    (((s.push_aux v 0).push_aux (v.mul v) 1).push_aux ((v.mul v).mul v) 2).num_vals_notnan
  rw [h2.1, h2.2, h1.1, h1.2]
  exact MomentState.IncOne_push_aux0 s v

theorem skew_DecOne_pop {s : MomentState}
    (hck : MomentState.CoreK 3 s) (hpos : 0 < s.size) :
    DecOne s.num_vals_nan s.num_vals_notnan
      (RollingSkewness.step s .pop).num_vals_nan
      (RollingSkewness.step s .pop).num_vals_notnan := by
  have hp : RollingSkewness.step s .pop = ((s.pop_aux 0).pop_aux 1).pop_aux 2 := by
    show s.pop = ((s.pop_aux 0).pop_aux 1).pop_aux 2
    rw [MomentState.pop, hck.2]
    rfl
  have h2 := MomentState.counters_pop_aux_ne ((s.pop_aux 0).pop_aux 1) 2 two_ne_zero
  have h1 := MomentState.counters_pop_aux_ne (s.pop_aux 0) 1 one_ne_zero
  rw [hp, h2.1, h2.2, h1.1, h1.2]
  exact MomentState.DecOne_pop_aux0 hck.1.1 hck.1.2.1 hpos

theorem zscore_IncOne_push (s : MomentState) (v : Val) :
    IncOne s.num_vals_nan s.num_vals_notnan
      (RollingZScore.step s (.push v)).num_vals_nan
      (RollingZScore.step s (.push v)).num_vals_notnan := by
  have he : RollingZScore.step s (.push v) = RollingZScore.push s v := rfl
  rw [he, RollingZScore.push_eq]
  split
  · have h2 := MomentState.counters_push_aux_ne
      (((s.push_aux v 0).pop_aux 1).push_aux v 1) (v.mul v) 2 two_ne_zero
    have h1 := MomentState.counters_push_aux_ne
      ((s.push_aux v 0).pop_aux 1) v 1 one_ne_zero
    have h0 := MomentState.counters_pop_aux_ne (s.push_aux v 0) 1 one_ne_zero
    rw [h2.1, h2.2, h1.1, h1.2, h0.1, h0.2]
    exact MomentState.IncOne_push_aux0 s v
  · have h2 := MomentState.counters_push_aux_ne
      ((s.push_aux v 0).push_aux v 1) (v.mul v) 2 two_ne_zero
    have h1 := MomentState.counters_push_aux_ne (s.push_aux v 0) v 1 one_ne_zero
    rw [h2.1, h2.2, h1.1, h1.2]
    exact MomentState.IncOne_push_aux0 s v

theorem zscore_DecOne_pop {s : MomentState}
    (hck : MomentState.CoreK 3 s) (hpos : 0 < s.size) :
    DecOne s.num_vals_nan s.num_vals_notnan
      (RollingZScore.step s .pop).num_vals_nan
      (RollingZScore.step s .pop).num_vals_notnan := by
  have hp : RollingZScore.step s .pop = (s.pop_aux 0).pop_aux 2 := rfl
  have h2 := MomentState.counters_pop_aux_ne (s.pop_aux 0) 2 two_ne_zero
  rw [hp, h2.1, h2.2]
  exact MomentState.DecOne_pop_aux0 hck.1.1 hck.1.2.1 hpos

theorem max_IncOne_push (s : MaxState) (v : Val) :
    IncOne s.num_vals_nan s.num_vals_notnan
      (MaxState.step s (.push v)).num_vals_nan
      (MaxState.step s (.push v)).num_vals_notnan := by
  cases v
  · exact Or.inl ⟨rfl, rfl⟩
  · exact Or.inr ⟨rfl, rfl⟩

theorem max_DecOne_pop {s : MaxState} (hI : MaxState.WInv s)
    (hpos : 0 < s.size) :
    DecOne s.num_vals_nan s.num_vals_notnan
      (MaxState.step s .pop).num_vals_nan
      (MaxState.step s .pop).num_vals_notnan := by
  obtain ⟨h1, h2⟩ := hI
  match hw : s.vals_in_window with
  | [] =>
    exfalso
    rw [MaxState.size, h1, h2, hw] at hpos
    simp [countNanL, countValidL] at hpos
  | .nan :: rest =>
    refine Or.inl ⟨?_, ?_, ?_⟩
    · rw [h1, hw, countNanL_cons]; simp [Val.isnan]
    · show (s.pop).num_vals_nan = _
      simp [MaxState.pop, hw]
    · show (s.pop).num_vals_notnan = _
      simp [MaxState.pop, hw]
  | .num q :: rest =>
    refine Or.inr ⟨?_, ?_, ?_⟩
    · rw [h2, hw, countValidL_cons]; simp [Val.isnan]
    · show (s.pop).num_vals_nan = _
      simp [MaxState.pop, hw]
    · show (s.pop).num_vals_notnan = _
      simp [MaxState.pop, hw]

theorem min_IncOne_push (s : MinState) (v : Val) :
    IncOne s.num_vals_nan s.num_vals_notnan
      (MinState.step s (.push v)).num_vals_nan
      (MinState.step s (.push v)).num_vals_notnan := by
  cases v
  · exact Or.inl ⟨rfl, rfl⟩
  · exact Or.inr ⟨rfl, rfl⟩

theorem min_DecOne_pop {s : MinState} (hI : MinState.WInv s)
    (hpos : 0 < s.size) :
    DecOne s.num_vals_nan s.num_vals_notnan
      (MinState.step s .pop).num_vals_nan
      (MinState.step s .pop).num_vals_notnan := by
  obtain ⟨h1, h2⟩ := hI
  match hw : s.vals_in_window with
  | [] =>
    exfalso
    rw [MinState.size, h1, h2, hw] at hpos
    simp [countNanL, countValidL] at hpos
  | .nan :: rest =>
    refine Or.inl ⟨?_, ?_, ?_⟩
    · rw [h1, hw, countNanL_cons]; simp [Val.isnan]
    · show (s.pop).num_vals_nan = _
      simp [MinState.pop, hw]
    · show (s.pop).num_vals_notnan = _
      simp [MinState.pop, hw]
  | .num q :: rest =>
    refine Or.inr ⟨?_, ?_, ?_⟩
    · rw [h2, hw, countValidL_cons]; simp [Val.isnan]
    · show (s.pop).num_vals_nan = _
      simp [MinState.pop, hw]
    · show (s.pop).num_vals_notnan = _
      simp [MinState.pop, hw]

theorem rank_IncOne_push (s : RankState) (v : Val) :
    IncOne s.num_vals_nan s.num_vals_notnan
      (RankState.step s (.push v)).num_vals_nan
      (RankState.step s (.push v)).num_vals_notnan := by
  cases v
  · exact Or.inl ⟨rfl, rfl⟩
  · exact Or.inr ⟨rfl, rfl⟩

theorem rank_DecOne_pop {s : RankState} (hI : RankState.WInv s)
    (hpos : 0 < s.size) :
    DecOne s.num_vals_nan s.num_vals_notnan
      (RankState.step s .pop).num_vals_nan
      (RankState.step s .pop).num_vals_notnan := by
  obtain ⟨h1, h2⟩ := hI
  match hw : s.vals_in_window with
  | [] =>
    exfalso
    rw [RankState.size, h1, h2, hw] at hpos
    simp [countNanL, countValidL] at hpos
  | .nan :: rest =>
    refine Or.inl ⟨?_, ?_, ?_⟩
    · rw [h1, hw, countNanL_cons]; simp [Val.isnan]
    · show (s.pop).num_vals_nan = _
      simp [RankState.pop, hw]
    · show (s.pop).num_vals_notnan = _
      simp [RankState.pop, hw]
  | .num q :: rest =>
    refine Or.inr ⟨?_, ?_, ?_⟩
    · rw [h2, hw, countValidL_cons]; simp [Val.isnan]
    · show (s.pop).num_vals_nan = _
      simp [RankState.pop, hw]
    · show (s.pop).num_vals_notnan = _
      simp [RankState.pop, hw]

theorem order_IncOne_push (s : OrderStatState) (v : Val) :
    IncOne s.num_vals_nan s.num_vals_notnan
      (OrderStatState.step s (.push v)).num_vals_nan
      (OrderStatState.step s (.push v)).num_vals_notnan := by
  cases v
  · exact Or.inl ⟨rfl, rfl⟩
  · exact Or.inr ⟨rfl, rfl⟩

theorem order_DecOne_pop {s : OrderStatState} (hI : OrderStatState.WInv s)
    (hpos : 0 < s.size) :
    DecOne s.num_vals_nan s.num_vals_notnan
      (OrderStatState.step s .pop).num_vals_nan
      (OrderStatState.step s .pop).num_vals_notnan := by
  obtain ⟨h1, h2⟩ := hI
  match hw : s.vals_in_window with
  | [] =>
    exfalso
    rw [OrderStatState.size, h1, h2, hw] at hpos
    simp [countNanL, countValidL] at hpos
  | .nan :: rest =>
    refine Or.inl ⟨?_, ?_, ?_⟩
    · rw [h1, hw, countNanL_cons]; simp [Val.isnan]
    · show (s.pop).num_vals_nan = _
      simp [OrderStatState.pop, hw]
    · show (s.pop).num_vals_notnan = _
      simp [OrderStatState.pop, hw]
  | .num q :: rest =>
    refine Or.inr ⟨?_, ?_, ?_⟩
    · rw [h2, hw, countValidL_cons]; simp [Val.isnan]
    · show (s.pop).num_vals_nan = _
      simp [OrderStatState.pop, hw]
    · show (s.pop).num_vals_notnan = _
      simp [OrderStatState.pop, hw]

/-! ### Claim C2: the size invariant of every engine -/

/-- Claim C2: for every engine (mean, variance, skewness, z-score, max,
min, rank, order statistics) and every sequence of clear/push/pop
operations whose pops never exceed the pushes since the last clear, at
all times `size() = size_nan() + size_notnan()`, this sum equals the
number of pushes minus pops since the last clear (`netCount`), each
push increments exactly one of the two counters by one, and each pop
decrements exactly one by one. -/
theorem claim_C2 :
    (∀ (skip : Bool) (ops : List Op) (n : ℕ), netCount ops = some n →
      (meanRun skip ops).size =
        (meanRun skip ops).num_vals_nan + (meanRun skip ops).num_vals_notnan ∧
      (meanRun skip ops).size = n ∧
      (∀ v, IncOne (meanRun skip ops).num_vals_nan (meanRun skip ops).num_vals_notnan
        (RollingMean.step (meanRun skip ops) (.push v)).num_vals_nan
        (RollingMean.step (meanRun skip ops) (.push v)).num_vals_notnan) ∧
      (0 < n → DecOne (meanRun skip ops).num_vals_nan (meanRun skip ops).num_vals_notnan
        (RollingMean.step (meanRun skip ops) .pop).num_vals_nan
        (RollingMean.step (meanRun skip ops) .pop).num_vals_notnan)) ∧
    (∀ (skip : Bool) (ops : List Op) (n : ℕ), netCount ops = some n →
      (varRun skip ops).size =
        (varRun skip ops).num_vals_nan + (varRun skip ops).num_vals_notnan ∧
      (varRun skip ops).size = n ∧
      (∀ v, IncOne (varRun skip ops).num_vals_nan (varRun skip ops).num_vals_notnan
        (RollingVariance.step (varRun skip ops) (.push v)).num_vals_nan
        (RollingVariance.step (varRun skip ops) (.push v)).num_vals_notnan) ∧
      (0 < n → DecOne (varRun skip ops).num_vals_nan (varRun skip ops).num_vals_notnan
        (RollingVariance.step (varRun skip ops) .pop).num_vals_nan
        (RollingVariance.step (varRun skip ops) .pop).num_vals_notnan)) ∧
    (∀ (skip : Bool) (ops : List Op) (n : ℕ), netCount ops = some n →
      (skewRun skip ops).size =
        (skewRun skip ops).num_vals_nan + (skewRun skip ops).num_vals_notnan ∧
      (skewRun skip ops).size = n ∧
      (∀ v, IncOne (skewRun skip ops).num_vals_nan (skewRun skip ops).num_vals_notnan
        (RollingSkewness.step (skewRun skip ops) (.push v)).num_vals_nan
        (RollingSkewness.step (skewRun skip ops) (.push v)).num_vals_notnan) ∧
      (0 < n → DecOne (skewRun skip ops).num_vals_nan (skewRun skip ops).num_vals_notnan
        (RollingSkewness.step (skewRun skip ops) .pop).num_vals_nan
        (RollingSkewness.step (skewRun skip ops) .pop).num_vals_notnan)) ∧
    (∀ (skip : Bool) (ops : List Op) (n : ℕ), netCount ops = some n →
      (zscoreRun skip ops).size =
        (zscoreRun skip ops).num_vals_nan + (zscoreRun skip ops).num_vals_notnan ∧
      (zscoreRun skip ops).size = n ∧
      (∀ v, IncOne (zscoreRun skip ops).num_vals_nan (zscoreRun skip ops).num_vals_notnan
        (RollingZScore.step (zscoreRun skip ops) (.push v)).num_vals_nan
        (RollingZScore.step (zscoreRun skip ops) (.push v)).num_vals_notnan) ∧
      (0 < n → DecOne (zscoreRun skip ops).num_vals_nan (zscoreRun skip ops).num_vals_notnan
        (RollingZScore.step (zscoreRun skip ops) .pop).num_vals_nan
        (RollingZScore.step (zscoreRun skip ops) .pop).num_vals_notnan)) ∧
    (∀ (skip : Bool) (ops : List Op) (n : ℕ), netCount ops = some n →
      (maxRun skip ops).size =
        (maxRun skip ops).num_vals_nan + (maxRun skip ops).num_vals_notnan ∧
      (maxRun skip ops).size = n ∧
      (∀ v, IncOne (maxRun skip ops).num_vals_nan (maxRun skip ops).num_vals_notnan
        (MaxState.step (maxRun skip ops) (.push v)).num_vals_nan
        (MaxState.step (maxRun skip ops) (.push v)).num_vals_notnan) ∧
      (0 < n → DecOne (maxRun skip ops).num_vals_nan (maxRun skip ops).num_vals_notnan
        (MaxState.step (maxRun skip ops) .pop).num_vals_nan
        (MaxState.step (maxRun skip ops) .pop).num_vals_notnan)) ∧
    (∀ (skip : Bool) (ops : List Op) (n : ℕ), netCount ops = some n →
      (minRun skip ops).size =
        (minRun skip ops).num_vals_nan + (minRun skip ops).num_vals_notnan ∧
      (minRun skip ops).size = n ∧
      (∀ v, IncOne (minRun skip ops).num_vals_nan (minRun skip ops).num_vals_notnan
        (MinState.step (minRun skip ops) (.push v)).num_vals_nan
        (MinState.step (minRun skip ops) (.push v)).num_vals_notnan) ∧
      (0 < n → DecOne (minRun skip ops).num_vals_nan (minRun skip ops).num_vals_notnan
        (MinState.step (minRun skip ops) .pop).num_vals_nan
        (MinState.step (minRun skip ops) .pop).num_vals_notnan)) ∧
    (∀ (skip normalize : Bool) (ops : List Op) (n : ℕ), netCount ops = some n →
      (rankRun skip normalize ops).size =
        (rankRun skip normalize ops).num_vals_nan + (rankRun skip normalize ops).num_vals_notnan ∧
      (rankRun skip normalize ops).size = n ∧
      (∀ v, IncOne (rankRun skip normalize ops).num_vals_nan (rankRun skip normalize ops).num_vals_notnan
        (RankState.step (rankRun skip normalize ops) (.push v)).num_vals_nan
        (RankState.step (rankRun skip normalize ops) (.push v)).num_vals_notnan) ∧
      (0 < n → DecOne (rankRun skip normalize ops).num_vals_nan (rankRun skip normalize ops).num_vals_notnan
        (RankState.step (rankRun skip normalize ops) .pop).num_vals_nan
        (RankState.step (rankRun skip normalize ops) .pop).num_vals_notnan)) ∧
    (∀ (order : ℚ) (skip normalize : Bool) (ops : List Op) (n : ℕ), netCount ops = some n →
      (orderRun order skip normalize ops).size =
        (orderRun order skip normalize ops).num_vals_nan + (orderRun order skip normalize ops).num_vals_notnan ∧
      (orderRun order skip normalize ops).size = n ∧
      (∀ v, IncOne (orderRun order skip normalize ops).num_vals_nan (orderRun order skip normalize ops).num_vals_notnan
        (OrderStatState.step (orderRun order skip normalize ops) (.push v)).num_vals_nan
        (OrderStatState.step (orderRun order skip normalize ops) (.push v)).num_vals_notnan) ∧
      (0 < n → DecOne (orderRun order skip normalize ops).num_vals_nan (orderRun order skip normalize ops).num_vals_notnan
        (OrderStatState.step (orderRun order skip normalize ops) .pop).num_vals_nan
        (OrderStatState.step (orderRun order skip normalize ops) .pop).num_vals_notnan)) := by
  refine ⟨?_, ?_, ?_, ?_, ?_, ?_, ?_, ?_⟩
  · intro skip ops n h
    obtain ⟨hI, hsz⟩ := meanRun_inv skip ops n h
    refine ⟨rfl, hsz, fun v => mean_IncOne_push _ v, fun hn => ?_⟩
    exact mean_DecOne_pop hI (by rw [hsz]; exact hn)
  · intro skip ops n h
    obtain ⟨hI, hsz⟩ := varRun_inv skip ops n h
    refine ⟨rfl, hsz, fun v => var_IncOne_push _ v, fun hn => ?_⟩
    exact var_DecOne_pop hI (by rw [hsz]; exact hn)
  · intro skip ops n h
    obtain ⟨hI, hsz⟩ := skewRun_inv skip ops n h
    refine ⟨rfl, hsz, fun v => skew_IncOne_push _ v, fun hn => ?_⟩
    exact skew_DecOne_pop hI (by rw [hsz]; exact hn)
  · intro skip ops n h
    obtain ⟨hI, hsz⟩ := zscoreRun_inv skip ops n h
    refine ⟨rfl, hsz, fun v => zscore_IncOne_push _ v, fun hn => ?_⟩
    exact zscore_DecOne_pop hI (by rw [hsz]; exact hn)
  · intro skip ops n h
    obtain ⟨hI, hsz⟩ := maxRun_inv skip ops n h
    refine ⟨rfl, hsz, fun v => max_IncOne_push _ v, fun hn => ?_⟩
    exact max_DecOne_pop hI (by rw [hsz]; exact hn)
  · intro skip ops n h
    obtain ⟨hI, hsz⟩ := minRun_inv skip ops n h
    refine ⟨rfl, hsz, fun v => min_IncOne_push _ v, fun hn => ?_⟩
    exact min_DecOne_pop hI (by rw [hsz]; exact hn)
  · intro skip normalize ops n h
    obtain ⟨hI, hsz⟩ := rankRun_inv skip normalize ops n h
    refine ⟨rfl, hsz, fun v => rank_IncOne_push _ v, fun hn => ?_⟩
    exact rank_DecOne_pop hI (by rw [hsz]; exact hn)
  · intro order skip normalize ops n h
    obtain ⟨hI, hsz⟩ := orderRun_inv order skip normalize ops n h
    refine ⟨rfl, hsz, fun v => order_IncOne_push _ v, fun hn => ?_⟩
    exact order_DecOne_pop hI (by rw [hsz]; exact hn)

/-- Witness for C2: each engine, after pushing 1, pushing NaN and one
pop, has size 1. -/
theorem claim_C2_witness :
    (meanRun true [.push (.num 1), .push .nan, .pop]).size = 1 ∧
    (varRun true [.push (.num 1), .push .nan, .pop]).size = 1 ∧
    (skewRun true [.push (.num 1), .push .nan, .pop]).size = 1 ∧
    (zscoreRun true [.push (.num 1), .push .nan, .pop]).size = 1 ∧
    (maxRun true [.push (.num 1), .push .nan, .pop]).size = 1 ∧
    (minRun true [.push (.num 1), .push .nan, .pop]).size = 1 ∧
    (rankRun true false [.push (.num 1), .push .nan, .pop]).size = 1 ∧
    (orderRun 0 true false [.push (.num 1), .push .nan, .pop]).size = 1 :=
  ⟨(claim_C2.1 true [.push (.num 1), .push .nan, .pop] 1 rfl).2.1,
   (claim_C2.2.1 true [.push (.num 1), .push .nan, .pop] 1 rfl).2.1,
   (claim_C2.2.2.1 true [.push (.num 1), .push .nan, .pop] 1 rfl).2.1,
   (claim_C2.2.2.2.1 true [.push (.num 1), .push .nan, .pop] 1 rfl).2.1,
   (claim_C2.2.2.2.2.1 true [.push (.num 1), .push .nan, .pop] 1 rfl).2.1,
   (claim_C2.2.2.2.2.2.1 true [.push (.num 1), .push .nan, .pop] 1 rfl).2.1,
   (claim_C2.2.2.2.2.2.2.1 true false [.push (.num 1), .push .nan, .pop] 1 rfl).2.1,
   (claim_C2.2.2.2.2.2.2.2 0 true false [.push (.num 1), .push .nan, .pop] 1 rfl).2.1⟩

/-! ### Claim C1: the rolling mean refines the batch mean -/

/-- A step-indexed preservation principle for engine runs. -/
theorem runOps_preserve {σ : Type} (step : σ → Op → σ) (P : σ → Prop)
    (hstep : ∀ s op, P s → P (step s op)) :
    ∀ (ops : List Op) (s : σ), P s → P (ops.foldl step s) := by
  intro ops
  induction ops with
  | nil => exact fun s h => h
  | cons op rest ih => exact fun s h => ih (step s op) (hstep s op h)

theorem moment_pop_skip (s : MomentState) : s.pop.skip_nan = s.skip_nan := by
  rw [MomentState.pop]
  generalize List.range s.num_moments = l
  induction l generalizing s with
  | nil => rfl
  | cons i rest ih => rw [List.foldl_cons, ih, MomentState.pop_aux_skip]

/-- The NaN policy is fixed at construction: every `RollingMean` run
keeps it. -/
theorem meanRun_skip (skip : Bool) (ops : List Op) :
    (meanRun skip ops).skip_nan = skip := by
  refine runOps_preserve RollingMean.step (fun s => s.skip_nan = skip)
    ?_ ops (RollingMean.init skip) rfl
  intro s op hs
  cases op with
  | push v => rw [show RollingMean.step s (.push v) = s.push_aux v 0 from rfl,
      MomentState.push_aux_skip]; exact hs
  | pop => rw [show RollingMean.step s .pop = s.pop from rfl,
      moment_pop_skip]; exact hs
  | clear => exact hs

/-- Claim C1: for every sequence of push/pop operations (pops never
exceeding pushes) on a `RollingMean` engine with skip-NaN policy,
`compute()` equals the batch mean of the non-NaN values currently in
the window; and the concrete scenario: push 1, 2, 3 gives 2, then push
NaN, 4 gives 5/2, then three pops give 4, then two more pops followed
by a push of NaN give the NaN sentinel. -/
theorem claim_C1 :
    (∀ (ops : List Op) (n : ℕ), netCount ops = some n →
      RollingMean.compute (meanRun true ops) =
        specBatchMean ((meanRun true ops).vecs_in_window 0)) ∧
    RollingMean.compute (meanRun true
      [.push (.num 1), .push (.num 2), .push (.num 3)]) = .num 2 ∧
    RollingMean.compute (meanRun true
      [.push (.num 1), .push (.num 2), .push (.num 3), .push .nan,
       .push (.num 4)]) = .num (5/2) ∧
    RollingMean.compute (meanRun true
      [.push (.num 1), .push (.num 2), .push (.num 3), .push .nan,
       .push (.num 4), .pop, .pop, .pop]) = .num 4 ∧
    RollingMean.compute (meanRun true
      [.push (.num 1), .push (.num 2), .push (.num 3), .push .nan,
       .push (.num 4), .pop, .pop, .pop, .pop, .pop, .push .nan]) = .nan := by
  refine ⟨?_, ?sa, ?sb, ?sc, ?sd⟩
  case sa =>
    simp [meanRun, runOps, RollingMean.step, RollingMean.push, MomentState.push_aux,
      MomentState.pop, MomentState.pop_aux, List.range_succ,
      Val.isnan, RollingMean.compute, MomentState.compute, computeWith,
      RollingMean.compute_aux, Val.toQ, RollingMean.init, MomentState.init,
      MomentState.clear]
    norm_num
  case sb =>
    simp [meanRun, runOps, RollingMean.step, RollingMean.push, MomentState.push_aux,
      MomentState.pop, MomentState.pop_aux, List.range_succ,
      Val.isnan, RollingMean.compute, MomentState.compute, computeWith,
      RollingMean.compute_aux, Val.toQ, RollingMean.init, MomentState.init,
      MomentState.clear]
    norm_num
  case sc =>
    simp [meanRun, runOps, RollingMean.step, RollingMean.push, MomentState.push_aux,
      MomentState.pop, MomentState.pop_aux, List.range_succ,
      Val.isnan, RollingMean.compute, MomentState.compute, computeWith,
      RollingMean.compute_aux, Val.toQ, RollingMean.init, MomentState.init,
      MomentState.clear]
    norm_num
  case sd =>
    simp [meanRun, runOps, RollingMean.step, RollingMean.push, MomentState.push_aux,
      MomentState.pop, MomentState.pop_aux, List.range_succ,
      Val.isnan, RollingMean.compute, MomentState.compute, computeWith,
      RollingMean.compute_aux, Val.toQ, RollingMean.init, MomentState.init,
      MomentState.clear]
  intro ops n h
  obtain ⟨⟨⟨h1, h2, h3⟩, hk⟩, hsz⟩ := meanRun_inv true ops n h
  have hskip : (meanRun true ops).skip_nan = true := meanRun_skip true ops
  rw [RollingMean.compute, MomentState.compute, computeWith, specBatchMean]
  by_cases h0 : countValidL ((meanRun true ops).vecs_in_window 0) = 0
  · rw [if_pos (Or.inl (h2.trans h0)), if_pos h0]
  · rw [if_neg ?side, if_neg h0]
    case side =>
      rw [hskip, h2]
      simp [h0]
    rw [RollingMean.compute_aux]
    rw [h2, h3 0]
  -- the gate passes, and the accumulator invariant turns the running
  -- sum and count into the literal window sum and count

/-- Witness for C1: the general refinement applied to a concrete
two-push run. -/
theorem claim_C1_witness :
    RollingMean.compute (meanRun true [.push (.num 1), .push .nan]) =
      specBatchMean ((meanRun true [.push (.num 1), .push .nan]).vecs_in_window 0) :=
  claim_C1.1 [.push (.num 1), .push .nan] 2 rfl

/-! ### Queue-effect lemmas and alignment invariants -/

namespace MomentState

theorem push_aux_vecs_same (s : MomentState) (v : Val) (i : ℕ) :
    (s.push_aux v i).vecs_in_window i = s.vecs_in_window i ++ [v] := by
  rw [push_aux_vecs, Function.update_same]

theorem push_aux_vecs_ne (s : MomentState) (v : Val) (i j : ℕ) (hj : j ≠ i) :
    (s.push_aux v i).vecs_in_window j = s.vecs_in_window j := by
  rw [push_aux_vecs, Function.update_noteq hj]

theorem pop_aux_vecs_tail (s : MomentState) (i : ℕ) :
    (s.pop_aux i).vecs_in_window i = (s.vecs_in_window i).tail := by
  match hw : s.vecs_in_window i with
  | [] => rw [pop_aux_empty s i hw, hw]; rfl
  | .nan :: rest => rw [pop_aux_cons_nan s i rest hw]; simp
  | .num q :: rest => rw [pop_aux_cons_num s i q rest hw]; simp

theorem pop_aux_vecs_ne (s : MomentState) (i j : ℕ) (hj : j ≠ i) :
    (s.pop_aux i).vecs_in_window j = s.vecs_in_window j := by
  match hw : s.vecs_in_window i with
  | [] => rw [pop_aux_empty s i hw]
  | .nan :: rest => rw [pop_aux_cons_nan s i rest hw]; simp [Function.update_noteq hj]
  | .num q :: rest => rw [pop_aux_cons_num s i q rest hw]; simp [Function.update_noteq hj]

theorem pop_aux_moments_ne (s : MomentState) (i j : ℕ) (hj : j ≠ i) :
    (s.pop_aux i).unnormalized_moments j = s.unnormalized_moments j := by
  match hw : s.vecs_in_window i with
  | [] => rw [pop_aux_empty s i hw]
  | .nan :: rest => rw [pop_aux_cons_nan s i rest hw]
  | .num q :: rest => rw [pop_aux_cons_num s i q rest hw]; simp [Function.update_noteq hj]

theorem pop_aux_moments_head (s : MomentState) (i : ℕ) :
    (s.pop_aux i).unnormalized_moments i =
      s.unnormalized_moments i - contribVal ((s.vecs_in_window i).headD .nan) := by
  match hw : s.vecs_in_window i with
  | [] => rw [pop_aux_empty s i hw]; simp [contribVal, Val.isnan]
  | .nan :: rest =>
    rw [pop_aux_cons_nan s i rest hw]; simp [contribVal, Val.isnan]
  | .num q :: rest =>
    rw [pop_aux_cons_num s i q rest hw]
    simp [contribVal, Val.isnan, Val.toQ]

end MomentState

theorem meanRun_aligned (skip : Bool) (ops : List Op) (n : ℕ)
    (h : netCount ops = some n) :
    (MomentState.CoreK 1 (meanRun skip ops) ∧
      MomentState.AlignedK 1 (meanRun skip ops)) ∧
    (meanRun skip ops).size = n := by
  refine runOps_netCount RollingMean.step MomentState.size
    (fun s => MomentState.CoreK 1 s ∧ MomentState.AlignedK 1 s)
    ?_ ?_ ?_ ops (RollingMean.init skip) n
    ⟨⟨⟨rfl, rfl, fun j => rfl⟩, rfl⟩, fun j hj => rfl⟩ h
  · rintro s v ⟨⟨hc, hk⟩, ha⟩
    have hsz : (RollingMean.step s (.push v)).size = s.size + 1 :=
      MomentState.size_push_aux_zero s v
    refine ⟨⟨⟨hc.push_aux v 0, ?_⟩, ?_⟩, hsz⟩
    · show (s.push_aux v 0).num_moments = 1
      rw [MomentState.push_aux_num_moments]; exact hk
    · intro j hj
      interval_cases j
      show ((s.push_aux v 0).vecs_in_window 0).length = (s.push_aux v 0).size
      rw [MomentState.push_aux_vecs_same, MomentState.size_push_aux_zero,
        List.length_append, ha 0 (by omega)]
      rfl
  · rintro s ⟨⟨hc, hk⟩, ha⟩ hpos
    have hp : RollingMean.step s .pop = s.pop_aux 0 := by
      show s.pop = s.pop_aux 0
      rw [MomentState.pop, hk]
      rfl
    rw [hp]
    refine ⟨⟨⟨hc.pop_aux 0, ?_⟩, ?_⟩, ?_⟩
    · rw [MomentState.pop_aux_num_moments]; exact hk
    · intro j hj
      interval_cases j
      rw [MomentState.pop_aux_vecs_tail, List.length_tail,
        MomentState.size_pop_aux_zero hc.1 hc.2.1 hpos, ha 0 (by omega)]
    · exact MomentState.size_pop_aux_zero hc.1 hc.2.1 hpos
  · rintro s ⟨⟨hc, hk⟩, ha⟩
    exact ⟨⟨⟨⟨rfl, rfl, fun j => rfl⟩, hk⟩, fun j hj => rfl⟩, rfl⟩

theorem varRun_aligned (skip : Bool) (ops : List Op) (n : ℕ)
    (h : netCount ops = some n) :
    (MomentState.CoreK 2 (varRun skip ops) ∧
      MomentState.AlignedK 2 (varRun skip ops)) ∧
    (varRun skip ops).size = n := by
  refine runOps_netCount RollingVariance.step MomentState.size
    (fun s => MomentState.CoreK 2 s ∧ MomentState.AlignedK 2 s)
    ?_ ?_ ?_ ops (RollingVariance.init skip) n
    ⟨⟨⟨rfl, rfl, fun j => rfl⟩, rfl⟩, fun j hj => rfl⟩ h
  · rintro s v ⟨⟨hc, hk⟩, ha⟩
    have hsz : (RollingVariance.step s (.push v)).size = s.size + 1 := by
      show ((s.push_aux v 0).push_aux (v.mul v) 1).size = s.size + 1
      rw [MomentState.size_push_aux_ne _ _ 1 one_ne_zero,
        MomentState.size_push_aux_zero]
    refine ⟨⟨⟨(hc.push_aux v 0).push_aux (v.mul v) 1, ?_⟩, ?_⟩, hsz⟩
    · show ((s.push_aux v 0).push_aux (v.mul v) 1).num_moments = 2
      rw [MomentState.push_aux_num_moments, MomentState.push_aux_num_moments]
      exact hk
    · intro j hj
      interval_cases j
      · show (((s.push_aux v 0).push_aux (v.mul v) 1).vecs_in_window 0).length = _
        rw [MomentState.push_aux_vecs_ne _ _ 1 0 (by omega),
          MomentState.push_aux_vecs_same, List.length_append, hsz,
          ha 0 (by omega)]
        rfl
      · show (((s.push_aux v 0).push_aux (v.mul v) 1).vecs_in_window 1).length = _
        rw [MomentState.push_aux_vecs_same, List.length_append,
          MomentState.push_aux_vecs_ne _ _ 0 1 (by omega), hsz, ha 1 (by omega)]
        rfl
  · rintro s ⟨⟨hc, hk⟩, ha⟩ hpos
    have hp : RollingVariance.step s .pop = (s.pop_aux 0).pop_aux 1 := by
      show s.pop = (s.pop_aux 0).pop_aux 1
      rw [MomentState.pop, hk]
      rfl
    rw [hp]
    have hsz : ((s.pop_aux 0).pop_aux 1).size = s.size - 1 := by
      rw [MomentState.size_pop_aux_ne _ 1 one_ne_zero]
      exact MomentState.size_pop_aux_zero hc.1 hc.2.1 hpos
    refine ⟨⟨⟨(hc.pop_aux 0).pop_aux 1, ?_⟩, ?_⟩, hsz⟩
    · rw [MomentState.pop_aux_num_moments, MomentState.pop_aux_num_moments]
      exact hk
    · intro j hj
      interval_cases j
      · rw [MomentState.pop_aux_vecs_ne _ 1 0 (by omega),
          MomentState.pop_aux_vecs_tail, List.length_tail, hsz, ha 0 (by omega)]
      · rw [MomentState.pop_aux_vecs_tail,
          MomentState.pop_aux_vecs_ne _ 0 1 (by omega), List.length_tail, hsz,
          ha 1 (by omega)]
  · rintro s ⟨⟨hc, hk⟩, ha⟩
    exact ⟨⟨⟨⟨rfl, rfl, fun j => rfl⟩, hk⟩, fun j hj => rfl⟩, rfl⟩

theorem skewRun_aligned (skip : Bool) (ops : List Op) (n : ℕ)
    (h : netCount ops = some n) :
    (MomentState.CoreK 3 (skewRun skip ops) ∧
      MomentState.AlignedK 3 (skewRun skip ops)) ∧
    (skewRun skip ops).size = n := by
  refine runOps_netCount RollingSkewness.step MomentState.size
    (fun s => MomentState.CoreK 3 s ∧ MomentState.AlignedK 3 s)
    ?_ ?_ ?_ ops (RollingSkewness.init skip) n
    ⟨⟨⟨rfl, rfl, fun j => rfl⟩, rfl⟩, fun j hj => rfl⟩ h
  · rintro s v ⟨⟨hc, hk⟩, ha⟩
    have hsz : (RollingSkewness.step s (.push v)).size = s.size + 1 := by
      show (((s.push_aux v 0).push_aux (v.mul v) 1).push_aux ((v.mul v).mul v) 2).size
        = s.size + 1
      rw [MomentState.size_push_aux_ne _ _ 2 two_ne_zero,
        MomentState.size_push_aux_ne _ _ 1 one_ne_zero,
        MomentState.size_push_aux_zero]
    refine ⟨⟨⟨((hc.push_aux v 0).push_aux (v.mul v) 1).push_aux ((v.mul v).mul v) 2,
      ?_⟩, ?_⟩, hsz⟩
    · show (((s.push_aux v 0).push_aux (v.mul v) 1).push_aux
        ((v.mul v).mul v) 2).num_moments = 3
      rw [MomentState.push_aux_num_moments, MomentState.push_aux_num_moments,
        MomentState.push_aux_num_moments]
      exact hk
    · intro j hj
      interval_cases j
      · show ((((s.push_aux v 0).push_aux (v.mul v) 1).push_aux
            ((v.mul v).mul v) 2).vecs_in_window 0).length = _
        rw [MomentState.push_aux_vecs_ne _ _ 2 0 (by omega),
          MomentState.push_aux_vecs_ne _ _ 1 0 (by omega),
          MomentState.push_aux_vecs_same, List.length_append, hsz,
          ha 0 (by omega)]
        rfl
      · show ((((s.push_aux v 0).push_aux (v.mul v) 1).push_aux
            ((v.mul v).mul v) 2).vecs_in_window 1).length = _
        rw [MomentState.push_aux_vecs_ne _ _ 2 1 (by omega),
          MomentState.push_aux_vecs_same, List.length_append,
          MomentState.push_aux_vecs_ne _ _ 0 1 (by omega), hsz, ha 1 (by omega)]
        rfl
      · show ((((s.push_aux v 0).push_aux (v.mul v) 1).push_aux
            ((v.mul v).mul v) 2).vecs_in_window 2).length = _
        rw [MomentState.push_aux_vecs_same, List.length_append,
          MomentState.push_aux_vecs_ne _ _ 1 2 (by omega),
          MomentState.push_aux_vecs_ne _ _ 0 2 (by omega), hsz, ha 2 (by omega)]
        rfl
  · rintro s ⟨⟨hc, hk⟩, ha⟩ hpos
    have hp : RollingSkewness.step s .pop = ((s.pop_aux 0).pop_aux 1).pop_aux 2 := by
      show s.pop = ((s.pop_aux 0).pop_aux 1).pop_aux 2
      rw [MomentState.pop, hk]
      rfl
    rw [hp]
    have hsz : (((s.pop_aux 0).pop_aux 1).pop_aux 2).size = s.size - 1 := by
      rw [MomentState.size_pop_aux_ne _ 2 two_ne_zero,
        MomentState.size_pop_aux_ne _ 1 one_ne_zero]
      exact MomentState.size_pop_aux_zero hc.1 hc.2.1 hpos
    refine ⟨⟨⟨((hc.pop_aux 0).pop_aux 1).pop_aux 2, ?_⟩, ?_⟩, hsz⟩
    · rw [MomentState.pop_aux_num_moments, MomentState.pop_aux_num_moments,
        MomentState.pop_aux_num_moments]
      exact hk
    · intro j hj
      interval_cases j
      · rw [MomentState.pop_aux_vecs_ne _ 2 0 (by omega),
          MomentState.pop_aux_vecs_ne _ 1 0 (by omega),
          MomentState.pop_aux_vecs_tail, List.length_tail, hsz, ha 0 (by omega)]
      · rw [MomentState.pop_aux_vecs_ne _ 2 1 (by omega),
          MomentState.pop_aux_vecs_tail,
          MomentState.pop_aux_vecs_ne _ 0 1 (by omega), List.length_tail, hsz,
          ha 1 (by omega)]
      · rw [MomentState.pop_aux_vecs_tail,
          MomentState.pop_aux_vecs_ne _ 1 2 (by omega),
          MomentState.pop_aux_vecs_ne _ 0 2 (by omega), List.length_tail, hsz,
          ha 2 (by omega)]
  · rintro s ⟨⟨hc, hk⟩, ha⟩
    exact ⟨⟨⟨⟨rfl, rfl, fun j => rfl⟩, hk⟩, fun j hj => rfl⟩, rfl⟩

theorem MomentState.push_aux_moments_ne (s : MomentState) (v : Val) (i j : ℕ)
    (hj : j ≠ i) :
    (s.push_aux v i).unnormalized_moments j = s.unnormalized_moments j := by
  rw [push_aux_moments]
  split
  · rfl
  · rw [Function.update_noteq hj]

theorem sumValidL_singleton (v : Val) : sumValidL [v] = contribVal v := by
  cases v <;> simp [sumValidL, validQs, contribVal, Val.isnan, Val.toQ]

theorem zscoreRun_zaligned (skip : Bool) (ops : List Op) (n : ℕ)
    (h : netCount ops = some n) :
    (MomentState.CoreK 3 (zscoreRun skip ops) ∧
      MomentState.ZAligned (zscoreRun skip ops)) ∧
    (zscoreRun skip ops).size = n := by
  refine runOps_netCount RollingZScore.step MomentState.size
    (fun s => MomentState.CoreK 3 s ∧ MomentState.ZAligned s)
    ?_ ?_ ?_ ops (RollingZScore.init skip) n
    ⟨⟨⟨rfl, rfl, fun j => rfl⟩, rfl⟩, rfl, rfl,
      by show ([] : List Val).length ≤ 1; simp⟩ h
  · rintro s v ⟨⟨hc, hk⟩, ha0, ha2, ha1⟩
    have he : RollingZScore.step s (.push v) = RollingZScore.push s v := rfl
    rw [he, RollingZScore.push_eq]
    split
    · next hl =>
      rw [MomentState.push_aux_vecs_ne _ v 0 1 (by omega)] at hl
      refine ⟨⟨⟨(((hc.push_aux v 0).pop_aux 1).push_aux v 1).push_aux (v.mul v) 2, ?_⟩,
        ?_, ?_, ?_⟩, ?_⟩
      · rw [MomentState.push_aux_num_moments, MomentState.push_aux_num_moments,
          MomentState.pop_aux_num_moments, MomentState.push_aux_num_moments]
        exact hk
      · rw [MomentState.push_aux_vecs_ne _ _ 2 0 (by omega),
          MomentState.push_aux_vecs_ne _ _ 1 0 (by omega),
          MomentState.pop_aux_vecs_ne _ 1 0 (by omega),
          MomentState.push_aux_vecs_same,
          MomentState.size_push_aux_ne _ _ 2 two_ne_zero,
          MomentState.size_push_aux_ne _ _ 1 one_ne_zero,
          MomentState.size_pop_aux_ne _ 1 one_ne_zero,
          MomentState.size_push_aux_zero, List.length_append, ha0]
        rfl
      · rw [MomentState.push_aux_vecs_same,
          MomentState.push_aux_vecs_ne _ _ 1 2 (by omega),
          MomentState.pop_aux_vecs_ne _ 1 2 (by omega),
          MomentState.push_aux_vecs_ne _ _ 0 2 (by omega),
          MomentState.size_push_aux_ne _ _ 2 two_ne_zero,
          MomentState.size_push_aux_ne _ _ 1 one_ne_zero,
          MomentState.size_pop_aux_ne _ 1 one_ne_zero,
          MomentState.size_push_aux_zero, List.length_append, ha2]
        rfl
      · rw [MomentState.push_aux_vecs_ne _ _ 2 1 (by omega),
          MomentState.push_aux_vecs_same, MomentState.pop_aux_vecs_tail,
          MomentState.push_aux_vecs_ne _ _ 0 1 (by omega), List.length_append,
          List.length_tail]
        simp
        omega
      · rw [MomentState.size_push_aux_ne _ _ 2 two_ne_zero,
          MomentState.size_push_aux_ne _ _ 1 one_ne_zero,
          MomentState.size_pop_aux_ne _ 1 one_ne_zero,
          MomentState.size_push_aux_zero]
    · next hl =>
      rw [MomentState.push_aux_vecs_ne _ v 0 1 (by omega)] at hl
      refine ⟨⟨⟨((hc.push_aux v 0).push_aux v 1).push_aux (v.mul v) 2, ?_⟩,
        ?_, ?_, ?_⟩, ?_⟩
      · rw [MomentState.push_aux_num_moments, MomentState.push_aux_num_moments,
          MomentState.push_aux_num_moments]
        exact hk
      · rw [MomentState.push_aux_vecs_ne _ _ 2 0 (by omega),
          MomentState.push_aux_vecs_ne _ _ 1 0 (by omega),
          MomentState.push_aux_vecs_same,
          MomentState.size_push_aux_ne _ _ 2 two_ne_zero,
          MomentState.size_push_aux_ne _ _ 1 one_ne_zero,
          MomentState.size_push_aux_zero, List.length_append, ha0]
        rfl
      · rw [MomentState.push_aux_vecs_same,
          MomentState.push_aux_vecs_ne _ _ 1 2 (by omega),
          MomentState.push_aux_vecs_ne _ _ 0 2 (by omega),
          MomentState.size_push_aux_ne _ _ 2 two_ne_zero,
          MomentState.size_push_aux_ne _ _ 1 one_ne_zero,
          MomentState.size_push_aux_zero, List.length_append, ha2]
        rfl
      · rw [MomentState.push_aux_vecs_ne _ _ 2 1 (by omega),
          MomentState.push_aux_vecs_same,
          MomentState.push_aux_vecs_ne _ _ 0 1 (by omega), List.length_append]
        have h0 : (s.vecs_in_window 1).length = 0 := by omega
        simp [h0]
      · rw [MomentState.size_push_aux_ne _ _ 2 two_ne_zero,
          MomentState.size_push_aux_ne _ _ 1 one_ne_zero,
          MomentState.size_push_aux_zero]
  · rintro s ⟨⟨hc, hk⟩, ha0, ha2, ha1⟩ hpos
    have hp : RollingZScore.step s .pop = (s.pop_aux 0).pop_aux 2 := rfl
    rw [hp]
    have hsz : ((s.pop_aux 0).pop_aux 2).size = s.size - 1 := by
      rw [MomentState.size_pop_aux_ne _ 2 two_ne_zero]
      exact MomentState.size_pop_aux_zero hc.1 hc.2.1 hpos
    refine ⟨⟨⟨(hc.pop_aux 0).pop_aux 2, ?_⟩, ?_, ?_, ?_⟩, hsz⟩
    · rw [MomentState.pop_aux_num_moments, MomentState.pop_aux_num_moments]
      exact hk
    · rw [MomentState.pop_aux_vecs_ne _ 2 0 (by omega),
        MomentState.pop_aux_vecs_tail, List.length_tail, hsz, ha0]
    · rw [MomentState.pop_aux_vecs_tail,
        MomentState.pop_aux_vecs_ne _ 0 2 (by omega), List.length_tail, hsz, ha2]
    · rw [MomentState.pop_aux_vecs_ne _ 2 1 (by omega),
        MomentState.pop_aux_vecs_ne _ 0 1 (by omega)]
      exact ha1
  · rintro s ⟨⟨hc, hk⟩, ha⟩
    exact ⟨⟨⟨⟨rfl, rfl, fun j => rfl⟩, hk⟩, rfl, rfl,
      by show ([] : List Val).length ≤ 1; simp⟩, rfl⟩

/-! ### Claim C10: queue alignment of the moment engines -/

/-- Claim C10: for `RollingMean`, `RollingVariance` and `RollingSkewness`,
after any sequence of clear/push/pop operations (pops never exceeding
pushes), all `num_moments` internal queues have the same length, equal
to `size()`; every push appends exactly one entry (`v`, `v²`, `v³` as
applicable, NaN entries included) to each queue and every pop removes
exactly one entry (the front) from each. -/
theorem claim_C10 :
    (∀ (skip : Bool) (ops : List Op) (n : ℕ), netCount ops = some n →
      (∀ j, j < 1 →
        ((meanRun skip ops).vecs_in_window j).length = (meanRun skip ops).size) ∧
      (∀ v, (RollingMean.step (meanRun skip ops) (.push v)).vecs_in_window 0 =
        (meanRun skip ops).vecs_in_window 0 ++ [v]) ∧
      (0 < n → ∀ j, j < 1 →
        (RollingMean.step (meanRun skip ops) .pop).vecs_in_window j =
          ((meanRun skip ops).vecs_in_window j).tail ∧
        ((RollingMean.step (meanRun skip ops) .pop).vecs_in_window j).length =
          ((meanRun skip ops).vecs_in_window j).length - 1 ∧
        0 < ((meanRun skip ops).vecs_in_window j).length)) ∧
    (∀ (skip : Bool) (ops : List Op) (n : ℕ), netCount ops = some n →
      (∀ j, j < 2 →
        ((varRun skip ops).vecs_in_window j).length = (varRun skip ops).size) ∧
      (∀ v, (RollingVariance.step (varRun skip ops) (.push v)).vecs_in_window 0 =
          (varRun skip ops).vecs_in_window 0 ++ [v] ∧
        (RollingVariance.step (varRun skip ops) (.push v)).vecs_in_window 1 =
          (varRun skip ops).vecs_in_window 1 ++ [v.mul v]) ∧
      (0 < n → ∀ j, j < 2 →
        (RollingVariance.step (varRun skip ops) .pop).vecs_in_window j =
          ((varRun skip ops).vecs_in_window j).tail ∧
        ((RollingVariance.step (varRun skip ops) .pop).vecs_in_window j).length =
          ((varRun skip ops).vecs_in_window j).length - 1 ∧
        0 < ((varRun skip ops).vecs_in_window j).length)) ∧
    (∀ (skip : Bool) (ops : List Op) (n : ℕ), netCount ops = some n →
      (∀ j, j < 3 →
        ((skewRun skip ops).vecs_in_window j).length = (skewRun skip ops).size) ∧
      (∀ v, (RollingSkewness.step (skewRun skip ops) (.push v)).vecs_in_window 0 =
          (skewRun skip ops).vecs_in_window 0 ++ [v] ∧
        (RollingSkewness.step (skewRun skip ops) (.push v)).vecs_in_window 1 =
          (skewRun skip ops).vecs_in_window 1 ++ [v.mul v] ∧
        (RollingSkewness.step (skewRun skip ops) (.push v)).vecs_in_window 2 =
          (skewRun skip ops).vecs_in_window 2 ++ [(v.mul v).mul v]) ∧
      (0 < n → ∀ j, j < 3 →
        (RollingSkewness.step (skewRun skip ops) .pop).vecs_in_window j =
          ((skewRun skip ops).vecs_in_window j).tail ∧
        ((RollingSkewness.step (skewRun skip ops) .pop).vecs_in_window j).length =
          ((skewRun skip ops).vecs_in_window j).length - 1 ∧
        0 < ((skewRun skip ops).vecs_in_window j).length)) := by
  refine ⟨?_, ?_, ?_⟩
  · intro skip ops n h
    obtain ⟨⟨⟨hc, hk⟩, ha⟩, hsz⟩ := meanRun_aligned skip ops n h
    have hp : RollingMean.step (meanRun skip ops) .pop = (meanRun skip ops).pop_aux 0 := by
      show (meanRun skip ops).pop = _
      rw [MomentState.pop, hk]
      rfl
    refine ⟨ha, fun v => MomentState.push_aux_vecs_same _ v 0, fun hn j hj => ?_⟩
    interval_cases j
    rw [hp]
    refine ⟨MomentState.pop_aux_vecs_tail _ 0, ?_, ?_⟩
    · rw [MomentState.pop_aux_vecs_tail, List.length_tail]
    · rw [ha 0 (by omega), hsz]; exact hn
  · intro skip ops n h
    obtain ⟨⟨⟨hc, hk⟩, ha⟩, hsz⟩ := varRun_aligned skip ops n h
    have hp : RollingVariance.step (varRun skip ops) .pop =
        ((varRun skip ops).pop_aux 0).pop_aux 1 := by
      show (varRun skip ops).pop = _
      rw [MomentState.pop, hk]
      rfl
    refine ⟨ha, fun v => ⟨?_, ?_⟩, fun hn j hj => ?_⟩
    · show (((varRun skip ops).push_aux v 0).push_aux (v.mul v) 1).vecs_in_window 0 = _
      rw [MomentState.push_aux_vecs_ne _ _ 1 0 (by omega),
        MomentState.push_aux_vecs_same]
    · show (((varRun skip ops).push_aux v 0).push_aux (v.mul v) 1).vecs_in_window 1 = _
      rw [MomentState.push_aux_vecs_same, MomentState.push_aux_vecs_ne _ _ 0 1 (by omega)]
    · rw [hp]
      interval_cases j
      · refine ⟨?_, ?_, ?_⟩
        · rw [MomentState.pop_aux_vecs_ne _ 1 0 (by omega),
            MomentState.pop_aux_vecs_tail]
        · rw [MomentState.pop_aux_vecs_ne _ 1 0 (by omega),
            MomentState.pop_aux_vecs_tail, List.length_tail]
        · rw [ha 0 (by omega), hsz]; exact hn
      · refine ⟨?_, ?_, ?_⟩
        · rw [MomentState.pop_aux_vecs_tail, MomentState.pop_aux_vecs_ne _ 0 1 (by omega)]
        · rw [MomentState.pop_aux_vecs_tail, MomentState.pop_aux_vecs_ne _ 0 1 (by omega),
            List.length_tail]
        · rw [ha 1 (by omega), hsz]; exact hn
  · intro skip ops n h
    obtain ⟨⟨⟨hc, hk⟩, ha⟩, hsz⟩ := skewRun_aligned skip ops n h
    have hp : RollingSkewness.step (skewRun skip ops) .pop =
        (((skewRun skip ops).pop_aux 0).pop_aux 1).pop_aux 2 := by
      show (skewRun skip ops).pop = _
      rw [MomentState.pop, hk]
      rfl
    refine ⟨ha, fun v => ⟨?_, ?_, ?_⟩, fun hn j hj => ?_⟩
    · show ((((skewRun skip ops).push_aux v 0).push_aux (v.mul v) 1).push_aux
        ((v.mul v).mul v) 2).vecs_in_window 0 = _
      rw [MomentState.push_aux_vecs_ne _ _ 2 0 (by omega),
        MomentState.push_aux_vecs_ne _ _ 1 0 (by omega),
        MomentState.push_aux_vecs_same]
    · show ((((skewRun skip ops).push_aux v 0).push_aux (v.mul v) 1).push_aux
        ((v.mul v).mul v) 2).vecs_in_window 1 = _
      rw [MomentState.push_aux_vecs_ne _ _ 2 1 (by omega),
        MomentState.push_aux_vecs_same,
        MomentState.push_aux_vecs_ne _ _ 0 1 (by omega)]
    · show ((((skewRun skip ops).push_aux v 0).push_aux (v.mul v) 1).push_aux
        ((v.mul v).mul v) 2).vecs_in_window 2 = _
      rw [MomentState.push_aux_vecs_same,
        MomentState.push_aux_vecs_ne _ _ 1 2 (by omega),
        MomentState.push_aux_vecs_ne _ _ 0 2 (by omega)]
    · rw [hp]
      interval_cases j
      · refine ⟨?_, ?_, ?_⟩
        · rw [MomentState.pop_aux_vecs_ne _ 2 0 (by omega),
            MomentState.pop_aux_vecs_ne _ 1 0 (by omega),
            MomentState.pop_aux_vecs_tail]
        · rw [MomentState.pop_aux_vecs_ne _ 2 0 (by omega),
            MomentState.pop_aux_vecs_ne _ 1 0 (by omega),
            MomentState.pop_aux_vecs_tail, List.length_tail]
        · rw [ha 0 (by omega), hsz]; exact hn
      · refine ⟨?_, ?_, ?_⟩
        · rw [MomentState.pop_aux_vecs_ne _ 2 1 (by omega),
            MomentState.pop_aux_vecs_tail, MomentState.pop_aux_vecs_ne _ 0 1 (by omega)]
        · rw [MomentState.pop_aux_vecs_ne _ 2 1 (by omega),
            MomentState.pop_aux_vecs_tail, MomentState.pop_aux_vecs_ne _ 0 1 (by omega),
            List.length_tail]
        · rw [ha 1 (by omega), hsz]; exact hn
      · refine ⟨?_, ?_, ?_⟩
        · rw [MomentState.pop_aux_vecs_tail, MomentState.pop_aux_vecs_ne _ 1 2 (by omega),
            MomentState.pop_aux_vecs_ne _ 0 2 (by omega)]
        · rw [MomentState.pop_aux_vecs_tail, MomentState.pop_aux_vecs_ne _ 1 2 (by omega),
            MomentState.pop_aux_vecs_ne _ 0 2 (by omega), List.length_tail]
        · rw [ha 2 (by omega), hsz]; exact hn

/-- Witness for C10: the alignment applied to a concrete one-push run
of the variance engine. -/
theorem claim_C10_witness :
    ∀ j, j < 2 → ((varRun true [.push (.num 1)]).vecs_in_window j).length =
      (varRun true [.push (.num 1)]).size :=
  (claim_C10.2.1 true [.push (.num 1)] 1 rfl).1

/-! ### Claim C7: the z-score current-value slot -/

/-- Claim C7: for a `RollingZScore` engine after any operation sequence
whose pops never exceeded its pushes, `pop()` removes the oldest entry
from the `Σx` accumulator (queue and sum at index 0) and the `Σx²`
accumulator (index 2) only, leaving the current-value slot (index 1)
untouched; and after every `push(v)` the current-value slot contains
exactly `[v]` (the prior occupant, if any, evicted first), with its sum
equal to `v`'s contribution, independently of how many pops occurred. -/
theorem claim_C7 (skip : Bool) (ops : List Op) (n : ℕ)
    (h : netCount ops = some n) :
    (∀ v, (RollingZScore.step (zscoreRun skip ops) (.push v)).vecs_in_window 1 = [v] ∧
      (RollingZScore.step (zscoreRun skip ops) (.push v)).unnormalized_moments 1 =
        contribVal v) ∧
    (0 < n →
      (RollingZScore.step (zscoreRun skip ops) .pop).vecs_in_window 1 =
        (zscoreRun skip ops).vecs_in_window 1 ∧
      (RollingZScore.step (zscoreRun skip ops) .pop).unnormalized_moments 1 =
        (zscoreRun skip ops).unnormalized_moments 1 ∧
      (RollingZScore.step (zscoreRun skip ops) .pop).vecs_in_window 0 =
        ((zscoreRun skip ops).vecs_in_window 0).tail ∧
      (RollingZScore.step (zscoreRun skip ops) .pop).vecs_in_window 2 =
        ((zscoreRun skip ops).vecs_in_window 2).tail ∧
      (RollingZScore.step (zscoreRun skip ops) .pop).unnormalized_moments 0 =
        (zscoreRun skip ops).unnormalized_moments 0 -
          contribVal (((zscoreRun skip ops).vecs_in_window 0).headD .nan) ∧
      (RollingZScore.step (zscoreRun skip ops) .pop).unnormalized_moments 2 =
        (zscoreRun skip ops).unnormalized_moments 2 -
          contribVal (((zscoreRun skip ops).vecs_in_window 2).headD .nan)) := by
  obtain ⟨⟨⟨hc, hk⟩, ha0, ha2, ha1⟩, hsz⟩ := zscoreRun_zaligned skip ops n h
  constructor
  · intro v
    have he : RollingZScore.step (zscoreRun skip ops) (.push v) =
        RollingZScore.push (zscoreRun skip ops) v := rfl
    have hslot : (RollingZScore.step (zscoreRun skip ops) (.push v)).vecs_in_window 1
        = [v] := by
      rw [he, RollingZScore.push_eq]
      split
      · next hl =>
        rw [MomentState.push_aux_vecs_ne _ v 0 1 (by omega)] at hl
        rw [MomentState.push_aux_vecs_ne _ _ 2 1 (by omega),
          MomentState.push_aux_vecs_same]
        have hnil : (((zscoreRun skip ops).push_aux v 0).pop_aux 1).vecs_in_window 1
            = [] := by
          rw [← List.length_eq_zero, MomentState.pop_aux_vecs_tail,
            List.length_tail, MomentState.push_aux_vecs_ne _ _ 0 1 (by omega)]
          omega
        rw [hnil]
        rfl
      · next hl =>
        rw [MomentState.push_aux_vecs_ne _ v 0 1 (by omega)] at hl
        rw [MomentState.push_aux_vecs_ne _ _ 2 1 (by omega),
          MomentState.push_aux_vecs_same,
          MomentState.push_aux_vecs_ne _ _ 0 1 (by omega)]
        have hnil : (zscoreRun skip ops).vecs_in_window 1 = [] := by
          rw [← List.length_eq_zero]
          omega
        rw [hnil]
        rfl
    have hcpost : MomentState.Core (RollingZScore.step (zscoreRun skip ops) (.push v)) := by
      rw [he, RollingZScore.push_eq]
      split
      · exact (((hc.push_aux v 0).pop_aux 1).push_aux v 1).push_aux (v.mul v) 2
      · exact ((hc.push_aux v 0).push_aux v 1).push_aux (v.mul v) 2
    refine ⟨hslot, ?_⟩
    rw [hcpost.2.2 1, hslot, sumValidL_singleton]
  · intro hn
    have hp : RollingZScore.step (zscoreRun skip ops) .pop =
        ((zscoreRun skip ops).pop_aux 0).pop_aux 2 := rfl
    refine ⟨?_, ?_, ?_, ?_, ?_, ?_⟩
    · rw [hp, MomentState.pop_aux_vecs_ne _ 2 1 (by omega),
        MomentState.pop_aux_vecs_ne _ 0 1 (by omega)]
    · rw [hp, MomentState.pop_aux_moments_ne _ 2 1 (by omega),
        MomentState.pop_aux_moments_ne _ 0 1 (by omega)]
    · rw [hp, MomentState.pop_aux_vecs_ne _ 2 0 (by omega),
        MomentState.pop_aux_vecs_tail]
    · rw [hp, MomentState.pop_aux_vecs_tail,
        MomentState.pop_aux_vecs_ne _ 0 2 (by omega)]
    · rw [hp, MomentState.pop_aux_moments_ne _ 2 0 (by omega),
        MomentState.pop_aux_moments_head]
    · rw [hp, MomentState.pop_aux_moments_head,
        MomentState.pop_aux_moments_ne _ 0 2 (by omega),
        MomentState.pop_aux_vecs_ne _ 0 2 (by omega)]

/-- Witness for C7: the slot facts on a concrete run. -/
theorem claim_C7_witness :
    (RollingZScore.step (zscoreRun true [.push (.num 1), .push (.num 2)])
      (.push (.num 3))).vecs_in_window 1 = [.num 3] :=
  ((claim_C7 true [.push (.num 1), .push (.num 2)] 2 rfl).1 (.num 3)).1

/-! ### The monotonic candidate deque of RollingMax / RollingMin -/

theorem popBackWhile_eq_rdropWhile (p : ℚ → Bool) (l : List ℚ) :
    popBackWhile p l = l.rdropWhile p := rfl

theorem mem_suffMax {l : List ℚ} {a : ℚ} (h : a ∈ suffMax l) : a ∈ l := by
  induction l with
  | nil => simpa [suffMax] using h
  | cons x xs ih =>
    rw [suffMax] at h
    split at h
    · rcases List.mem_cons.mp h with h | h
      · exact h ▸ List.mem_cons_self x xs
      · exact List.mem_cons_of_mem x (ih h)
    · exact List.mem_cons_of_mem x (ih h)

theorem mem_suffMin {l : List ℚ} {a : ℚ} (h : a ∈ suffMin l) : a ∈ l := by
  induction l with
  | nil => simpa [suffMin] using h
  | cons x xs ih =>
    rw [suffMin] at h
    split at h
    · rcases List.mem_cons.mp h with h | h
      · exact h ▸ List.mem_cons_self x xs
      · exact List.mem_cons_of_mem x (ih h)
    · exact List.mem_cons_of_mem x (ih h)

theorem suffMax_head_spec :
    ∀ (l : List ℚ), l ≠ [] →
      ∃ m ms, suffMax l = m :: ms ∧ m ∈ l ∧ ∀ y ∈ l, y ≤ m := by
  intro l
  induction l with
  | nil => intro h; exact absurd rfl h
  | cons x xs ih =>
    intro _
    rw [suffMax]
    split
    · next hall =>
      refine ⟨x, suffMax xs, rfl, List.mem_cons_self x xs, ?_⟩
      intro y hy
      rcases List.mem_cons.mp hy with h | h
      · exact le_of_eq h
      · exact hall y h
    · next hall =>
      have hxs : xs ≠ [] := by
        intro hnil
        exact hall (by simp [hnil])
      obtain ⟨m, ms, hsm, hmem, hub⟩ := ih hxs
      push_neg at hall
      obtain ⟨y0, hy0, hy0x⟩ := hall
      refine ⟨m, ms, hsm, List.mem_cons_of_mem x hmem, ?_⟩
      intro y hy
      rcases List.mem_cons.mp hy with h | h
      · exact h ▸ le_of_lt (lt_of_lt_of_le hy0x (hub y0 hy0))
      · exact hub y h

theorem suffMin_head_spec :
    ∀ (l : List ℚ), l ≠ [] →
      ∃ m ms, suffMin l = m :: ms ∧ m ∈ l ∧ ∀ y ∈ l, m ≤ y := by
  intro l
  induction l with
  | nil => intro h; exact absurd rfl h
  | cons x xs ih =>
    intro _
    rw [suffMin]
    split
    · next hall =>
      refine ⟨x, suffMin xs, rfl, List.mem_cons_self x xs, ?_⟩
      intro y hy
      rcases List.mem_cons.mp hy with h | h
      · exact ge_of_eq h
      · exact hall y h
    · next hall =>
      have hxs : xs ≠ [] := by
        intro hnil
        exact hall (by simp [hnil])
      obtain ⟨m, ms, hsm, hmem, hub⟩ := ih hxs
      push_neg at hall
      obtain ⟨y0, hy0, hy0x⟩ := hall
      refine ⟨m, ms, hsm, List.mem_cons_of_mem x hmem, ?_⟩
      intro y hy
      rcases List.mem_cons.mp hy with h | h
      · exact h ▸ le_of_lt (lt_of_le_of_lt (hub y0 hy0) hy0x)
      · exact hub y h

theorem rdropWhile_cons_neg (p : ℚ → Bool) (x : ℚ) (S : List ℚ) (h : ¬p x) :
    (x :: S).rdropWhile p = x :: S.rdropWhile p := by
  induction S using List.reverseRecOn with
  | nil => simp [List.rdropWhile_singleton, h]
  | append_singleton S y ih =>
    by_cases hy : p y
    · rw [show x :: (S ++ [y]) = (x :: S) ++ [y] from rfl,
        List.rdropWhile_concat_pos _ _ _ hy, ih,
        List.rdropWhile_concat_pos _ _ _ hy]
    · rw [show x :: (S ++ [y]) = (x :: S) ++ [y] from rfl,
        List.rdropWhile_concat_neg _ _ _ hy,
        List.rdropWhile_concat_neg _ _ _ hy, List.cons_append]

/-- Push transition of the maximum deque: appending a value to the
window evicts the strictly dominated tail of the candidate sequence. -/
theorem suffMax_concat (xs : List ℚ) (q : ℚ) :
    suffMax (xs ++ [q]) =
      (suffMax xs).rdropWhile (fun b => decide (b < q)) ++ [q] := by
  induction xs with
  | nil => simp [suffMax]
  | cons x xs ih =>
    rw [List.cons_append, suffMax, suffMax]
    by_cases hall : ∀ y ∈ xs, y ≤ x
    · by_cases hxq : x < q
      · have hnot : ¬∀ y ∈ xs ++ [q], y ≤ x := by
          intro hc
          exact absurd (hc q (by simp)) (not_le.mpr hxq)
        rw [if_neg hnot, if_pos hall, ih]
        have hallp : ∀ b ∈ x :: suffMax xs, (fun b => decide (b < q)) b = true := by
          intro b hb
          rcases List.mem_cons.mp hb with h | h
          · simp [h, hxq]
          · have : b ≤ x := hall b (mem_suffMax h)
            simp [lt_of_le_of_lt this hxq]
        have hallp2 : ∀ b ∈ suffMax xs, (fun b => decide (b < q)) b = true :=
          fun b hb => hallp b (List.mem_cons_of_mem x hb)
        rw [List.rdropWhile_eq_nil_iff.mpr hallp,
          List.rdropWhile_eq_nil_iff.mpr hallp2]
      · have hyes : ∀ y ∈ xs ++ [q], y ≤ x := by
          intro y hy
          rcases List.mem_append.mp hy with h | h
          · exact hall y h
          · simp at h
            exact h ▸ not_lt.mp hxq
        rw [if_pos hyes, if_pos hall, ih,
          rdropWhile_cons_neg _ x _ (by simpa using hxq)]
        rfl
    · have hnot : ¬∀ y ∈ xs ++ [q], y ≤ x := by
        intro hc
        exact hall fun y hy => hc y (List.mem_append_left _ hy)
      rw [if_neg hnot, if_neg hall, ih]

/-- Push transition of the minimum deque. -/
theorem suffMin_concat (xs : List ℚ) (q : ℚ) :
    suffMin (xs ++ [q]) =
      (suffMin xs).rdropWhile (fun b => decide (q < b)) ++ [q] := by
  induction xs with
  | nil => simp [suffMin]
  | cons x xs ih =>
    rw [List.cons_append, suffMin, suffMin]
    by_cases hall : ∀ y ∈ xs, x ≤ y
    · by_cases hxq : q < x
      · have hnot : ¬∀ y ∈ xs ++ [q], x ≤ y := by
          intro hc
          exact absurd (hc q (by simp)) (not_le.mpr hxq)
        rw [if_neg hnot, if_pos hall, ih]
        have hallp : ∀ b ∈ x :: suffMin xs, (fun b => decide (q < b)) b = true := by
          intro b hb
          rcases List.mem_cons.mp hb with h | h
          · simp [h, hxq]
          · have : x ≤ b := hall b (mem_suffMin h)
            simp [lt_of_lt_of_le hxq this]
        have hallp2 : ∀ b ∈ suffMin xs, (fun b => decide (q < b)) b = true :=
          fun b hb => hallp b (List.mem_cons_of_mem x hb)
        rw [List.rdropWhile_eq_nil_iff.mpr hallp,
          List.rdropWhile_eq_nil_iff.mpr hallp2]
      · have hyes : ∀ y ∈ xs ++ [q], x ≤ y := by
          intro y hy
          rcases List.mem_append.mp hy with h | h
          · exact hall y h
          · simp at h
            exact h ▸ not_lt.mp hxq
        rw [if_pos hyes, if_pos hall, ih,
          rdropWhile_cons_neg _ x _ (by simpa using hxq)]
        rfl
    · have hnot : ¬∀ y ∈ xs ++ [q], x ≤ y := by
        intro hc
        exact hall fun y hy => hc y (List.mem_append_left _ hy)
      rw [if_neg hnot, if_neg hall, ih]

/-- The candidate deque of a non-empty window is non-empty. -/
theorem suffMax_cons_ne_nil (q : ℚ) (V : List ℚ) : suffMax (q :: V) ≠ [] := by
  obtain ⟨m, ms, hsm, _, _⟩ := suffMax_head_spec (q :: V) (by simp)
  simp [hsm]

theorem suffMin_cons_ne_nil (q : ℚ) (V : List ℚ) : suffMin (q :: V) ≠ [] := by
  obtain ⟨m, ms, hsm, _, _⟩ := suffMin_head_spec (q :: V) (by simp)
  simp [hsm]

/-- Pop transition of the maximum deque: when the evicted window value
equals the deque head, removing the head leaves the candidate sequence
of the remaining window; otherwise the deque is already that
sequence (lazy eviction). -/
theorem suffMax_pop_cons (q : ℚ) (V : List ℚ) (m : ℚ) (ms : List ℚ)
    (h : suffMax (q :: V) = m :: ms) :
    (if q = m then ms else m :: ms) = suffMax V := by
  rw [suffMax] at h
  by_cases hall : ∀ y ∈ V, y ≤ q
  · rw [if_pos hall] at h
    injection h with h1 h2
    subst h1
    rw [if_pos rfl, h2]
  · rw [if_neg hall] at h
    have hV : V ≠ [] := by
      intro hnil
      exact hall (by simp [hnil])
    obtain ⟨m2, ms2, hsm, hmem, hub⟩ := suffMax_head_spec V hV
    push_neg at hall
    obtain ⟨y0, hy0, hy0q⟩ := hall
    have hm : m = m2 := by rw [h] at hsm; injection hsm
    have hqm : q ≠ m := by
      rw [hm]
      exact ne_of_lt (lt_of_lt_of_le hy0q (hub y0 hy0))
    rw [if_neg hqm, h]

/-- Pop transition of the minimum deque. -/
theorem suffMin_pop_cons (q : ℚ) (V : List ℚ) (m : ℚ) (ms : List ℚ)
    (h : suffMin (q :: V) = m :: ms) :
    (if q = m then ms else m :: ms) = suffMin V := by
  rw [suffMin] at h
  by_cases hall : ∀ y ∈ V, q ≤ y
  · rw [if_pos hall] at h
    injection h with h1 h2
    subst h1
    rw [if_pos rfl, h2]
  · rw [if_neg hall] at h
    have hV : V ≠ [] := by
      intro hnil
      exact hall (by simp [hnil])
    obtain ⟨m2, ms2, hsm, hmem, hub⟩ := suffMin_head_spec V hV
    push_neg at hall
    obtain ⟨y0, hy0, hy0q⟩ := hall
    have hm : m = m2 := by rw [h] at hsm; injection hsm
    have hqm : q ≠ m := by
      rw [hm]
      exact (ne_of_lt (lt_of_le_of_lt (hub y0 hy0) hy0q)).symm
    rw [if_neg hqm, h]

theorem validQs_append (l1 l2 : List Val) :
    validQs (l1 ++ l2) = validQs l1 ++ validQs l2 := by
  simp [validQs]

theorem validQs_cons_nan (l : List Val) : validQs (.nan :: l) = validQs l := by
  simp [validQs, Val.isnan, List.filter]

theorem validQs_cons_num (q : ℚ) (l : List Val) :
    validQs (.num q :: l) = q :: validQs l := by
  simp [validQs, Val.isnan, List.filter, Val.toQ]

theorem validQs_num_singleton (q : ℚ) : validQs [.num q] = [q] := by
  simp [validQs, Val.isnan, List.filter, Val.toQ]

theorem validQs_nan_singleton : validQs [.nan] = [] := by
  simp [validQs, Val.isnan, List.filter]

theorem countValidL_eq_length_validQs (l : List Val) :
    countValidL l = (validQs l).length := by
  simp [countValidL, validQs]

/-! ### Literal extremum facts -/

theorem le_foldl_max (xs : List ℚ) : ∀ x, x ≤ xs.foldl max x := by
  induction xs with
  | nil => intro x; exact le_refl x
  | cons y ys ih =>
    intro x
    exact le_trans (le_max_left x y) (ih (max x y))

theorem foldl_max_ub (xs : List ℚ) : ∀ x y, y ∈ xs → y ≤ xs.foldl max x := by
  induction xs with
  | nil => intro x y hy; simp at hy
  | cons z zs ih =>
    intro x y hy
    rw [List.foldl_cons]
    rcases List.mem_cons.mp hy with h | h
    · subst h
      exact le_trans (le_max_right x y) (le_foldl_max zs (max x y))
    · exact ih (max x z) y h

theorem foldl_max_mem (xs : List ℚ) : ∀ x, xs.foldl max x ∈ x :: xs := by
  induction xs with
  | nil => intro x; exact List.mem_cons_self x []
  | cons y ys ih =>
    intro x
    rw [List.foldl_cons]
    rcases List.mem_cons.mp (ih (max x y)) with h2 | h2
    · rw [h2]
      rcases max_choice x y with h | h <;> rw [h]
      · exact List.mem_cons_self x (y :: ys)
      · exact List.mem_cons_of_mem x (List.mem_cons_self y ys)
    · exact List.mem_cons_of_mem x (List.mem_cons_of_mem y h2)

theorem listMaxQ_spec (l : List ℚ) (h : l ≠ []) :
    listMaxQ l ∈ l ∧ ∀ y ∈ l, y ≤ listMaxQ l := by
  match l with
  | [] => exact absurd rfl h
  | x :: xs =>
    rw [listMaxQ]
    refine ⟨foldl_max_mem xs x, ?_⟩
    intro y hy
    rcases List.mem_cons.mp hy with h2 | h2
    · exact h2 ▸ le_foldl_max xs x
    · exact foldl_max_ub xs x y h2

theorem le_foldl_min (xs : List ℚ) : ∀ x, xs.foldl min x ≤ x := by
  induction xs with
  | nil => intro x; exact le_refl x
  | cons y ys ih =>
    intro x
    exact le_trans (ih (min x y)) (min_le_left x y)

theorem foldl_min_lb (xs : List ℚ) : ∀ x y, y ∈ xs → xs.foldl min x ≤ y := by
  induction xs with
  | nil => intro x y hy; simp at hy
  | cons z zs ih =>
    intro x y hy
    rw [List.foldl_cons]
    rcases List.mem_cons.mp hy with h | h
    · subst h
      exact le_trans (le_foldl_min zs (min x y)) (min_le_right x y)
    · exact ih (min x z) y h

theorem foldl_min_mem (xs : List ℚ) : ∀ x, xs.foldl min x ∈ x :: xs := by
  induction xs with
  | nil => intro x; exact List.mem_cons_self x []
  | cons y ys ih =>
    intro x
    rw [List.foldl_cons]
    rcases List.mem_cons.mp (ih (min x y)) with h2 | h2
    · rw [h2]
      rcases min_choice x y with h | h <;> rw [h]
      · exact List.mem_cons_self x (y :: ys)
      · exact List.mem_cons_of_mem x (List.mem_cons_self y ys)
    · exact List.mem_cons_of_mem x (List.mem_cons_of_mem y h2)

theorem listMinQ_spec (l : List ℚ) (h : l ≠ []) :
    listMinQ l ∈ l ∧ ∀ y ∈ l, listMinQ l ≤ y := by
  match l with
  | [] => exact absurd rfl h
  | x :: xs =>
    rw [listMinQ]
    refine ⟨foldl_min_mem xs x, ?_⟩
    intro y hy
    rcases List.mem_cons.mp hy with h2 | h2
    · exact h2 ▸ le_foldl_min xs x
    · exact foldl_min_lb xs x y h2

theorem maxRun_dinv (skip : Bool) (ops : List Op) (n : ℕ)
    (h : netCount ops = some n) :
    MaxState.DInv (maxRun skip ops) ∧ (maxRun skip ops).size = n := by
  refine runOps_netCount MaxState.step MaxState.size MaxState.DInv
    ?_ ?_ ?_ ops (MaxState.init skip) n ⟨rfl, rfl, rfl⟩ h
  · rintro s v ⟨hd, h1, h2⟩
    cases v with
    | nan =>
      refine ⟨⟨?_, ?_, ?_⟩, ?_⟩
      · show s.maximums = suffMax (validQs (s.vals_in_window ++ [.nan]))
        rw [validQs_append, validQs_nan_singleton, List.append_nil]
        exact hd
      · show s.num_vals_nan + 1 = countNanL (s.vals_in_window ++ [.nan])
        rw [countNanL_append, h1]
        rfl
      · show s.num_vals_notnan = countValidL (s.vals_in_window ++ [.nan])
        rw [countValidL_append, h2]
        rfl
      · show s.num_vals_nan + 1 + s.num_vals_notnan = s.size + 1
        rw [MaxState.size]
        omega
    | num q =>
      refine ⟨⟨?_, ?_, ?_⟩, ?_⟩
      · show popBackWhile (fun b => decide (b < q)) s.maximums ++ [q] =
          suffMax (validQs (s.vals_in_window ++ [.num q]))
        rw [validQs_append, validQs_num_singleton, suffMax_concat, hd,
          popBackWhile_eq_rdropWhile]
      · show s.num_vals_nan = countNanL (s.vals_in_window ++ [.num q])
        rw [countNanL_append, h1]
        rfl
      · show s.num_vals_notnan + 1 = countValidL (s.vals_in_window ++ [.num q])
        rw [countValidL_append, h2]
        rfl
      · show s.num_vals_nan + (s.num_vals_notnan + 1) = s.size + 1
        rw [MaxState.size]
        omega
  · rintro s ⟨hd, h1, h2⟩ hpos
    match hw : s.vals_in_window with
    | [] =>
      exfalso
      rw [MaxState.size, h1, h2, hw] at hpos
      simp [countNanL, countValidL] at hpos
    | .nan :: rest =>
      have hstep : MaxState.step s .pop =
          { s with vals_in_window := rest, num_vals_nan := s.num_vals_nan - 1 } := by
        show s.pop = _
        rw [MaxState.pop.eq_def, hw]
      rw [hstep]
      refine ⟨⟨?_, ?_, ?_⟩, ?_⟩
      · show s.maximums = suffMax (validQs rest)
        rw [hd, hw, validQs_cons_nan]
      · show s.num_vals_nan - 1 = countNanL rest
        rw [h1, hw, countNanL_cons]
        simp [Val.isnan]
      · show s.num_vals_notnan = countValidL rest
        rw [h2, hw, countValidL_cons]
        simp [Val.isnan]
      · show s.num_vals_nan - 1 + s.num_vals_notnan = s.size - 1
        have : 0 < s.num_vals_nan := by
          rw [h1, hw, countNanL_cons]; simp [Val.isnan]
        rw [MaxState.size]
        omega
    | .num q :: rest =>
      obtain ⟨m, ms, hsm⟩ : ∃ m ms, s.maximums = m :: ms := by
        rw [hd, hw, validQs_cons_num]
        obtain ⟨m, ms, hsm, _, _⟩ :=
          suffMax_head_spec (q :: validQs rest) (by simp)
        exact ⟨m, ms, hsm⟩
      have hstep : MaxState.step s .pop =
          { s with vals_in_window := rest,
                   maximums := if q = m then ms else m :: ms,
                   num_vals_notnan := s.num_vals_notnan - 1 } := by
        show s.pop = _
        rw [MaxState.pop.eq_def, hw]
        simp only [hsm]
      rw [hstep]
      refine ⟨⟨?_, ?_, ?_⟩, ?_⟩
      · show (if q = m then ms else m :: ms) = suffMax (validQs rest)
        refine suffMax_pop_cons q (validQs rest) m ms ?_
        rw [← validQs_cons_num, ← hw, ← hd]
        exact hsm
      · show s.num_vals_nan = countNanL rest
        rw [h1, hw, countNanL_cons]
        simp [Val.isnan]
      · show s.num_vals_notnan - 1 = countValidL rest
        rw [h2, hw, countValidL_cons]
        simp [Val.isnan]
      · show s.num_vals_nan + (s.num_vals_notnan - 1) = s.size - 1
        have : 0 < s.num_vals_notnan := by
          rw [h2, hw, countValidL_cons]; simp [Val.isnan]
        rw [MaxState.size]
        omega
  · rintro s ⟨hd, h1, h2⟩
    exact ⟨⟨rfl, rfl, rfl⟩, rfl⟩

theorem minRun_dinv (skip : Bool) (ops : List Op) (n : ℕ)
    (h : netCount ops = some n) :
    MinState.DInv (minRun skip ops) ∧ (minRun skip ops).size = n := by
  refine runOps_netCount MinState.step MinState.size MinState.DInv
    ?_ ?_ ?_ ops (MinState.init skip) n ⟨rfl, rfl, rfl⟩ h
  · rintro s v ⟨hd, h1, h2⟩
    cases v with
    | nan =>
      refine ⟨⟨?_, ?_, ?_⟩, ?_⟩
      · show s.minimums = suffMin (validQs (s.vals_in_window ++ [.nan]))
        rw [validQs_append, validQs_nan_singleton, List.append_nil]
        exact hd
      · show s.num_vals_nan + 1 = countNanL (s.vals_in_window ++ [.nan])
        rw [countNanL_append, h1]
        rfl
      · show s.num_vals_notnan = countValidL (s.vals_in_window ++ [.nan])
        rw [countValidL_append, h2]
        rfl
      · show s.num_vals_nan + 1 + s.num_vals_notnan = s.size + 1
        rw [MinState.size]
        omega
    | num q =>
      refine ⟨⟨?_, ?_, ?_⟩, ?_⟩
      · show popBackWhile (fun b => decide (q < b)) s.minimums ++ [q] =
          suffMin (validQs (s.vals_in_window ++ [.num q]))
        rw [validQs_append, validQs_num_singleton, suffMin_concat, hd,
          popBackWhile_eq_rdropWhile]
      · show s.num_vals_nan = countNanL (s.vals_in_window ++ [.num q])
        rw [countNanL_append, h1]
        rfl
      · show s.num_vals_notnan + 1 = countValidL (s.vals_in_window ++ [.num q])
        rw [countValidL_append, h2]
        rfl
      · show s.num_vals_nan + (s.num_vals_notnan + 1) = s.size + 1
        rw [MinState.size]
        omega
  · rintro s ⟨hd, h1, h2⟩ hpos
    match hw : s.vals_in_window with
    | [] =>
      exfalso
      rw [MinState.size, h1, h2, hw] at hpos
      simp [countNanL, countValidL] at hpos
    | .nan :: rest =>
      have hstep : MinState.step s .pop =
          { s with vals_in_window := rest, num_vals_nan := s.num_vals_nan - 1 } := by
        show s.pop = _
        rw [MinState.pop.eq_def, hw]
      rw [hstep]
      refine ⟨⟨?_, ?_, ?_⟩, ?_⟩
      · show s.minimums = suffMin (validQs rest)
        rw [hd, hw, validQs_cons_nan]
      · show s.num_vals_nan - 1 = countNanL rest
        rw [h1, hw, countNanL_cons]
        simp [Val.isnan]
      · show s.num_vals_notnan = countValidL rest
        rw [h2, hw, countValidL_cons]
        simp [Val.isnan]
      · show s.num_vals_nan - 1 + s.num_vals_notnan = s.size - 1
        have : 0 < s.num_vals_nan := by
          rw [h1, hw, countNanL_cons]; simp [Val.isnan]
        rw [MinState.size]
        omega
    | .num q :: rest =>
      obtain ⟨m, ms, hsm⟩ : ∃ m ms, s.minimums = m :: ms := by
        rw [hd, hw, validQs_cons_num]
        obtain ⟨m, ms, hsm, _, _⟩ :=
          suffMin_head_spec (q :: validQs rest) (by simp)
        exact ⟨m, ms, hsm⟩
      have hstep : MinState.step s .pop =
          { s with vals_in_window := rest,
                   minimums := if q = m then ms else m :: ms,
                   num_vals_notnan := s.num_vals_notnan - 1 } := by
        show s.pop = _
        rw [MinState.pop.eq_def, hw]
        simp only [hsm]
      rw [hstep]
      refine ⟨⟨?_, ?_, ?_⟩, ?_⟩
      · show (if q = m then ms else m :: ms) = suffMin (validQs rest)
        refine suffMin_pop_cons q (validQs rest) m ms ?_
        rw [← validQs_cons_num, ← hw, ← hd]
        exact hsm
      · show s.num_vals_nan = countNanL rest
        rw [h1, hw, countNanL_cons]
        simp [Val.isnan]
      · show s.num_vals_notnan - 1 = countValidL rest
        rw [h2, hw, countValidL_cons]
        simp [Val.isnan]
      · show s.num_vals_nan + (s.num_vals_notnan - 1) = s.size - 1
        have : 0 < s.num_vals_notnan := by
          rw [h2, hw, countValidL_cons]; simp [Val.isnan]
        rw [MinState.size]
        omega
  · rintro s ⟨hd, h1, h2⟩
    exact ⟨⟨rfl, rfl, rfl⟩, rfl⟩

theorem max_pop_skip (s : MaxState) : s.pop.skip_nan = s.skip_nan := by
  rw [MaxState.pop.eq_def]
  cases hv : s.vals_in_window with
  | nil => rfl
  | cons v rest => cases v <;> rfl

theorem min_pop_skip (s : MinState) : s.pop.skip_nan = s.skip_nan := by
  rw [MinState.pop.eq_def]
  cases hv : s.vals_in_window with
  | nil => rfl
  | cons v rest => cases v <;> rfl

theorem maxRun_skip (skip : Bool) (ops : List Op) :
    (maxRun skip ops).skip_nan = skip := by
  refine runOps_preserve MaxState.step (fun s => s.skip_nan = skip)
    ?_ ops (MaxState.init skip) rfl
  intro s op hs
  cases op with
  | push v =>
    show (s.push v).skip_nan = skip
    cases v <;> exact hs
  | pop =>
    show s.pop.skip_nan = skip
    rw [max_pop_skip]
    exact hs
  | clear => exact hs

theorem minRun_skip (skip : Bool) (ops : List Op) :
    (minRun skip ops).skip_nan = skip := by
  refine runOps_preserve MinState.step (fun s => s.skip_nan = skip)
    ?_ ops (MinState.init skip) rfl
  intro s op hs
  cases op with
  | push v =>
    show (s.push v).skip_nan = skip
    cases v <;> exact hs
  | pop =>
    show s.pop.skip_nan = skip
    rw [min_pop_skip]
    exact hs
  | clear => exact hs

/-! ### Claim C4: rolling max/min equal the literal window extremum -/

/-- Counterexample to C4 as literally stated: a `RollingMax` engine in
propagate mode (`skip_nan = false`) whose window holds a NaN and the
value 1 returns the NaN sentinel, not the literal maximum 1 of the
non-NaN window values. -/
theorem claim_C4_cex :
    MaxState.compute (maxRun false [.push .nan, .push (.num 1)]) = .nan ∧
    validQs (maxRun false [.push .nan, .push (.num 1)]).vals_in_window = [1] ∧
    Val.nan ≠ .num (listMaxQ [1]) := by
  refine ⟨?_, ?_, by decide⟩
  · rfl
  · rfl

/-- Claim C4 (amended): for every sequence of push/pop operations (pops
never exceeding pushes) on a `RollingMax` (resp. `RollingMin`) engine
whose window contains at least one non-NaN value, *in skip-NaN mode or
when the window contains no NaN*, `compute()` equals the literal
maximum (resp. minimum) of the non-NaN values currently in the window,
including repeated and tied values. -/
theorem claim_C4 :
    (∀ (skip : Bool) (ops : List Op) (n : ℕ), netCount ops = some n →
      validQs (maxRun skip ops).vals_in_window ≠ [] →
      (skip = true ∨ (maxRun skip ops).num_vals_nan = 0) →
      MaxState.compute (maxRun skip ops) =
        .num (listMaxQ (validQs (maxRun skip ops).vals_in_window))) ∧
    (∀ (skip : Bool) (ops : List Op) (n : ℕ), netCount ops = some n →
      validQs (minRun skip ops).vals_in_window ≠ [] →
      (skip = true ∨ (minRun skip ops).num_vals_nan = 0) →
      MinState.compute (minRun skip ops) =
        .num (listMinQ (validQs (minRun skip ops).vals_in_window))) := by
  constructor
  · intro skip ops n h hne hgate
    obtain ⟨⟨hd, h1, h2⟩, hsz⟩ := maxRun_dinv skip ops n h
    have hnotnan : (maxRun skip ops).num_vals_notnan ≠ 0 := by
      rw [h2, countValidL_eq_length_validQs]
      simpa using hne
    have hskipcond :
        ¬((maxRun skip ops).num_vals_notnan = 0 ∨
          ((maxRun skip ops).skip_nan = false ∧ 0 < (maxRun skip ops).num_vals_nan)) := by
      rintro (hc | ⟨hsf, hnan⟩)
      · exact hnotnan hc
      · rcases hgate with hsk | hz
        · rw [maxRun_skip skip ops, hsk] at hsf
          exact absurd hsf (by simp)
        · rw [hz] at hnan
          exact absurd hnan (by omega)
    obtain ⟨m, ms, hsm, hmem, hub⟩ :=
      suffMax_head_spec (validQs (maxRun skip ops).vals_in_window) hne
    have hcomp : MaxState.compute (maxRun skip ops) = .num m := by
      rw [MaxState.compute, computeWith, if_neg hskipcond, MaxState.compute_aux,
        hd, hsm]
      rfl
    rw [hcomp]
    obtain ⟨hmm, hmu⟩ := listMaxQ_spec _ hne
    have : m = listMaxQ (validQs (maxRun skip ops).vals_in_window) :=
      le_antisymm (hmu m hmem) (hub _ hmm)
    rw [this]
  · intro skip ops n h hne hgate
    obtain ⟨⟨hd, h1, h2⟩, hsz⟩ := minRun_dinv skip ops n h
    have hnotnan : (minRun skip ops).num_vals_notnan ≠ 0 := by
      rw [h2, countValidL_eq_length_validQs]
      simpa using hne
    have hskipcond :
        ¬((minRun skip ops).num_vals_notnan = 0 ∨
          ((minRun skip ops).skip_nan = false ∧ 0 < (minRun skip ops).num_vals_nan)) := by
      rintro (hc | ⟨hsf, hnan⟩)
      · exact hnotnan hc
      · rcases hgate with hsk | hz
        · rw [minRun_skip skip ops, hsk] at hsf
          exact absurd hsf (by simp)
        · rw [hz] at hnan
          exact absurd hnan (by omega)
    obtain ⟨m, ms, hsm, hmem, hub⟩ :=
      suffMin_head_spec (validQs (minRun skip ops).vals_in_window) hne
    have hcomp : MinState.compute (minRun skip ops) = .num m := by
      rw [MinState.compute, computeWith, if_neg hskipcond, MinState.compute_aux,
        hd, hsm]
      rfl
    rw [hcomp]
    obtain ⟨hmm, hmu⟩ := listMinQ_spec _ hne
    have : m = listMinQ (validQs (minRun skip ops).vals_in_window) :=
      le_antisymm (hub _ hmm) (hmu m hmem)
    rw [this]

/-- Witness for C4: max and min on a concrete two-push window. -/
theorem claim_C4_witness :
    MaxState.compute (maxRun true [.push (.num 2), .push (.num 1)]) =
      .num (listMaxQ (validQs (maxRun true [.push (.num 2), .push (.num 1)]).vals_in_window)) ∧
    MinState.compute (minRun true [.push (.num 2), .push (.num 1)]) =
      .num (listMinQ (validQs (minRun true [.push (.num 2), .push (.num 1)]).vals_in_window)) :=
  ⟨claim_C4.1 true [.push (.num 2), .push (.num 1)] 2 rfl (by decide) (Or.inl rfl),
   claim_C4.2 true [.push (.num 2), .push (.num 1)] 2 rfl (by decide) (Or.inl rfl)⟩

/-! ### The order-statistics invariant of RollingOrderStatistics -/

/-- Construction-time parameters of the quantile engine are never
mutated by clear/push/pop. -/
theorem orderRun_params (order : ℚ) (skip normalize : Bool) (ops : List Op) :
    (orderRun order skip normalize ops).skip_nan = skip ∧
    (orderRun order skip normalize ops).normalize = normalize ∧
    (orderRun order skip normalize ops).order = order := by
  refine runOps_preserve OrderStatState.step
    (fun s => s.skip_nan = skip ∧ s.normalize = normalize ∧ s.order = order)
    ?_ ops (OrderStatState.init order skip normalize) ⟨rfl, rfl, rfl⟩
  intro s op hs
  obtain ⟨hsk, hnm, hor⟩ := hs
  cases op with
  | push v => cases v <;> exact ⟨hsk, hnm, hor⟩
  | pop =>
    have e : (s.pop).skip_nan = s.skip_nan ∧ (s.pop).normalize = s.normalize ∧
        (s.pop).order = s.order := by
      rw [OrderStatState.pop.eq_def]
      cases hv : s.vals_in_window with
      | nil => exact ⟨rfl, rfl, rfl⟩
      | cons v rest => cases v <;> exact ⟨rfl, rfl, rfl⟩
    exact ⟨e.1.trans hsk, e.2.1.trans hnm, e.2.2.trans hor⟩
  | clear => exact ⟨hsk, hnm, hor⟩

theorem orderRun_oinv (order : ℚ) (skip normalize : Bool) (ops : List Op) (n : ℕ)
    (h : netCount ops = some n) :
    OrderStatState.OInv (orderRun order skip normalize ops) ∧
    (orderRun order skip normalize ops).size = n := by
  refine runOps_netCount OrderStatState.step OrderStatState.size OrderStatState.OInv
    ?_ ?_ ?_ ops (OrderStatState.init order skip normalize) n
    ⟨List.sorted_nil, List.Perm.refl [], rfl, rfl⟩ h
  · rintro s v ⟨hsort, hperm, h1, h2⟩
    cases v with
    | nan =>
      refine ⟨⟨hsort, ?_, ?_, ?_⟩, ?_⟩
      · show s.ost.Perm (validQs (s.vals_in_window ++ [.nan]))
        rw [validQs_append, validQs_nan_singleton, List.append_nil]
        exact hperm
      · show s.num_vals_nan + 1 = countNanL (s.vals_in_window ++ [.nan])
        rw [countNanL_append, h1]
        rfl
      · show s.num_vals_notnan = countValidL (s.vals_in_window ++ [.nan])
        rw [countValidL_append, h2]
        rfl
      · show s.num_vals_nan + 1 + s.num_vals_notnan = s.size + 1
        rw [OrderStatState.size]
        omega
    | num q =>
      refine ⟨⟨?_, ?_, ?_, ?_⟩, ?_⟩
      · exact List.Sorted.orderedInsert q s.ost hsort
      · show (s.ost.orderedInsert (· ≤ ·) q).Perm
          (validQs (s.vals_in_window ++ [.num q]))
        rw [validQs_append, validQs_num_singleton]
        refine List.Perm.trans (List.perm_orderedInsert _ q s.ost) ?_
        refine List.Perm.trans (List.Perm.cons q hperm) ?_
        exact (List.perm_append_singleton q _).symm
      · show s.num_vals_nan = countNanL (s.vals_in_window ++ [.num q])
        rw [countNanL_append, h1]
        rfl
      · show s.num_vals_notnan + 1 = countValidL (s.vals_in_window ++ [.num q])
        rw [countValidL_append, h2]
        rfl
      · show s.num_vals_nan + (s.num_vals_notnan + 1) = s.size + 1
        rw [OrderStatState.size]
        omega
  · rintro s ⟨hsort, hperm, h1, h2⟩ hpos
    match hw : s.vals_in_window with
    | [] =>
      exfalso
      rw [OrderStatState.size, h1, h2, hw] at hpos
      simp [countNanL, countValidL] at hpos
    | .nan :: rest =>
      have hstep : OrderStatState.step s .pop =
          { s with vals_in_window := rest, num_vals_nan := s.num_vals_nan - 1 } := by
        show s.pop = _
        rw [OrderStatState.pop.eq_def, hw]
      rw [hstep]
      refine ⟨⟨hsort, ?_, ?_, ?_⟩, ?_⟩
      · show s.ost.Perm (validQs rest)
        have := hperm
        rw [hw, validQs_cons_nan] at this
        exact this
      · show s.num_vals_nan - 1 = countNanL rest
        rw [h1, hw, countNanL_cons]
        simp [Val.isnan]
      · show s.num_vals_notnan = countValidL rest
        rw [h2, hw, countValidL_cons]
        simp [Val.isnan]
      · show s.num_vals_nan - 1 + s.num_vals_notnan = s.size - 1
        have : 0 < s.num_vals_nan := by
          rw [h1, hw, countNanL_cons]; simp [Val.isnan]
        rw [OrderStatState.size]
        omega
    | .num q :: rest =>
      have hstep : OrderStatState.step s .pop =
          { s with vals_in_window := rest, ost := s.ost.erase q,
                   num_vals_notnan := s.num_vals_notnan - 1 } := by
        show s.pop = _
        rw [OrderStatState.pop.eq_def, hw]
      rw [hstep]
      refine ⟨⟨?_, ?_, ?_, ?_⟩, ?_⟩
      · exact List.Pairwise.sublist (List.erase_sublist q s.ost) hsort
      · show (s.ost.erase q).Perm (validQs rest)
        have hp2 := List.Perm.erase q hperm
        rw [hw, validQs_cons_num, List.erase_cons_head] at hp2
        exact hp2
      · show s.num_vals_nan = countNanL rest
        rw [h1, hw, countNanL_cons]
        simp [Val.isnan]
      · show s.num_vals_notnan - 1 = countValidL rest
        rw [h2, hw, countValidL_cons]
        simp [Val.isnan]
      · show s.num_vals_nan + (s.num_vals_notnan - 1) = s.size - 1
        have : 0 < s.num_vals_notnan := by
          rw [h2, hw, countValidL_cons]; simp [Val.isnan]
        rw [OrderStatState.size]
        omega
  · rintro s ⟨hsort, hperm, h1, h2⟩
    exact ⟨⟨List.sorted_nil, List.Perm.refl [], rfl, rfl⟩, rfl⟩

/-- The head of a sorted permutation of a non-empty window is the
window minimum. -/
theorem sorted_perm_head (L V : List ℚ) (hs : L.Sorted (· ≤ ·)) (hp : L.Perm V)
    (hV : V ≠ []) : L.getD 0 0 = listMinQ V := by
  cases L with
  | nil => exact absurd (List.Perm.eq_nil hp.symm) hV
  | cons m ms =>
    rw [List.getD_cons_zero]
    obtain ⟨hmm, hmu⟩ := listMinQ_spec V hV
    have hmem : m ∈ V := hp.mem_iff.mp (List.mem_cons_self m ms)
    have hub : ∀ y ∈ V, m ≤ y := by
      intro y hy
      rcases List.mem_cons.mp (hp.mem_iff.mpr hy) with h | h
      · exact le_of_eq h.symm
      · exact (List.sorted_cons.mp hs).1 y h
    exact le_antisymm (hub _ hmm) (hmu m hmem)

/-- The last element of a sorted list is its maximum. -/
theorem sorted_last_spec :
    ∀ (L : List ℚ), L.Sorted (· ≤ ·) → L ≠ [] →
      L.getD (L.length - 1) 0 ∈ L ∧ ∀ y ∈ L, y ≤ L.getD (L.length - 1) 0 := by
  intro L
  induction L with
  | nil => intro _ h; exact absurd rfl h
  | cons m ms ih =>
    intro hs _
    cases ms with
    | nil =>
      refine ⟨List.mem_cons_self m [], ?_⟩
      intro y hy
      rcases List.mem_cons.mp hy with h | h
      · exact le_of_eq (by rw [h]; rfl)
      · simp at h
    | cons z zs =>
      obtain ⟨hmem, hub⟩ :=
        ih (List.sorted_cons.mp hs).2 (List.cons_ne_nil z zs)
      have hlen : (m :: z :: zs).length - 1 = ((z :: zs).length - 1) + 1 := by
        simp
      have hget : (m :: z :: zs).getD ((m :: z :: zs).length - 1) 0 =
          (z :: zs).getD ((z :: zs).length - 1) 0 := by
        rw [hlen, List.getD_cons_succ]
      rw [hget]
      refine ⟨List.mem_cons_of_mem m hmem, ?_⟩
      intro y hy
      rcases List.mem_cons.mp hy with h | h
      · subst h
        exact (List.sorted_cons.mp hs).1 _ hmem
      · exact hub y h

/-- The last element of a sorted permutation of a non-empty window is
the window maximum. -/
theorem sorted_perm_last (L V : List ℚ) (hs : L.Sorted (· ≤ ·)) (hp : L.Perm V)
    (hV : V ≠ []) : L.getD (V.length - 1) 0 = listMaxQ V := by
  have hL : L ≠ [] := by
    intro h0
    subst h0
    exact hV (List.Perm.eq_nil hp.symm)
  have hlen : V.length - 1 = L.length - 1 := by rw [hp.length_eq]
  rw [hlen]
  obtain ⟨hmem, hub⟩ := sorted_last_spec L hs hL
  obtain ⟨hmm, hmu⟩ := listMaxQ_spec V hV
  exact le_antisymm (hmu _ (hp.mem_iff.mp hmem)) (hub _ (hp.mem_iff.mpr hmm))

/-! ### Claim C5: the quantile engine selects the clamped sorted rank -/

theorem castSizeT_zero : castSizeT 0 = 0 := by
  simp [castSizeT]

theorem castSizeT_natCast (k : ℕ) : castSizeT (k : ℚ) = k := by
  simp [castSizeT]

/-- Counterexample to C5 as literally stated: a quantile engine in
propagate mode with a NaN and the value 1 in its window returns the NaN
sentinel, not the value at sorted position 0 of the non-NaN values. -/
theorem claim_C5_cex :
    OrderStatState.compute (orderRun 0 false false [.push .nan, .push (.num 1)]) = .nan ∧
    (List.insertionSort (· ≤ ·)
      (validQs (orderRun 0 false false
        [.push .nan, .push (.num 1)]).vals_in_window)).getD 0 0 = 1 ∧
    Val.nan ≠ Val.num 1 := by
  refine ⟨rfl, rfl, by decide⟩

/-- Claim C5 (amended): for a `RollingOrderStatistics` engine reached
by an operation sequence with pops never exceeding pushes, with at
least one non-NaN value in the window, *in skip-NaN mode or with no NaN
present*: `compute()` resolves the rank as `order` (scaled by the
non-NaN count when normalized, truncated to an integer as by the C++
`size_t` cast, hence assuming a non-negative `order`), clamps it to
`[0, validCount − 1]`, and returns the value at that 0-indexed sorted
position among the window's non-NaN values; consequently `order = 0`
yields the window minimum and `order = validCount − 1` with
`normalize = false` yields the window maximum. -/
theorem claim_C5 (order : ℚ) (skip normalize : Bool) (ops : List Op) (n : ℕ)
    (h : netCount ops = some n)
    (hne : validQs (orderRun order skip normalize ops).vals_in_window ≠ [])
    (hgate : skip = true ∨ (orderRun order skip normalize ops).num_vals_nan = 0) :
    (OrderStatState.compute (orderRun order skip normalize ops) =
      .num ((List.insertionSort (· ≤ ·)
          (validQs (orderRun order skip normalize ops).vals_in_window)).getD
        (min ((orderRun order skip normalize ops).num_vals_notnan - 1)
          (castSizeT (if normalize then
            order * (orderRun order skip normalize ops).num_vals_notnan
            else order))) 0)) ∧
    (order = 0 →
      OrderStatState.compute (orderRun order skip normalize ops) =
        .num (listMinQ (validQs (orderRun order skip normalize ops).vals_in_window))) ∧
    (normalize = false →
      order = (((orderRun order skip normalize ops).num_vals_notnan - 1 : ℕ) : ℚ) →
      OrderStatState.compute (orderRun order skip normalize ops) =
        .num (listMaxQ (validQs (orderRun order skip normalize ops).vals_in_window))) := by
  obtain ⟨⟨hsort, hperm, h1, h2⟩, hsz⟩ := orderRun_oinv order skip normalize ops n h
  obtain ⟨hsk, hnm, hor⟩ := orderRun_params order skip normalize ops
  have hlen : (orderRun order skip normalize ops).num_vals_notnan =
      (validQs (orderRun order skip normalize ops).vals_in_window).length := by
    rw [h2, countValidL_eq_length_validQs]
  have hnotnan : (orderRun order skip normalize ops).num_vals_notnan ≠ 0 := by
    rw [hlen]
    simpa using hne
  have hgate2 : ¬((orderRun order skip normalize ops).num_vals_notnan = 0 ∨
      ((orderRun order skip normalize ops).skip_nan = false ∧
        0 < (orderRun order skip normalize ops).num_vals_nan)) := by
    rintro (hc | ⟨hsf, hnan⟩)
    · exact hnotnan hc
    · rcases hgate with hsk2 | hz
      · rw [hsk, hsk2] at hsf
        exact absurd hsf (by simp)
      · rw [hz] at hnan
        exact absurd hnan (by omega)
  have hL : (orderRun order skip normalize ops).ost =
      List.insertionSort (· ≤ ·)
        (validQs (orderRun order skip normalize ops).vals_in_window) :=
    List.eq_of_perm_of_sorted
      (hperm.trans (List.perm_insertionSort _ _).symm) hsort
      (List.sorted_insertionSort _ _)
  have hcomp : OrderStatState.compute (orderRun order skip normalize ops) =
      .num ((List.insertionSort (· ≤ ·)
          (validQs (orderRun order skip normalize ops).vals_in_window)).getD
        (min ((orderRun order skip normalize ops).num_vals_notnan - 1)
          (castSizeT (if normalize then
            order * (orderRun order skip normalize ops).num_vals_notnan
            else order))) 0) := by
    rw [OrderStatState.compute, computeWith, if_neg hgate2,
      OrderStatState.compute_aux, hnm, hor, hL]
  refine ⟨hcomp, ?_, ?_⟩
  · intro h0
    rw [hcomp]
    have hif : (if normalize = true then
        order * ((orderRun order skip normalize ops).num_vals_notnan : ℚ)
        else order) = 0 := by
      subst h0
      split <;> simp
    rw [hif, castSizeT_zero, Nat.min_zero]
    exact congrArg Val.num (sorted_perm_head _ _
      (List.sorted_insertionSort _ _) (List.perm_insertionSort _ _) hne)
  · intro hnf hordeq
    rw [hcomp]
    have hif : (if normalize = true then
        order * ((orderRun order skip normalize ops).num_vals_notnan : ℚ)
        else order) = order := by
      rw [hnf]
      simp
    have hcast : castSizeT order =
        (orderRun order skip normalize ops).num_vals_notnan - 1 := by
      conv_lhs => rw [hordeq]
      exact castSizeT_natCast _
    rw [hif, hcast, min_self, hlen]
    exact congrArg Val.num (sorted_perm_last _ _
      (List.sorted_insertionSort _ _) (List.perm_insertionSort _ _) hne)

/-- Witness for C5: a concrete two-value window, `order = 0` gives the
minimum. -/
theorem claim_C5_witness :
    OrderStatState.compute (orderRun 0 true false [.push (.num 2), .push (.num 1)]) =
      .num (listMinQ (validQs
        (orderRun 0 true false [.push (.num 2), .push (.num 1)]).vals_in_window)) :=
  (claim_C5 0 true false [.push (.num 2), .push (.num 1)] 2 rfl
    (by decide) (Or.inl rfl)).2.1 rfl

/-! ### The in-place n-dimensional roller (`roll_ndarray`)

`roll_ndarray` is written on the abstract base class: it only calls the
virtual `clear` / `push` / `pop` / `size_notnan` / `compute` of the
engine.  We model that interface as a record of operations, and the
engine contract by the *reference engine* whose state is the literal
window (every concrete engine refines it, as proved for the engines
above); its `compute` is an arbitrary function `F` of the window, which
stands for the statistic including its own validity gate.  Buffers are
modelled as total functions from flat index to value; the `assert`s of
the source become `Except.error` carrying the buffer at the point of
failure (so a precondition violation provably leaves it unchanged). -/

/-! ### Claim C9: stride-rank mismatch is rejected before any write -/

/-- Claim C9: for every call to `roll_ndarray` with a non-empty strides
argument whose length differs from the rank of `shape`, the
precondition check fails before any element of the buffer is written:
the result is the defensive fault carrying the unmodified buffer. -/
theorem claim_C9 {σ : Type} (E : EngineModel σ) (s : σ) (arr : ℕ → Val)
    (shape : List ℕ) (axis window min_periods : ℕ) (strides : List ℕ)
    (hne : strides ≠ []) (hlen : strides.length ≠ shape.length) :
    roll_ndarray E s arr shape axis window min_periods strides = .error arr := by
  rw [roll_ndarray]
  by_cases h0 : 0 < shape.length
  · rw [if_pos h0, if_neg]
    rintro (hc | hc)
    · exact hne hc
    · exact hlen hc
  · rw [if_neg h0]

/-- Witness for C9 at a concrete mismatched call. -/
theorem claim_C9_witness :
    roll_ndarray (refEngine (fun _ => .nan)) [] (fun _ => .num 0)
      [2, 2] 0 1 1 [1] = .error (fun _ => .num 0) :=
  claim_C9 (refEngine (fun _ => .nan)) [] (fun _ => .num 0) [2, 2] 0 1 1 [1]
    (by decide) (by decide)

/-! ### Row-major strides: closed form -/

theorem stridesLoopGo_spec (shape : List ℕ) (ndim : ℕ) (hnd : ndim = shape.length) :
    ∀ (d i stride : ℕ) (acc : List ℕ), i + d = ndim →
      stride = (shape.drop (ndim - i + 1)).prod →
      stridesLoopGo shape ndim i stride acc =
        acc ++ (List.range' i d).map (fun k => (shape.drop (ndim - k)).prod) := by
  intro d
  induction d with
  | zero =>
    intro i stride acc hi _
    rw [stridesLoopGo, if_neg (by omega)]
    simp
  | succ d ih =>
    intro i stride acc hi hs
    rw [stridesLoopGo, if_pos (by omega)]
    have hstride2 : (if 0 < i then stride * shape.getD (ndim - i) 0 else stride) =
        (shape.drop (ndim - i)).prod := by
      by_cases hip : 0 < i
      · rw [if_pos hip, hs]
        have hlt : ndim - i < shape.length := by omega
        rw [List.drop_eq_getElem_cons hlt, List.prod_cons,
          List.getD_eq_getElem shape 0 hlt, mul_comm]
      · rw [if_neg hip, hs]
        have h0 : i = 0 := by omega
        subst h0
        rw [Nat.sub_zero, List.drop_eq_nil_of_le (by omega),
          List.drop_eq_nil_of_le (by omega)]
    rw [hstride2, ih (i + 1) _ _ (by omega)
      (by rw [show ndim - (i + 1) + 1 = ndim - i by omega]),
      List.range'_succ, List.map_cons, List.append_assoc, List.singleton_append]

theorem cStrides_eq (shape : List ℕ) :
    cStrides shape = ((List.range' 0 shape.length).map
      (fun k => (shape.drop (shape.length - k)).prod)).reverse := by
  rw [cStrides, stridesLoopGo_spec shape shape.length rfl shape.length 0 1 []
    (by omega) (by rw [List.drop_eq_nil_of_le (by omega)]; rfl)]
  rw [List.nil_append]

theorem cStrides_length (shape : List ℕ) :
    (cStrides shape).length = shape.length := by
  rw [cStrides_eq]
  simp

theorem cStrides_getD (shape : List ℕ) (j : ℕ) (hj : j < shape.length) :
    (cStrides shape).getD j 0 = (shape.drop (j + 1)).prod := by
  rw [cStrides_eq]
  have hlen : (((List.range' 0 shape.length).map
      (fun k => (shape.drop (shape.length - k)).prod)).reverse).length =
      shape.length := by simp
  rw [List.getD_eq_getElem _ 0 (by rw [hlen]; exact hj)]
  rw [List.getElem_reverse]
  simp only [List.length_map, List.length_range', List.getElem_map,
    List.getElem_range']
  have h2 : ∀ a b : ℕ, a = b → (shape.drop a).prod = (shape.drop b).prod := by
    intro a b h
    rw [h]
  apply h2
  omega

/-! ### Mixed-radix flattening: value, bound, injectivity -/

theorem scalar_range_eq_mrVal :
    ∀ (shape : List ℕ) (g : ℕ → ℕ),
      ((List.range shape.length).map
        (fun i => g i * (shape.drop (i + 1)).prod)).sum = mrVal shape g := by
  intro shape
  induction shape with
  | nil => intro g; rfl
  | cons e es ih =>
    intro g
    rw [List.length_cons, List.range_succ_eq_map, List.map_cons, List.sum_cons,
      List.map_map, mrVal]
    congr 1
    exact ih (fun i => g (i + 1))

theorem scalarIndexOf_cStrides (shape : List ℕ) (g : ℕ → ℕ) :
    scalarIndexOf shape.length g (cStrides shape) = mrVal shape g := by
  rw [scalarIndexOf, ← scalar_range_eq_mrVal shape g]
  congr 1
  apply List.map_congr_left
  intro i hi
  rw [cStrides_getD shape i (List.mem_range.mp hi)]

/-- Digit extraction for mixed-radix values. -/
theorem mr_digit {a b c d P : ℕ} (hP : 0 < P) (hb : b < P) (hd : d < P)
    (he : a * P + b = c * P + d) : a = c ∧ b = d := by
  have h1 : (a * P + b) / P = a := by
    rw [mul_comm, Nat.mul_add_div hP, Nat.div_eq_of_lt hb, Nat.add_zero]
  have h2 : (c * P + d) / P = c := by
    rw [mul_comm, Nat.mul_add_div hP, Nat.div_eq_of_lt hd, Nat.add_zero]
  have hac : a = c := by rw [← h1, he, h2]
  subst hac
  exact ⟨rfl, by omega⟩

theorem mrVal_lt :
    ∀ (shape : List ℕ) (g : ℕ → ℕ),
      (∀ i, i < shape.length → g i < shape.getD i 0) →
      (∀ e ∈ shape, 0 < e) → mrVal shape g < shape.prod := by
  intro shape
  induction shape with
  | nil => intro g _ _; simp [mrVal]
  | cons e es ih =>
    intro g hb hpos
    have hP : 0 < es.prod :=
      List.prod_pos fun x hx => hpos x (List.mem_cons_of_mem e hx)
    have hm : mrVal es (fun i => g (i + 1)) < es.prod := by
      refine ih _ (fun i hi => ?_) (fun x hx => hpos x (List.mem_cons_of_mem e hx))
      have := hb (i + 1) (by simpa using Nat.succ_lt_succ hi)
      simpa using this
    have hg0 : g 0 < e := by simpa using hb 0 (by simp)
    rw [mrVal, List.prod_cons]
    calc g 0 * es.prod + mrVal es (fun i => g (i + 1))
        < g 0 * es.prod + es.prod := by omega
      _ = (g 0 + 1) * es.prod := by ring
      _ ≤ e * es.prod := Nat.mul_le_mul_right _ hg0

theorem mrVal_congr :
    ∀ (shape : List ℕ) (g h : ℕ → ℕ),
      (∀ i, i < shape.length → g i = h i) → mrVal shape g = mrVal shape h := by
  intro shape
  induction shape with
  | nil => intro g h _; rfl
  | cons e es ih =>
    intro g h hgh
    rw [mrVal, mrVal, hgh 0 (by simp),
      ih (fun i => g (i + 1)) (fun i => h (i + 1))
        (fun i hi => hgh (i + 1) (by simpa using Nat.succ_lt_succ hi))]

theorem mrVal_inj :
    ∀ (shape : List ℕ) (g h : ℕ → ℕ),
      (∀ i, i < shape.length → g i < shape.getD i 0) →
      (∀ i, i < shape.length → h i < shape.getD i 0) →
      (∀ e ∈ shape, 0 < e) →
      mrVal shape g = mrVal shape h → ∀ i, i < shape.length → g i = h i := by
  intro shape
  induction shape with
  | nil => intro g h _ _ _ _ i hi; simp at hi
  | cons e es ih =>
    intro g h hg hh hpos he i hi
    have hP : 0 < es.prod :=
      List.prod_pos fun x hx => hpos x (List.mem_cons_of_mem e hx)
    have hmg : mrVal es (fun i => g (i + 1)) < es.prod := by
      refine mrVal_lt es _ (fun i hi => ?_)
        (fun x hx => hpos x (List.mem_cons_of_mem e hx))
      simpa using hg (i + 1) (by simpa using Nat.succ_lt_succ hi)
    have hmh : mrVal es (fun i => h (i + 1)) < es.prod := by
      refine mrVal_lt es _ (fun i hi => ?_)
        (fun x hx => hpos x (List.mem_cons_of_mem e hx))
      simpa using hh (i + 1) (by simpa using Nat.succ_lt_succ hi)
    rw [mrVal, mrVal] at he
    obtain ⟨h0, hrest⟩ := mr_digit hP hmg hmh he
    match i with
    | 0 => exact h0
    | i + 1 =>
      refine ih (fun i => g (i + 1)) (fun i => h (i + 1))
        (fun i hi2 => by simpa using hg (i + 1) (by simpa using Nat.succ_lt_succ hi2))
        (fun i hi2 => by simpa using hh (i + 1) (by simpa using Nat.succ_lt_succ hi2))
        (fun x hx => hpos x (List.mem_cons_of_mem e hx))
        hrest i (by simpa using Nat.lt_of_succ_lt_succ hi)

/-! ### Lane decomposition of the flat index -/

theorem sum_update_out (g w : ℕ → ℕ) (a v : ℕ) :
    ∀ l : List ℕ, a ∉ l →
      (l.map (fun i => Function.update g a v i * w i)).sum =
        (l.map (fun i => g i * w i)).sum := by
  intro l
  induction l with
  | nil => intro _; rfl
  | cons p ps ih =>
    intro hmem
    have hpa : p ≠ a := by
      rintro rfl
      exact hmem (List.mem_cons_self p ps)
    rw [List.map_cons, List.map_cons, List.sum_cons, List.sum_cons,
      Function.update_noteq hpa, ih (fun h => hmem (List.mem_cons_of_mem p h))]

theorem sum_update_in (g w : ℕ → ℕ) (a v : ℕ) :
    ∀ l : List ℕ, l.Nodup → a ∈ l →
      (l.map (fun i => Function.update g a v i * w i)).sum + g a * w a =
        (l.map (fun i => g i * w i)).sum + v * w a := by
  intro l
  induction l with
  | nil =>
    intro _ h
    simp at h
  | cons p ps ih =>
    intro hnd hmem
    rcases List.mem_cons.mp hmem with h | h
    · subst h
      rw [List.map_cons, List.map_cons, List.sum_cons, List.sum_cons,
        Function.update_same, sum_update_out g w a v ps (List.nodup_cons.mp hnd).1]
      ring
    · have hpa : p ≠ a := by
        rintro rfl
        exact (List.nodup_cons.mp hnd).1 h
      rw [List.map_cons, List.map_cons, List.sum_cons, List.sum_cons,
        Function.update_noteq hpa]
      have h2 := ih (List.nodup_cons.mp hnd).2 h
      omega

theorem mrVal_update_axis :
    ∀ (shape : List ℕ) (g : ℕ → ℕ) (axis j : ℕ), axis < shape.length →
      mrVal shape (Function.update g axis j) =
        mrVal shape (Function.update g axis 0) + j * (shape.drop (axis + 1)).prod := by
  intro shape
  induction shape with
  | nil =>
    intro g axis j hax
    simp at hax
  | cons e es ih =>
    intro g axis j hax
    match axis with
    | 0 =>
      have h1 : ∀ v : ℕ, mrVal (e :: es) (Function.update g 0 v) =
          v * es.prod + mrVal es (fun i => g (i + 1)) := by
        intro v
        rw [mrVal, Function.update_same,
          mrVal_congr es (fun i => Function.update g 0 v (i + 1)) (fun i => g (i + 1))
            (fun i _ => Function.update_noteq (by omega) _ _)]
      rw [h1, h1]
      simp only [List.drop_succ_cons, List.drop_zero]
      ring
    | a + 1 =>
      have h1 : ∀ v : ℕ, mrVal (e :: es) (Function.update g (a + 1) v) =
          g 0 * es.prod + mrVal es (Function.update (fun i => g (i + 1)) a v) := by
        intro v
        rw [mrVal, Function.update_noteq (by omega) _ _,
          mrVal_congr es (fun i => Function.update g (a + 1) v (i + 1))
            (Function.update (fun i => g (i + 1)) a v) ?_]
        intro i _
        show Function.update g (a + 1) v (i + 1) =
          Function.update (fun i => g (i + 1)) a v i
        by_cases hia : i = a
        · subst hia
          rw [Function.update_same, Function.update_same]
        · rw [Function.update_noteq (by omega) _ _, Function.update_noteq hia _ _]
      rw [h1, h1, ih (fun i => g (i + 1)) a j (by simpa using Nat.lt_of_succ_lt_succ hax)]
      simp only [List.drop_succ_cons]
      ring

/-! ### The per-lane window and output specification -/

theorem laneWin_congr (lane lane2 : ℕ → Val) (W i : ℕ)
    (h : ∀ t, t ≤ i → lane t = lane2 t) : laneWin lane W i = laneWin lane2 W i := by
  rw [laneWin, laneWin]
  congr 1
  apply List.map_congr_left
  intro t ht
  exact h t (by have := List.mem_range.mp ht; omega)

theorem laneOut_congr (F : List Val → Val) (lane lane2 : ℕ → Val) (W M i : ℕ)
    (h : ∀ t, t ≤ i → lane t = lane2 t) :
    laneOut F lane W M i = laneOut F lane2 W M i := by
  rw [laneOut, laneOut, laneWin_congr lane lane2 W i h]

theorem window_step (L : List Val) (a : Val) (k : ℕ) (hk : k ≤ L.length) :
    (L.drop k ++ [a]).tail = (L ++ [a]).drop (k + 1) := by
  by_cases hlt : k < L.length
  · rw [List.drop_append_of_le_length (by omega), ← List.tail_drop]
    have hne : L.drop k ≠ [] := by
      intro h
      have h2 : (L.drop k).length = L.length - k := List.length_drop k L
      rw [h] at h2
      simp at h2
      omega
    cases hdk : L.drop k with
    | nil => exact absurd hdk hne
    | cons y ys => simp
  · have hk2 : k = L.length := by omega
    subst hk2
    rw [List.drop_length, List.nil_append,
      List.drop_eq_nil_of_le (by simp)]
    rfl

/-- The inner axis loop writes `laneOut` at each of its positions and
nothing else, provided the unprocessed positions still hold the lane's
original values. -/
theorem rollAxisLoop_spec (F : List Val → Val) (W M st b : ℕ) (hst : 0 < st)
    (lane : ℕ → Val) :
    ∀ (r iAx : ℕ) (s : List Val) (arr : ℕ → Val),
      s = ((List.range iAx).map lane).drop (iAx - W) →
      (∀ j, iAx ≤ j → j < iAx + r → arr (b + j * st) = lane j) →
      (∀ j, iAx ≤ j → j < iAx + r →
        (rollAxisLoop (refEngine F) W M st iAx r (b + iAx * st) s arr).2 (b + j * st) =
          laneOut F lane W M j) ∧
      (∀ x, (∀ j, iAx ≤ j → j < iAx + r → x ≠ b + j * st) →
        (rollAxisLoop (refEngine F) W M st iAx r (b + iAx * st) s arr).2 x = arr x) := by
  intro r
  induction r with
  | zero =>
    intro iAx s arr _ _
    exact ⟨fun j hj1 hj2 => by omega, fun x _ => rfl⟩
  | succ r ih =>
    intro iAx s arr hs hread
    have hmul : ∀ j, iAx < j → b + iAx * st ≠ b + j * st := by
      intro j hj h
      have := Nat.mul_lt_mul_of_pos_right hj hst
      omega
    have hval : arr (b + iAx * st) = lane iAx := hread iAx le_rfl (by omega)
    have hwin : (if W ≤ iAx then
          ((refEngine F).push s (arr (b + iAx * st))).tail
        else (refEngine F).push s (arr (b + iAx * st))) =
        ((List.range (iAx + 1)).map lane).drop (iAx + 1 - W) := by
      show (if W ≤ iAx then (s ++ [arr (b + iAx * st)]).tail
        else s ++ [arr (b + iAx * st)]) = _
      rw [hval, hs, List.range_succ, List.map_append, List.map_singleton]
      by_cases hw : W ≤ iAx
      · rw [if_pos hw,
          window_step ((List.range iAx).map lane) (lane iAx) (iAx - W) (by simp),
          show iAx - W + 1 = iAx + 1 - W by omega]
      · rw [if_neg hw, show iAx - W = 0 by omega, show iAx + 1 - W = 0 by omega,
          List.drop_zero, List.drop_zero]
    simp only [rollAxisLoop]
    have hcast : b + iAx * st + st = b + (iAx + 1) * st := by ring
    rw [hcast]
    have hs2eq : (if W ≤ iAx then (refEngine F).pop
          ((refEngine F).push s (arr (b + iAx * st)))
        else (refEngine F).push s (arr (b + iAx * st))) =
        ((List.range (iAx + 1)).map lane).drop (iAx + 1 - W) := hwin
    rw [hs2eq]
    have hread2 : ∀ j, iAx + 1 ≤ j → j < iAx + 1 + r →
        Function.update arr (b + iAx * st)
          (if M ≤ (refEngine F).size_notnan
              (((List.range (iAx + 1)).map lane).drop (iAx + 1 - W))
            then (refEngine F).compute
              (((List.range (iAx + 1)).map lane).drop (iAx + 1 - W))
            else .nan) (b + j * st) = lane j := by
      intro j hj1 hj2
      rw [Function.update_noteq (fun h => hmul j (by omega) h.symm)]
      exact hread j (by omega) (by omega)
    obtain ⟨ihw, ihf⟩ := ih (iAx + 1) _ _
      (by rw [show iAx + 1 - W = (iAx + 1) - W from rfl]) hread2
    constructor
    · intro j hj1 hj2
      by_cases hji : j = iAx
      · subst hji
        rw [ihf (b + j * st) (fun j2 hj2a hj2b => hmul j2 (by omega)),
          Function.update_same]
        rw [laneOut]
        have hwineq : laneWin lane W j =
            ((List.range (j + 1)).map lane).drop (j + 1 - W) := rfl
        rw [hwineq]
        rfl
      · exact ihw j (by omega) (by omega)
    · intro x hx
      rw [ihf x (fun j hj1 hj2 => hx j (by omega) (by omega)),
        Function.update_noteq (fun h => hx iAx le_rfl (by omega) h)]

/-! ### The odometer rank of a multi-index -/

theorem leVal_congr (exts : ℕ → ℕ) :
    ∀ (ps : List ℕ) (g h : ℕ → ℕ), (∀ p ∈ ps, g p = h p) →
      leVal exts ps g = leVal exts ps h := by
  intro ps
  induction ps with
  | nil => intro g h _; rfl
  | cons p ps ih =>
    intro g h hgh
    rw [leVal, leVal, hgh p (List.mem_cons_self p ps),
      ih g h (fun q hq => hgh q (List.mem_cons_of_mem p hq))]

theorem leVal_lt (exts : ℕ → ℕ) :
    ∀ ps : List ℕ, (∀ p ∈ ps, 0 < exts p) → ∀ g : ℕ → ℕ,
      (∀ p ∈ ps, g p < exts p) → leVal exts ps g < (ps.map exts).prod := by
  intro ps
  induction ps with
  | nil => intro _ g _; simp [leVal]
  | cons p ps ih =>
    intro hpos g hg
    have hA : leVal exts ps g < (ps.map exts).prod :=
      ih (fun q hq => hpos q (List.mem_cons_of_mem p hq)) g
        (fun q hq => hg q (List.mem_cons_of_mem p hq))
    have h1 : exts p * (leVal exts ps g + 1) ≤ exts p * (ps.map exts).prod :=
      Nat.mul_le_mul_left _ (Nat.succ_le_of_lt hA)
    have h2 : exts p * (leVal exts ps g + 1) =
        exts p * leVal exts ps g + exts p := by ring
    have hgp : g p < exts p := hg p (List.mem_cons_self p ps)
    rw [List.map_cons, List.prod_cons, leVal]
    omega

theorem leVal_maxed (exts : ℕ → ℕ) :
    ∀ ps : List ℕ, (∀ p ∈ ps, 0 < exts p) → ∀ g : ℕ → ℕ,
      (∀ p ∈ ps, g p = exts p - 1) →
      leVal exts ps g = (ps.map exts).prod - 1 := by
  intro ps
  induction ps with
  | nil => intro _ g _; rfl
  | cons p ps ih =>
    intro hpos g hg
    have hP : 0 < (ps.map exts).prod := by
      refine List.prod_pos fun x hx => ?_
      obtain ⟨q, hq, rfl⟩ := List.mem_map.mp hx
      exact hpos q (List.mem_cons_of_mem p hq)
    have hA := ih (fun q hq => hpos q (List.mem_cons_of_mem p hq)) g
      (fun q hq => hg q (List.mem_cons_of_mem p hq))
    have hep : 0 < exts p := hpos p (List.mem_cons_self p ps)
    have h3 : exts p * (ps.map exts).prod =
        exts p * ((ps.map exts).prod - 1) + exts p := by
      cases hPm : (ps.map exts).prod with
      | zero => omega
      | succ m =>
        simp only [Nat.succ_sub_one]
        ring
    rw [List.map_cons, List.prod_cons, leVal, hA, hg p (List.mem_cons_self p ps)]
    omega

theorem leVal_zero (exts : ℕ → ℕ) :
    ∀ ps : List ℕ, ∀ g : ℕ → ℕ, (∀ p ∈ ps, g p = 0) → leVal exts ps g = 0 := by
  intro ps
  induction ps with
  | nil => intro g _; rfl
  | cons p ps ih =>
    intro g hg
    rw [leVal, hg p (List.mem_cons_self p ps),
      ih g (fun q hq => hg q (List.mem_cons_of_mem p hq))]
    ring

theorem leVal_append (exts : ℕ → ℕ) :
    ∀ (ps qs : List ℕ) (g : ℕ → ℕ),
      leVal exts (ps ++ qs) g =
        leVal exts ps g + (ps.map exts).prod * leVal exts qs g := by
  intro ps
  induction ps with
  | nil =>
    intro qs g
    simp [leVal]
  | cons p ps ih =>
    intro qs g
    rw [List.cons_append, leVal, leVal, ih qs g, List.map_cons, List.prod_cons]
    ring

theorem leVal_inj (exts : ℕ → ℕ) :
    ∀ ps : List ℕ, (∀ p ∈ ps, 0 < exts p) →
      ∀ g h : ℕ → ℕ, (∀ p ∈ ps, g p < exts p) → (∀ p ∈ ps, h p < exts p) →
        leVal exts ps g = leVal exts ps h → ∀ p ∈ ps, g p = h p := by
  intro ps
  induction ps with
  | nil => intro _ g h _ _ _ p hp; simp at hp
  | cons p ps ih =>
    intro hpos g h hg hh he q hq
    have hep : 0 < exts p := hpos p (List.mem_cons_self p ps)
    rw [leVal, leVal] at he
    have hgp : g p = (g p + exts p * leVal exts ps g) % exts p := by
      rw [Nat.add_mul_mod_self_left,
        Nat.mod_eq_of_lt (hg p (List.mem_cons_self p ps))]
    have hhp : h p = (h p + exts p * leVal exts ps h) % exts p := by
      rw [Nat.add_mul_mod_self_left,
        Nat.mod_eq_of_lt (hh p (List.mem_cons_self p ps))]
    have hdig : g p = h p := by rw [hgp, he, ← hhp]
    have htail : leVal exts ps g = leVal exts ps h := by
      have h2 : exts p * leVal exts ps g = exts p * leVal exts ps h := by omega
      exact Nat.eq_of_mul_eq_mul_left hep h2
    rcases List.mem_cons.mp hq with h1 | h1
    · subst h1; exact hdig
    · exact ih (fun r hr => hpos r (List.mem_cons_of_mem p hr)) g h
        (fun r hr => hg r (List.mem_cons_of_mem p hr))
        (fun r hr => hh r (List.mem_cons_of_mem p hr)) htail q h1

/-! ### The odometer's traversal chain of non-target axes -/

theorem naChainL_base (axis ndim ca : ℕ) (h : ndim ≤ ca) :
    naChainL axis ndim ca = [] := by
  rw [naChainL, if_neg (by omega)]

theorem naChainL_cons (axis ndim ca : ℕ) (h : ca < ndim) :
    naChainL axis ndim ca =
      ca :: naChainL axis ndim (if ca + 1 = axis then ca + 2 else ca + 1) := by
  conv_lhs => rw [naChainL]
  rw [if_pos h]

theorem naChainL_lt_ndim (axis ndim : ℕ) :
    ∀ (d ca : ℕ), ndim ≤ ca + d → ∀ i ∈ naChainL axis ndim ca, i < ndim := by
  intro d
  induction d with
  | zero =>
    intro ca hd i hi
    rw [naChainL_base axis ndim ca (by omega)] at hi
    simp at hi
  | succ d ih =>
    intro ca hd i hi
    by_cases hcn : ca < ndim
    · rw [naChainL_cons axis ndim ca hcn] at hi
      rcases List.mem_cons.mp hi with h1 | h1
      · omega
      · by_cases hsk : ca + 1 = axis
        · rw [if_pos hsk] at h1
          exact ih (ca + 2) (by omega) i h1
        · rw [if_neg hsk] at h1
          exact ih (ca + 1) (by omega) i h1
    · rw [naChainL_base axis ndim ca (by omega)] at hi
      simp at hi

theorem naChainL_ge (axis ndim : ℕ) :
    ∀ (d ca : ℕ), ndim ≤ ca + d → ∀ i ∈ naChainL axis ndim ca, ca ≤ i := by
  intro d
  induction d with
  | zero =>
    intro ca hd i hi
    rw [naChainL_base axis ndim ca (by omega)] at hi
    simp at hi
  | succ d ih =>
    intro ca hd i hi
    by_cases hcn : ca < ndim
    · rw [naChainL_cons axis ndim ca hcn] at hi
      rcases List.mem_cons.mp hi with h1 | h1
      · omega
      · by_cases hsk : ca + 1 = axis
        · rw [if_pos hsk] at h1
          have := ih (ca + 2) (by omega) i h1
          omega
        · rw [if_neg hsk] at h1
          have := ih (ca + 1) (by omega) i h1
          omega
    · rw [naChainL_base axis ndim ca (by omega)] at hi
      simp at hi

theorem naChainL_mem (axis ndim : ℕ) :
    ∀ (d ca : ℕ), ndim ≤ ca + d → ca ≠ axis →
      ∀ i, i ∈ naChainL axis ndim ca ↔ (ca ≤ i ∧ i < ndim ∧ i ≠ axis) := by
  intro d
  induction d with
  | zero =>
    intro ca hd _ i
    rw [naChainL_base axis ndim ca (by omega)]
    simp
    omega
  | succ d ih =>
    intro ca hd hca i
    by_cases hcn : ca < ndim
    · rw [naChainL_cons axis ndim ca hcn, List.mem_cons]
      by_cases hsk : ca + 1 = axis
      · rw [if_pos hsk, ih (ca + 2) (by omega) (by omega) i]
        omega
      · rw [if_neg hsk, ih (ca + 1) (by omega) (by omega) i]
        omega
    · rw [naChainL_base axis ndim ca (by omega)]
      simp
      omega

theorem naChainL_pairwise (axis ndim : ℕ) :
    ∀ (d ca : ℕ), ndim ≤ ca + d →
      List.Pairwise (· < ·) (naChainL axis ndim ca) := by
  intro d
  induction d with
  | zero =>
    intro ca hd
    rw [naChainL_base axis ndim ca (by omega)]
    exact List.Pairwise.nil
  | succ d ih =>
    intro ca hd
    by_cases hcn : ca < ndim
    · rw [naChainL_cons axis ndim ca hcn]
      refine List.pairwise_cons.mpr ⟨?_, ?_⟩
      · intro i hi
        by_cases hsk : ca + 1 = axis
        · rw [if_pos hsk] at hi
          have := naChainL_ge axis ndim (d) (ca + 2) (by omega) i hi
          omega
        · rw [if_neg hsk] at hi
          have := naChainL_ge axis ndim (d) (ca + 1) (by omega) i hi
          omega
      · by_cases hsk : ca + 1 = axis
        · rw [if_pos hsk]
          exact ih (ca + 2) (by omega)
        · rw [if_neg hsk]
          exact ih (ca + 1) (by omega)
    · rw [naChainL_base axis ndim ca (by omega)]
      exact List.Pairwise.nil

theorem naChainL_nodup (axis ndim d ca : ℕ) (hd : ndim ≤ ca + d) :
    (naChainL axis ndim ca).Nodup :=
  (naChainL_pairwise axis ndim d ca hd).imp (fun h => Nat.ne_of_lt h)

theorem naChainL_prod (axis ndim : ℕ) (exts : ℕ → ℕ) (hax : axis < ndim) :
    ∀ (d ca : ℕ), ndim ≤ ca + d → ca ≠ axis →
      ((naChainL axis ndim ca).map exts).prod *
          (if ca ≤ axis then exts axis else 1) =
        ((List.range' ca (ndim - ca)).map exts).prod := by
  intro d
  induction d with
  | zero =>
    intro ca hd _
    rw [naChainL_base axis ndim ca (by omega), if_neg (by omega),
      show ndim - ca = 0 by omega]
    simp
  | succ d ih =>
    intro ca hd hca
    by_cases hcn : ca < ndim
    · rw [naChainL_cons axis ndim ca hcn, List.map_cons, List.prod_cons]
      by_cases hsk : ca + 1 = axis
      · subst hsk
        rw [if_pos (by omega : ca ≤ ca + 1)]
        have IH := ih (ca + 2) (by omega) (by omega)
        rw [if_neg (by omega : ¬ca + 2 ≤ ca + 1), mul_one] at IH
        rw [if_pos rfl, show ndim - ca = (ndim - ca - 2) + 1 + 1 by omega,
          List.range'_succ, List.map_cons, List.prod_cons, List.range'_succ,
          List.map_cons, List.prod_cons,
          show ndim - ca - 2 = ndim - (ca + 2) by omega, ← IH]
        ring
      · rw [if_neg hsk]
        have IH := ih (ca + 1) (by omega) hsk
        rw [show ndim - ca = (ndim - ca - 1) + 1 by omega, List.range'_succ,
          List.map_cons, List.prod_cons,
          show ndim - ca - 1 = ndim - (ca + 1) by omega, ← IH]
        by_cases hle : ca + 1 ≤ axis
        · rw [if_pos hle, if_pos (by omega)]
          ring
        · rw [if_neg hle, if_neg (by omega)]
          ring
    · rw [naChainL_base axis ndim ca (by omega), if_neg (by omega),
        show ndim - ca = 0 by omega]
      simp

theorem updZero_not_mem :
    ∀ (ps : List ℕ) (g : ℕ → ℕ) (q : ℕ), q ∉ ps → updZero ps g q = g q := by
  intro ps
  induction ps with
  | nil => intro g q _; rfl
  | cons p ps ih =>
    intro g q hq
    rw [updZero, ih (Function.update g p 0) q (fun h => hq (List.mem_cons_of_mem p h)),
      Function.update_noteq (fun h => hq (by rw [h]; exact List.mem_cons_self p ps))]

theorem updZero_mem :
    ∀ (ps : List ℕ) (g : ℕ → ℕ) (q : ℕ), q ∈ ps → updZero ps g q = 0 := by
  intro ps
  induction ps with
  | nil => intro g q hq; simp at hq
  | cons p ps ih =>
    intro g q hq
    by_cases hq2 : q ∈ ps
    · exact ih (Function.update g p 0) q hq2
    · have hqp : q = p := by
        rcases List.mem_cons.mp hq with h | h
        · exact h
        · exact absurd h hq2
      subst hqp
      rw [updZero, updZero_not_mem ps (Function.update g q 0) q hq2,
        Function.update_same]

/-! ### The cascade: zeroing the saturated prefix -/

theorem cascade_sat (shape : List ℕ) (axis ndim : ℕ) :
    ∀ (d ca : ℕ), ndim ≤ ca + d → ∀ g : ℕ → ℕ,
      (∀ p ∈ naChainL axis ndim ca, g p = shape.getD p 0 - 1) →
      ∃ g2 c, cascade shape axis ndim g ca = (g2, c) ∧ ndim ≤ c := by
  intro d
  induction d with
  | zero =>
    intro ca hd g _
    rw [cascade, dif_neg (fun h => absurd h.1 (by omega))]
    exact ⟨g, ca, rfl, by omega⟩
  | succ d ih =>
    intro ca hd g hsat
    by_cases hcn : ca < ndim
    · have hgca : g ca = shape.getD ca 0 - 1 := by
        refine hsat ca ?_
        rw [naChainL_cons axis ndim ca hcn]
        exact List.mem_cons_self _ _
      rw [cascade, dif_pos ⟨hcn, hgca⟩]
      by_cases hsk : ca + 1 = axis
      · rw [if_pos hsk]
        refine ih (ca + 2) (by omega) (Function.update g ca 0) ?_
        intro p hp
        have hge := naChainL_ge axis ndim d (ca + 2) (by omega) p hp
        rw [Function.update_noteq (by omega)]
        refine hsat p ?_
        rw [naChainL_cons axis ndim ca hcn, if_pos hsk]
        exact List.mem_cons_of_mem _ hp
      · rw [if_neg hsk]
        refine ih (ca + 1) (by omega) (Function.update g ca 0) ?_
        intro p hp
        have hge := naChainL_ge axis ndim d (ca + 1) (by omega) p hp
        rw [Function.update_noteq (by omega)]
        refine hsat p ?_
        rw [naChainL_cons axis ndim ca hcn, if_neg hsk]
        exact List.mem_cons_of_mem _ hp
    · rw [cascade, dif_neg (fun h => absurd h.1 (by omega))]
      exact ⟨g, ca, rfl, by omega⟩

theorem cascade_unsat (shape : List ℕ) (axis ndim : ℕ) :
    ∀ (d ca : ℕ), ndim ≤ ca + d → ∀ g : ℕ → ℕ,
      (∃ p ∈ naChainL axis ndim ca, g p ≠ shape.getD p 0 - 1) →
      ∃ ps p qs, naChainL axis ndim ca = ps ++ p :: qs ∧
        (∀ q ∈ ps, g q = shape.getD q 0 - 1) ∧ g p ≠ shape.getD p 0 - 1 ∧
        cascade shape axis ndim g ca = (updZero ps g, p) := by
  intro d
  induction d with
  | zero =>
    intro ca hd g hex
    obtain ⟨p, hp, _⟩ := hex
    rw [naChainL_base axis ndim ca (by omega)] at hp
    simp at hp
  | succ d ih =>
    intro ca hd g hex
    by_cases hcn : ca < ndim
    · by_cases hgca : g ca = shape.getD ca 0 - 1
      · obtain ⟨p, hp, hgp⟩ := hex
        rw [naChainL_cons axis ndim ca hcn] at hp
        have hpne : p ≠ ca := fun h => hgp (h ▸ hgca)
        have hp2 := (List.mem_cons.mp hp).resolve_left hpne
        by_cases hsk : ca + 1 = axis
        · rw [if_pos hsk] at hp2
          obtain ⟨ps2, p2, qs2, hchain, hsat2, hunsat2, hcas2⟩ :=
            ih (ca + 2) (by omega) (Function.update g ca 0)
              ⟨p, hp2, by rw [Function.update_noteq hpne]; exact hgp⟩
          refine ⟨ca :: ps2, p2, qs2, ?_, ?_, ?_, ?_⟩
          · rw [naChainL_cons axis ndim ca hcn, if_pos hsk, hchain,
              List.cons_append]
          · intro q hq
            rcases List.mem_cons.mp hq with h1 | h1
            · subst h1; exact hgca
            · have hqge := naChainL_ge axis ndim d (ca + 2) (by omega) q
                (by rw [hchain]; exact List.mem_append_left _ h1)
              have := hsat2 q h1
              rw [Function.update_noteq (by omega)] at this
              exact this
          · intro h
            refine hunsat2 ?_
            have hp2ge := naChainL_ge axis ndim d (ca + 2) (by omega) p2
              (by rw [hchain]; exact List.mem_append_right _ (List.mem_cons_self _ _))
            rw [Function.update_noteq (by omega)]
            exact h
          · rw [cascade, dif_pos ⟨hcn, hgca⟩, if_pos hsk]
            exact hcas2
        · rw [if_neg hsk] at hp2
          obtain ⟨ps2, p2, qs2, hchain, hsat2, hunsat2, hcas2⟩ :=
            ih (ca + 1) (by omega) (Function.update g ca 0)
              ⟨p, hp2, by rw [Function.update_noteq hpne]; exact hgp⟩
          refine ⟨ca :: ps2, p2, qs2, ?_, ?_, ?_, ?_⟩
          · rw [naChainL_cons axis ndim ca hcn, if_neg hsk, hchain,
              List.cons_append]
          · intro q hq
            rcases List.mem_cons.mp hq with h1 | h1
            · subst h1; exact hgca
            · have hqge := naChainL_ge axis ndim d (ca + 1) (by omega) q
                (by rw [hchain]; exact List.mem_append_left _ h1)
              have := hsat2 q h1
              rw [Function.update_noteq (by omega)] at this
              exact this
          · intro h
            refine hunsat2 ?_
            have hp2ge := naChainL_ge axis ndim d (ca + 1) (by omega) p2
              (by rw [hchain]; exact List.mem_append_right _ (List.mem_cons_self _ _))
            rw [Function.update_noteq (by omega)]
            exact h
          · rw [cascade, dif_pos ⟨hcn, hgca⟩, if_neg hsk]
            exact hcas2
      · refine ⟨[], ca, naChainL axis ndim (if ca + 1 = axis then ca + 2 else ca + 1),
          naChainL_cons axis ndim ca hcn, by simp, hgca, ?_⟩
        rw [cascade, dif_neg (fun h => hgca h.2)]
        rfl
    · obtain ⟨p, hp, _⟩ := hex
      rw [naChainL_base axis ndim ca (by omega)] at hp
      simp at hp

/-! ### The odometer advance: rank successor or exhaustion -/

theorem advance_none (shape : List ℕ) (axis ndim start d : ℕ)
    (hstart : start < ndim) (hd : ndim ≤ start + d) (g : ℕ → ℕ)
    (hsat : ∀ p ∈ naChainL axis ndim start, g p = shape.getD p 0 - 1) :
    advanceIdx shape axis ndim start g = none := by
  rw [advanceIdx]
  have hgs : g start = shape.getD start 0 - 1 := by
    refine hsat start ?_
    rw [naChainL_cons axis ndim start hstart]
    exact List.mem_cons_self _ _
  rw [if_pos hgs]
  obtain ⟨g2, c, hcas, hc⟩ := cascade_sat shape axis ndim d start hd g hsat
  rw [hcas, if_neg (by simp; omega)]

theorem advanceIdx_dim1 (shape : List ℕ) (g : ℕ → ℕ)
    (h : g 0 = shape.getD 0 0 - 1) : advanceIdx shape 0 1 0 g = none := by
  rw [advanceIdx, if_pos h]
  have hcas : cascade shape 0 1 g 0 = (Function.update g 0 0, 1) := by
    rw [cascade, dif_pos ⟨Nat.one_pos, h⟩, if_neg (by omega)]
    rw [cascade, dif_neg (fun h2 => absurd h2.1 (by omega))]
  rw [hcas, if_neg (by simp)]

theorem advance_some (shape : List ℕ) (axis ndim start d : ℕ)
    (hstart : start < ndim) (hd : ndim ≤ start + d) (g : ℕ → ℕ)
    (hnodup : (naChainL axis ndim start).Nodup)
    (hpos : ∀ p ∈ naChainL axis ndim start, 0 < shape.getD p 0)
    (hvalid : ∀ p ∈ naChainL axis ndim start, g p < shape.getD p 0)
    (hex : ∃ p ∈ naChainL axis ndim start, g p ≠ shape.getD p 0 - 1) :
    ∃ g3, advanceIdx shape axis ndim start g = some g3 ∧
      (∀ p ∈ naChainL axis ndim start, g3 p < shape.getD p 0) ∧
      leVal (fun i => shape.getD i 0) (naChainL axis ndim start) g3 =
        leVal (fun i => shape.getD i 0) (naChainL axis ndim start) g + 1 := by
  rw [advanceIdx]
  by_cases hgs : g start = shape.getD start 0 - 1
  · rw [if_pos hgs]
    obtain ⟨ps, p, qs, hchain, hsatp, hunsat, hcas⟩ :=
      cascade_unsat shape axis ndim d start hd g hex
    have hpnd : p < ndim := by
      refine naChainL_lt_ndim axis ndim d start hd p ?_
      rw [hchain]
      exact List.mem_append_right _ (List.mem_cons_self _ _)
    rw [hcas, if_pos (by simpa using hpnd)]
    have hnd2 : (ps ++ p :: qs).Nodup := by rw [← hchain]; exact hnodup
    have hdisj := (List.nodup_append.mp hnd2).2.2
    have hpps : p ∉ ps := fun h => hdisj h (List.mem_cons_self _ _)
    have hpqs : p ∉ qs := by
      have := (List.nodup_append.mp hnd2).2.1
      exact (List.nodup_cons.mp this).1
    have hupzp : updZero ps g p = g p := updZero_not_mem ps g p hpps
    have hgp_lt : g p < shape.getD p 0 := by
      refine hvalid p ?_
      rw [hchain]
      exact List.mem_append_right _ (List.mem_cons_self _ _)
    have hgp_pos : 0 < shape.getD p 0 := by
      refine hpos p ?_
      rw [hchain]
      exact List.mem_append_right _ (List.mem_cons_self _ _)
    refine ⟨_, rfl, ?_, ?_⟩
    · intro q hq
      show Function.update (updZero ps g) p (updZero ps g p + 1) q < shape.getD q 0
      rw [hchain] at hq
      rcases List.mem_append.mp hq with h1 | h1
      · have hqp : q ≠ p := fun h => hpps (by rw [← h]; exact h1)
        rw [Function.update_noteq hqp, updZero_mem ps g q h1]
        refine hpos q ?_
        rw [hchain]
        exact List.mem_append_left _ h1
      · rcases List.mem_cons.mp h1 with h2 | h2
        · subst h2
          rw [Function.update_same, hupzp]
          omega
        · have hqp : q ≠ p := fun h => hpqs (by rw [← h]; exact h2)
          have hqps : q ∉ ps := fun h => hdisj h h1
          rw [Function.update_noteq hqp, updZero_not_mem ps g q hqps]
          refine hvalid q ?_
          rw [hchain]
          exact List.mem_append_right _ h1
    · have hgoal : leVal (fun i => shape.getD i 0) (naChainL axis ndim start)
          (Function.update (updZero ps g) p (updZero ps g p + 1)) =
          leVal (fun i => shape.getD i 0) (naChainL axis ndim start) g + 1 := by
        rw [hchain, leVal_append, leVal_append, leVal, leVal]
        have hz : leVal (fun i => shape.getD i 0) ps
            (Function.update (updZero ps g) p (updZero ps g p + 1)) = 0 := by
          refine leVal_zero _ ps _ fun q hq => ?_
          have hqp : q ≠ p := fun h => hpps (by rw [← h]; exact hq)
          rw [Function.update_noteq hqp, updZero_mem ps g q hq]
        have hm : leVal (fun i => shape.getD i 0) ps g =
            (ps.map fun i => shape.getD i 0).prod - 1 := by
          refine leVal_maxed _ ps ?_ g hsatp
          intro q hq
          refine hpos q ?_
          rw [hchain]
          exact List.mem_append_left _ hq
        have hq_eq : leVal (fun i => shape.getD i 0) qs
            (Function.update (updZero ps g) p (updZero ps g p + 1)) =
            leVal (fun i => shape.getD i 0) qs g := by
          refine leVal_congr _ qs _ _ fun q hq => ?_
          have hqp : q ≠ p := fun h => hpqs (by rw [← h]; exact hq)
          rw [Function.update_noteq hqp,
            updZero_not_mem ps g q (fun h => hdisj h (List.mem_cons_of_mem _ hq))]
        have hPps : 0 < (ps.map fun i => shape.getD i 0).prod := by
          refine List.prod_pos fun x hx => ?_
          obtain ⟨q, hq, rfl⟩ := List.mem_map.mp hx
          refine hpos q ?_
          rw [hchain]
          exact List.mem_append_left _ hq
        rw [hz, hm, hq_eq, Function.update_same, hupzp]
        have hr : ∀ Q P c v : ℕ, 0 < P →
            0 + P * ((v + 1) + c * Q) = P - 1 + P * (v + c * Q) + 1 := by
          intro Q P c v hP
          have h1 : P * ((v + 1) + c * Q) = P * (v + c * Q) + P := by ring
          omega
        exact hr _ _ _ _ hPps
      exact hgoal
  · rw [if_neg hgs]
    have hchain := naChainL_cons axis ndim start hstart
    have hrest_ne : ∀ q ∈ naChainL axis ndim
        (if start + 1 = axis then start + 2 else start + 1), q ≠ start := by
      intro q hq
      have hnd2 : (start :: naChainL axis ndim
          (if start + 1 = axis then start + 2 else start + 1)).Nodup := by
        rw [← hchain]; exact hnodup
      intro h
      subst h
      exact (List.nodup_cons.mp hnd2).1 hq
    refine ⟨_, rfl, ?_, ?_⟩
    · intro q hq
      by_cases hq2 : q = start
      · subst hq2
        rw [Function.update_same]
        have h1 : g q < shape.getD q 0 := hvalid q hq
        have h2 : 0 < shape.getD q 0 := hpos q hq
        omega
      · rw [Function.update_noteq hq2]
        exact hvalid q hq
    · rw [hchain, leVal, leVal, Function.update_same,
        leVal_congr _ _ (Function.update g start (g start + 1)) g
          (fun q hq => Function.update_noteq (hrest_ne q hq) _ _)]
      ring

/-! ### The lane enumeration of `roll_ndarray` -/

theorem getD_pos (shape : List ℕ) (hpos : ∀ e ∈ shape, 0 < e) (i : ℕ)
    (hi : i < shape.length) : 0 < shape.getD i 0 := by
  rw [List.getD_eq_getElem shape 0 hi]
  exact hpos _ (List.getElem_mem hi)

theorem naL_mem_iff (shape : List ℕ) (axis : ℕ) (hax : axis < shape.length) :
    ∀ i, i ∈ naLOf shape axis ↔ (i < shape.length ∧ i ≠ axis) := by
  intro i
  rw [naLOf]
  by_cases h1 : 1 < shape.length
  · rw [if_pos h1,
      naChainL_mem axis shape.length shape.length (if axis = 0 then 1 else 0)
        (by split <;> omega) (by split <;> omega) i]
    by_cases ha0 : axis = 0
    · rw [if_pos ha0]
      omega
    · rw [if_neg ha0]
      omega
  · rw [if_neg h1]
    simp
    omega

theorem naL_nodup (shape : List ℕ) (axis : ℕ) : (naLOf shape axis).Nodup := by
  rw [naLOf]
  by_cases h1 : 1 < shape.length
  · rw [if_pos h1]
    exact naChainL_nodup axis shape.length shape.length _ (by split <;> omega)
  · rw [if_neg h1]
    exact List.nodup_nil

theorem naL_pos (shape : List ℕ) (axis : ℕ) (hax : axis < shape.length)
    (hpos : ∀ e ∈ shape, 0 < e) :
    ∀ p ∈ naLOf shape axis, 0 < shape.getD p 0 := by
  intro p hp
  exact getD_pos shape hpos p ((naL_mem_iff shape axis hax p).mp hp).1

theorem prod_getD_range (shape : List ℕ) :
    ((List.range shape.length).map (fun i => shape.getD i 0)).prod = shape.prod := by
  induction shape with
  | nil => rfl
  | cons e es ih =>
    rw [List.length_cons, List.range_succ_eq_map, List.map_cons, List.prod_cons,
      List.map_map, List.prod_cons]
    have hmap : ((List.range es.length).map
        ((fun i => (e :: es).getD i 0) ∘ Nat.succ)) =
        (List.range es.length).map (fun i => es.getD i 0) := by
      apply List.map_congr_left
      intro i _
      simp
    rw [hmap, ih]
    rfl

theorem naL_prod (shape : List ℕ) (axis : ℕ) (hax : axis < shape.length)
    (hpos : ∀ e ∈ shape, 0 < e) :
    ((naLOf shape axis).map (fun i => shape.getD i 0)).prod * shape.getD axis 0 =
      shape.prod := by
  rw [naLOf]
  have hconn : ((List.range' 0 shape.length).map (fun i => shape.getD i 0)).prod =
      shape.prod := by
    rw [← List.range_eq_range', prod_getD_range]
  by_cases h1 : 1 < shape.length
  · rw [if_pos h1]
    by_cases ha0 : axis = 0
    · subst ha0
      have H := naChainL_prod 0 shape.length (fun i => shape.getD i 0) (by omega)
        shape.length 1 (by omega) (by omega)
      rw [if_neg (by omega), mul_one] at H
      rw [if_pos rfl, H, ← hconn]
      obtain ⟨n, hn⟩ : ∃ n, shape.length = n + 1 := ⟨shape.length - 1, by omega⟩
      rw [hn, List.range'_succ, List.map_cons, List.prod_cons, Nat.add_sub_cancel]
      ring
    · have H := naChainL_prod axis shape.length (fun i => shape.getD i 0) (by omega)
        shape.length 0 (by omega) (fun h => ha0 h.symm)
      rw [if_pos (by omega), Nat.sub_zero] at H
      rw [if_neg ha0, H]
      exact hconn
  · rw [if_neg h1]
    obtain ⟨e, rfl⟩ : ∃ e, shape = [e] := by
      cases shape with
      | nil => simp at hax
      | cons a l =>
        cases l with
        | nil => exact ⟨a, rfl⟩
        | cons b l2 => simp at h1
    have ha0 : axis = 0 := by simpa using hax
    subst ha0
    simp

/-! ### The outer loop: every lane once, in odometer order -/

/-- The outer loop of `roll_ndarray` with the reference engine: starting
from a multi-index of rank `r`, it terminates with `ok`, writes
`laneOut` along the axis of every lane of rank at least `r`, and leaves
every other position unchanged. -/
theorem rollOuter_spec (F : List Val → Val) (shape : List ℕ) (axis W M : ℕ)
    (hax : axis < shape.length) (hpos : ∀ e ∈ shape, 0 < e) :
    ∀ (fuel : ℕ) (g : ℕ → ℕ) (s : List Val) (arr : ℕ → Val),
      (∀ p ∈ naLOf shape axis, g p < shape.getD p 0) →
      ((naLOf shape axis).map (fun i => shape.getD i 0)).prod -
          leVal (fun i => shape.getD i 0) (naLOf shape axis) g ≤ fuel →
      ∃ out,
        rollOuter (refEngine F) shape (cStrides shape) axis W M shape.length
            (startOf shape axis) shape.prod fuel g s arr = .ok out ∧
        (∀ h : ℕ → ℕ, (∀ i, i < shape.length → h i < shape.getD i 0) →
          leVal (fun i => shape.getD i 0) (naLOf shape axis) g ≤
            leVal (fun i => shape.getD i 0) (naLOf shape axis) h →
          ∀ j, j < shape.getD axis 0 →
            out (mrVal shape (Function.update h axis j)) =
              laneOut F (fun t => arr (mrVal shape (Function.update h axis t)))
                W M j) ∧
        (∀ x : ℕ,
          (∀ h : ℕ → ℕ, (∀ i, i < shape.length → h i < shape.getD i 0) →
            leVal (fun i => shape.getD i 0) (naLOf shape axis) g ≤
              leVal (fun i => shape.getD i 0) (naLOf shape axis) h →
            x ≠ mrVal shape h) → out x = arr x) := by
  have hextAx : 0 < shape.getD axis 0 := getD_pos shape hpos axis hax
  have hnalpos := naL_pos shape axis hax hpos
  intro fuel
  induction fuel with
  | zero =>
    intro g s arr hg hfuel
    exfalso
    have hlt := leVal_lt (fun i => shape.getD i 0) (naLOf shape axis) hnalpos g hg
    omega
  | succ fuel ih =>
    intro g s arr hg hfuel
    have hupd_valid : ∀ j, j < shape.getD axis 0 →
        ∀ i, i < shape.length → Function.update g axis j i < shape.getD i 0 := by
      intro j hj i hi
      by_cases hia : i = axis
      · subst hia
        rw [Function.update_same]
        exact hj
      · rw [Function.update_noteq hia]
        exact hg i ((naL_mem_iff shape axis hax i).mpr ⟨hi, hia⟩)
    have hupd_rank : ∀ j, leVal (fun i => shape.getD i 0) (naLOf shape axis)
        (Function.update g axis j) =
        leVal (fun i => shape.getD i 0) (naLOf shape axis) g :=
      fun j => leVal_congr _ _ _ _ fun p hp =>
        Function.update_noteq ((naL_mem_iff shape axis hax p).mp hp).2 _ _
    have hsi : scalarIndexOf shape.length (Function.update g axis 0) (cStrides shape) =
        mrVal shape (Function.update g axis 0) :=
      scalarIndexOf_cStrides shape (Function.update g axis 0)
    have hsiN : mrVal shape (Function.update g axis 0) < shape.prod :=
      mrVal_lt shape (Function.update g axis 0) (hupd_valid 0 hextAx) hpos
    have hstA : (cStrides shape).getD axis 0 = (shape.drop (axis + 1)).prod :=
      cStrides_getD shape axis hax
    have hstpos : 0 < (cStrides shape).getD axis 0 := by
      rw [hstA]
      exact List.prod_pos fun x hx => hpos x (List.mem_of_mem_drop hx)
    have hpositions : ∀ (h2 : ℕ → ℕ) (t : ℕ),
        mrVal shape (Function.update h2 axis 0) + t * (cStrides shape).getD axis 0 =
          mrVal shape (Function.update h2 axis t) := by
      intro h2 t
      rw [hstA, ← mrVal_update_axis shape h2 axis t hax]
    simp only [rollOuter]
    rw [show (refEngine F).clear s = ([] : List Val) from rfl, hsi,
      if_pos hsiN, if_pos hextAx, Function.update_idem]
    have hread : ∀ j, 0 ≤ j → j < 0 + shape.getD axis 0 →
        arr (mrVal shape (Function.update g axis 0) +
          j * (cStrides shape).getD axis 0) =
        (fun t => arr (mrVal shape (Function.update g axis t))) j := by
      intro j _ _
      rw [hpositions g j]
    have spec0 := rollAxisLoop_spec F W M ((cStrides shape).getD axis 0)
      (mrVal shape (Function.update g axis 0)) hstpos
      (fun t => arr (mrVal shape (Function.update g axis t)))
      (shape.getD axis 0) 0 [] arr (by simp) hread
    rw [show mrVal shape (Function.update g axis 0) +
        0 * (cStrides shape).getD axis 0 =
      mrVal shape (Function.update g axis 0) from by ring] at spec0
    obtain ⟨specW, specFr⟩ := spec0
    by_cases hsat : ∀ p ∈ naLOf shape axis, g p = shape.getD p 0 - 1
    · -- last lane: the advance exhausts the traversal
      have hadv : advanceIdx shape axis shape.length (startOf shape axis)
          (Function.update g axis (shape.getD axis 0 - 1)) = none := by
        by_cases h1 : 1 < shape.length
        · rw [show startOf shape axis = if axis = 0 then 1 else 0 from by
            rw [startOf, if_neg (by omega)]]
          refine advance_none shape axis shape.length (if axis = 0 then 1 else 0)
            shape.length (by split <;> omega) (by split <;> omega) _ ?_
          intro p hp
          have hpmem : p ∈ naLOf shape axis := by
            rw [naLOf, if_pos h1]
            exact hp
          rw [Function.update_noteq ((naL_mem_iff shape axis hax p).mp hpmem).2]
          exact hsat p hpmem
        · have hax0 : axis = 0 := by omega
          subst hax0
          rw [show startOf shape 0 = 0 from by
            rw [startOf, if_pos (by omega)], show shape.length = 1 from by omega]
          exact advanceIdx_dim1 shape _ (by rw [Function.update_same])
      rw [hadv]
      refine ⟨_, rfl, ?_, ?_⟩
      · intro h2 hh2 hrk j hj
        have hrkeq : leVal (fun i => shape.getD i 0) (naLOf shape axis) h2 =
            leVal (fun i => shape.getD i 0) (naLOf shape axis) g := by
          have hmax := leVal_maxed (fun i => shape.getD i 0) (naLOf shape axis)
            hnalpos g hsat
          have hlt2 := leVal_lt (fun i => shape.getD i 0) (naLOf shape axis)
            hnalpos h2
            (fun p hp => hh2 p ((naL_mem_iff shape axis hax p).mp hp).1)
          omega
        have hagree := leVal_inj (fun i => shape.getD i 0) (naLOf shape axis)
          hnalpos h2 g
          (fun p hp => hh2 p ((naL_mem_iff shape axis hax p).mp hp).1) hg hrkeq
        have hposeq : ∀ t, t < shape.getD axis 0 →
            mrVal shape (Function.update h2 axis t) =
              mrVal shape (Function.update g axis t) := by
          intro t _
          refine mrVal_congr shape _ _ fun i hi => ?_
          by_cases hia : i = axis
          · subst hia
            rw [Function.update_same, Function.update_same]
          · rw [Function.update_noteq hia, Function.update_noteq hia]
            exact hagree i ((naL_mem_iff shape axis hax i).mpr ⟨hi, hia⟩)
        rw [hposeq j hj, ← hpositions g j, specW j (Nat.zero_le j) (by omega)]
        refine laneOut_congr F _ _ W M j fun t ht => ?_
        exact congrArg arr (hposeq t (by omega)).symm
      · intro x hx
        refine specFr x fun j hj1 hj2 heq => ?_
        rw [hpositions g j] at heq
        exact hx (Function.update g axis j) (hupd_valid j (by omega))
          (by rw [hupd_rank j]) heq
    · -- advance to the next lane and recurse
      have h1 : 1 < shape.length := by
        by_contra hcon
        refine hsat ?_
        rw [naLOf, if_neg hcon]
        intro p hp
        simp at hp
      push_neg at hsat
      have hnaleq : naLOf shape axis =
          naChainL axis shape.length (if axis = 0 then 1 else 0) := by
        rw [naLOf, if_pos h1]
      have hstartv : startOf shape axis = if axis = 0 then 1 else 0 := by
        rw [startOf, if_neg (by omega)]
      have hg'valid : ∀ p ∈ naChainL axis shape.length (if axis = 0 then 1 else 0),
          Function.update g axis (shape.getD axis 0 - 1) p < shape.getD p 0 := by
        intro p hp
        have hpmem : p ∈ naLOf shape axis := by
          rw [hnaleq]
          exact hp
        rw [Function.update_noteq ((naL_mem_iff shape axis hax p).mp hpmem).2]
        exact hg p hpmem
      have hg'ex : ∃ p ∈ naChainL axis shape.length (if axis = 0 then 1 else 0),
          Function.update g axis (shape.getD axis 0 - 1) p ≠ shape.getD p 0 - 1 := by
        obtain ⟨p, hp, hne⟩ := hsat
        refine ⟨p, by rw [← hnaleq]; exact hp, ?_⟩
        rw [Function.update_noteq ((naL_mem_iff shape axis hax p).mp hp).2]
        exact hne
      obtain ⟨g3, hadv, hg3valid, hg3rank⟩ := advance_some shape axis shape.length
        (if axis = 0 then 1 else 0) shape.length (by split <;> omega)
        (by split <;> omega) _ (by rw [← hnaleq]; exact naL_nodup shape axis)
        (fun p hp => hnalpos p (by rw [hnaleq]; exact hp)) hg'valid hg'ex
      have hadv2 : advanceIdx shape axis shape.length (startOf shape axis)
          (Function.update g axis (shape.getD axis 0 - 1)) = some g3 := by
        rw [hstartv]
        exact hadv
      rw [hadv2]
      have hg'rank : leVal (fun i => shape.getD i 0)
          (naChainL axis shape.length (if axis = 0 then 1 else 0))
          (Function.update g axis (shape.getD axis 0 - 1)) =
          leVal (fun i => shape.getD i 0) (naLOf shape axis) g := by
        rw [← hnaleq]
        exact hupd_rank _
      have hg3rank2 : leVal (fun i => shape.getD i 0) (naLOf shape axis) g3 =
          leVal (fun i => shape.getD i 0) (naLOf shape axis) g + 1 := by
        rw [hnaleq, hg3rank, hg'rank, hnaleq]
      have hg3validL : ∀ p ∈ naLOf shape axis, g3 p < shape.getD p 0 := by
        intro p hp
        refine hg3valid p ?_
        rw [← hnaleq]
        exact hp
      obtain ⟨out, hout, hcov2, hfr2⟩ := ih g3
        (rollAxisLoop (refEngine F) W M ((cStrides shape).getD axis 0) 0
          (shape.getD axis 0) (mrVal shape (Function.update g axis 0)) [] arr).1
        (rollAxisLoop (refEngine F) W M ((cStrides shape).getD axis 0) 0
          (shape.getD axis 0) (mrVal shape (Function.update g axis 0)) [] arr).2
        hg3validL (by omega)
      refine ⟨out, hout, ?_, ?_⟩
      · intro h2 hh2 hrk j hj
        by_cases hrkeq : leVal (fun i => shape.getD i 0) (naLOf shape axis) h2 =
            leVal (fun i => shape.getD i 0) (naLOf shape axis) g
        · -- the lane being processed in this iteration
          have hagree := leVal_inj (fun i => shape.getD i 0) (naLOf shape axis)
            hnalpos h2 g
            (fun p hp => hh2 p ((naL_mem_iff shape axis hax p).mp hp).1) hg hrkeq
          have hposeq : ∀ t, t < shape.getD axis 0 →
              mrVal shape (Function.update h2 axis t) =
                mrVal shape (Function.update g axis t) := by
            intro t _
            refine mrVal_congr shape _ _ fun i hi => ?_
            by_cases hia : i = axis
            · subst hia
              rw [Function.update_same, Function.update_same]
            · rw [Function.update_noteq hia, Function.update_noteq hia]
              exact hagree i ((naL_mem_iff shape axis hax i).mpr ⟨hi, hia⟩)
          have hfr2cond : ∀ h3 : ℕ → ℕ,
              (∀ i, i < shape.length → h3 i < shape.getD i 0) →
              leVal (fun i => shape.getD i 0) (naLOf shape axis) g3 ≤
                leVal (fun i => shape.getD i 0) (naLOf shape axis) h3 →
              mrVal shape (Function.update g axis j) ≠ mrVal shape h3 := by
            intro h3 hh3 hrk3 heq
            have hptwise := mrVal_inj shape (Function.update g axis j) h3
              (hupd_valid j hj) hh3 hpos heq
            have hrk3eq : leVal (fun i => shape.getD i 0) (naLOf shape axis) h3 =
                leVal (fun i => shape.getD i 0) (naLOf shape axis) g := by
              have hagree3 : ∀ p ∈ naLOf shape axis, h3 p = g p := by
                intro p hp
                obtain ⟨hplt, hpax⟩ := (naL_mem_iff shape axis hax p).mp hp
                rw [← hptwise p hplt, Function.update_noteq hpax]
              exact leVal_congr _ _ _ _ hagree3
            omega
          rw [hposeq j hj, hfr2 (mrVal shape (Function.update g axis j)) hfr2cond,
            ← hpositions g j, specW j (Nat.zero_le j) (by omega)]
          refine laneOut_congr F _ _ W M j fun t ht => ?_
          exact congrArg arr (hposeq t (by omega)).symm
        · -- a later lane: handled by the recursive call
          have hrkge : leVal (fun i => shape.getD i 0) (naLOf shape axis) g3 ≤
              leVal (fun i => shape.getD i 0) (naLOf shape axis) h2 := by
            omega
          rw [hcov2 h2 hh2 hrkge j hj]
          refine laneOut_congr F _ _ W M j fun t ht => ?_
          refine specFr (mrVal shape (Function.update h2 axis t))
            fun j2 hj2a hj2b heq => ?_
          rw [hpositions g j2] at heq
          have hptwise := mrVal_inj shape (Function.update h2 axis t)
            (Function.update g axis j2)
            (by
              intro i hi
              by_cases hia : i = axis
              · subst hia
                rw [Function.update_same]
                omega
              · rw [Function.update_noteq hia]
                exact hh2 i hi)
            (hupd_valid j2 (by omega)) hpos heq
          have hagree2 : ∀ p ∈ naLOf shape axis, h2 p = g p := by
            intro p hp
            obtain ⟨hplt, hpax⟩ := (naL_mem_iff shape axis hax p).mp hp
            have := hptwise p hplt
            rw [Function.update_noteq hpax, Function.update_noteq hpax] at this
            exact this
          have : leVal (fun i => shape.getD i 0) (naLOf shape axis) h2 =
              leVal (fun i => shape.getD i 0) (naLOf shape axis) g :=
            leVal_congr _ _ _ _ hagree2
          omega
      · intro x hx
        rw [hfr2 x fun h3 hh3 hrk3 => hx h3 hh3 (by omega)]
        refine specFr x fun j hj1 hj2 heq => ?_
        rw [hpositions g j] at heq
        exact hx (Function.update g axis j) (hupd_valid j (by omega))
          (by rw [hupd_rank j]) heq

theorem roll_ndarray_default {σ : Type} (E : EngineModel σ) (s : σ) (arr : ℕ → Val)
    (shape : List ℕ) (axis window min_periods : ℕ) (h0 : 0 < shape.length) :
    roll_ndarray E s arr shape axis window min_periods [] =
      rollOuter E shape (cStrides shape) axis window min_periods shape.length
        (startOf shape axis) (shape.foldl (· * ·) 1) (shape.foldl (· * ·) 1 + 1)
        (fun _ => 0) s arr := by
  rw [roll_ndarray, if_pos h0, if_pos (Or.inl rfl), if_pos rfl]
  rfl

/-! ### Claim C6: lane/window semantics of `roll_ndarray` -/

/-- Claim C6: for every buffer, shape (of positive extents), valid
target axis, window `W` and minimum count `M`, `roll_ndarray` (with the
default strides) succeeds, and the element at axis position `i` of each
lane (the multi-index `g`, with `g axis = i`) afterwards holds the
engine's compute over that lane's original elements at axis positions
`max(0, i-W+1) .. i` when that trailing window holds at least `M`
non-NaN values, and the NaN sentinel otherwise; the value depends only
on the lane's own original elements. -/
theorem claim_C6 (F : List Val → Val) (s : List Val) (arr : ℕ → Val)
    (shape : List ℕ) (axis window min_periods : ℕ)
    (hax : axis < shape.length) (hpos : ∀ e ∈ shape, 0 < e) :
    ∃ out : ℕ → Val,
      roll_ndarray (refEngine F) s arr shape axis window min_periods [] =
          .ok out ∧
      ∀ g : ℕ → ℕ, (∀ i, i < shape.length → g i < shape.getD i 0) →
        out (mrVal shape g) =
          laneOut F (fun t => arr (mrVal shape (Function.update g axis t)))
            window min_periods (g axis) := by
  have hndim : 0 < shape.length := by omega
  have hL := naL_prod shape axis hax hpos
  have hrank0 : leVal (fun i => shape.getD i 0) (naLOf shape axis) (fun _ => 0) = 0 :=
    leVal_zero _ _ _ (fun p _ => rfl)
  have hfuel : ((naLOf shape axis).map (fun i => shape.getD i 0)).prod -
      leVal (fun i => shape.getD i 0) (naLOf shape axis) (fun _ => 0) ≤
      shape.prod + 1 := by
    rw [hrank0, Nat.sub_zero]
    have hle : ((naLOf shape axis).map (fun i => shape.getD i 0)).prod ≤
        shape.prod := by
      rw [← hL]
      exact Nat.le_mul_of_pos_right _ (getD_pos shape hpos axis hax)
    omega
  obtain ⟨out, hrun, hcov, _⟩ := rollOuter_spec F shape axis window min_periods hax
    hpos (shape.prod + 1) (fun _ => 0) s arr
    (fun p hp => naL_pos shape axis hax hpos p hp) hfuel
  refine ⟨out, ?_, ?_⟩
  · rw [roll_ndarray_default (refEngine F) s arr shape axis window min_periods hndim]
    simp only [← List.prod_eq_foldl]
    exact hrun
  · intro g hg
    have h2 := hcov g hg (by rw [hrank0]; exact Nat.zero_le _) (g axis) (hg axis hax)
    rw [Function.update_eq_self axis g] at h2
    exact h2

/-- Witness for C6 on a concrete 2×2 array rolled along axis 0. -/
theorem claim_C6_witness :
    ∃ out : ℕ → Val,
      roll_ndarray (refEngine (fun w => w.headD .nan)) [] (fun _ => .num 1)
          [2, 2] 0 2 1 [] = .ok out ∧
      ∀ g : ℕ → ℕ, (∀ i, i < ([2, 2] : List ℕ).length →
          g i < ([2, 2] : List ℕ).getD i 0) →
        out (mrVal [2, 2] g) =
          laneOut (fun w => w.headD .nan)
            (fun t => (fun _ => (Val.num 1)) (mrVal [2, 2] (Function.update g 0 t)))
            2 1 (g 0) :=
  claim_C6 (fun w => w.headD .nan) [] (fun _ => .num 1) [2, 2] 0 2 1
    (by decide) (by decide)

/-! ### Claim C3: the compute() validity gate -/

/-- Claim C3: for every engine, `compute()` returns the NaN sentinel if
and only if the non-NaN count is zero, or the engine was constructed in
propagate mode and the NaN count is positive, or the statistic-specific
formula itself yields the sentinel; otherwise it returns the value of
the statistic-specific formula.  Stated on `computeWith`, the shared
gate through which every modelled engine's `compute()` runs, with `aux`
the result of the engine's `compute_aux`. -/
theorem claim_C3 (skip : Bool) (nn nv : ℕ) (aux : Val) :
    (computeWith skip nn nv aux = .nan ↔
      nv = 0 ∨ (skip = false ∧ 0 < nn) ∨ aux = .nan) ∧
    (¬(nv = 0 ∨ (skip = false ∧ 0 < nn)) → computeWith skip nn nv aux = aux) := by
  unfold computeWith
  split
  · next h =>
    exact ⟨⟨fun _ => by tauto, fun _ => rfl⟩, fun hc => absurd h hc⟩
  · next h =>
    refine ⟨⟨fun ha => .inr (.inr ha), fun hd => ?_⟩, fun _ => rfl⟩
    rcases hd with h0 | hp | ha
    · exact absurd (Or.inl h0) h
    · exact absurd (Or.inr hp) h
    · exact ha

/-- Witness for C3 at concrete inputs: a skip-NaN engine with one valid
value returns its formula's value. -/
theorem claim_C3_witness : computeWith true 0 1 (.num 2) = .num 2 :=
  (claim_C3 true 0 1 (.num 2)).2 (by decide)

/-! ### Claim C8: the low-variance guard of skewness and z-score -/

/-- Claim C8: for `RollingSkewness` and `RollingZScore`, whenever
`compute()` passes the validity gate but the window variance
`Σx²/n − (Σx/n)²` is below `1e-16`, `compute()` returns the NaN
sentinel instead of evaluating the dividing formula (`Σx²` being
accumulator 1 for skewness and accumulator 2 for z-score). -/
theorem claim_C8 (sqrtQ : ℚ → ℚ) (s : MomentState)
    (hgate : ¬(s.num_vals_notnan = 0 ∨ (s.skip_nan = false ∧ 0 < s.num_vals_nan))) :
    ((s.unnormalized_moments 1 / (s.num_vals_notnan : ℚ) -
        (s.unnormalized_moments 0 / (s.num_vals_notnan : ℚ)) *
        (s.unnormalized_moments 0 / (s.num_vals_notnan : ℚ)) < EPSILON) →
      RollingSkewness.compute sqrtQ s = .nan) ∧
    ((s.unnormalized_moments 2 / (s.num_vals_notnan : ℚ) -
        (s.unnormalized_moments 0 / (s.num_vals_notnan : ℚ)) *
        (s.unnormalized_moments 0 / (s.num_vals_notnan : ℚ)) < EPSILON) →
      RollingZScore.compute sqrtQ s = .nan) := by
  constructor <;> intro hvar
  · rw [RollingSkewness.compute, MomentState.compute, computeWith, if_neg hgate,
      RollingSkewness.compute_aux]
    simp only [if_pos hvar]
  · rw [RollingZScore.compute, MomentState.compute, computeWith, if_neg hgate,
      RollingZScore.compute_aux]
    simp only [if_pos hvar]

/-- Witness for C8: on a zero-variance single-value state both engines
return the NaN sentinel. -/
theorem claim_C8_witness :
    RollingSkewness.compute (fun _ => 0) constVarState = .nan ∧
    RollingZScore.compute (fun _ => 0) constVarState = .nan :=
  ⟨(claim_C8 (fun _ => 0) constVarState (by decide)).1 (by norm_num [constVarState, EPSILON]),
   (claim_C8 (fun _ => 0) constVarState (by decide)).2 (by norm_num [constVarState, EPSILON])⟩

end RS
